import Mathlib

/-!
# `translation/convert_to_british.js`: American to British spelling conversion

A shallow embedding of the script and the properties proved about it.

Modelling conventions.

* A JavaScript string is a list of characters (`Str`).  Case mapping (`toUpperCase`, and
  the canonicalisation used by the `i` flag of a regular expression) is the ASCII one:
  `a`..`z` map to `A`..`Z` and every other character is left alone; the word-character
  class `\w` used by `\b` is ASCII in JavaScript as well.  The model agrees with the script
  for dictionaries whose keys and values are ASCII strings (`AsciiDict`), whatever the
  lines hold: with an ASCII key the `i` flag never identifies a character outside ASCII
  with a character of the key, and on ASCII strings `List.length` is `.length`.  The
  theorems that depend on the case mapping or on the length of a key carry that
  hypothesis.
* The dictionary `spellings` is the member list of the JSON document read at
  start-up.  `objectKeys` and `getProp` give `Object.keys(spellings)` and
  `spellings[k]` for the object `JSON.parse` builds from it.
* The scan of a key uses `matchHere`, the key matched literally between two `\b`
  assertions.  The source text the script really builds, `\b` + `escapeRegExp(key)` + `\b`,
  is modelled as well (`regexSource`, `parsePattern`, `matchItems`), and
  `parsePattern_regexSource` with `matchItems_regex` show that it denotes `matchHere`.
* Code that can throw returns `Option`; `none` stands for the `TypeError`.
* The mutable `convertedText` / `changes` pair of `convertToBritish` and the
  per-file `changes` array are threaded through the loops explicitly.
-/

namespace ConvertToBritish

/-- A JavaScript string, as the list of its code units. -/
abbrev Str := List Char

/-! ## Characters -/

/-- `String.prototype.toUpperCase` on one code unit (ASCII case mapping). -/
def upperChar (c : Char) : Char :=
  if 97 ≤ c.toNat ∧ c.toNat ≤ 122 then Char.ofNat (c.toNat - 32) else c

/-- `s.toUpperCase()`. -/
def toUpperCase (s : Str) : Str := s.map upperChar

/-- The canonicalisation a regular expression with the `i` flag (and no `u` flag) applies to
both the pattern character and the input character before comparing them. -/
def canonicalize (c : Char) : Char := upperChar c

/-- The class `\d`: `0`..`9`. -/
def isDigit (c : Char) : Bool := decide (48 ≤ c.toNat ∧ c.toNat ≤ 57)

/-- The class `\w`: `A`..`Z`, `a`..`z`, `0`..`9` and `_`. -/
def isWordChar (c : Char) : Bool :=
  decide (65 ≤ c.toNat ∧ c.toNat ≤ 90) || decide (97 ≤ c.toNat ∧ c.toNat ≤ 122) ||
    isDigit c || decide (c.toNat = 95)

/-- White space and line terminators, the characters `String.prototype.trim` strips. -/
def isWhiteSpace (c : Char) : Bool :=
  decide (c.toNat ∈ [9, 10, 11, 12, 13, 32, 160, 5760, 8232, 8233, 8239, 8287, 12288, 65279]) ||
    decide (8192 ≤ c.toNat ∧ c.toNat ≤ 8202)

/-! ## The regular expression `\bKEY\b` with flags `gi` -/

/-- Whether a present character is a word character (`false` at either end of the input). -/
def isWordAt (c : Option Char) : Bool :=
  match c with
  | none => false
  | some x => isWordChar x

/-- The assertion `\b` between the character before the position and the one after it. -/
def isWordBoundary (prev next : Option Char) : Bool := isWordAt prev != isWordAt next

/-- One attempt of `\bKEY\b` (flag `i`) at a position: `prev` is the character before the
position, `rest` the input from the position on.  `escapeRegExp` makes every character of the
key a literal, so the pattern is the key itself between two `\b` assertions.  The result is
the matched text `match[0]`. -/
def matchHere (american : Str) (prev : Option Char) (rest : Str) : Option Str :=
  let w := rest.take american.length
  if isWordBoundary prev rest.head? &&
      decide (w.map canonicalize = american.map canonicalize) &&
      isWordBoundary (prev.toList ++ w).getLast? (rest.drop american.length).head? then
    some w
  else none

/-- The scan of `matchAll` from a position on: `skip` counts the positions still lying before
`lastIndex`.  After a match of length `n` the scan resumes at its end (`n - 1` positions are
skipped); after an empty match `lastIndex` is advanced by one. -/
def matchAllFrom (american : Str) : Option Char → Str → Nat → List Str
  | prev, [], skip =>
    if skip = 0 then (matchHere american prev []).toList else []
  | prev, c :: cs, skip =>
    if skip = 0 then
      match matchHere american prev (c :: cs) with
      | some w => w :: matchAllFrom american (some c) cs (w.length - 1)
      | none => matchAllFrom american (some c) cs 0
    else matchAllFrom american (some c) cs (skip - 1)

/-- The array `[...convertedText.matchAll(regex)]`, each match given by its text `match[0]`. -/
def matchAll (american text : Str) : List Str := matchAllFrom american none text 0

/-! ## `String.prototype.replace` with a string pattern -/

/-- The text before and after the first occurrence of `needle`, if there is one. -/
def splitAtFirst (needle : Str) : Str → Option (Str × Str)
  | [] => if needle = [] then some ([], []) else none
  | c :: cs =>
    if needle.isPrefixOf (c :: cs) then some ([], (c :: cs).drop needle.length)
    else
      match splitAtFirst needle cs with
      | some (before, after) => some (c :: before, after)
      | none => none

/-- The substitution of the `$` patterns of a replacement string (`GetSubstitution` with no
captures): `$$`, `$&`, the dollar-backtick and the dollar-quote patterns are expanded, every
other `$` stays as it is. -/
def getSubstitution (matched before after : Str) : Str → Str
  | [] => []
  | [c] => [c]
  | c :: d :: rest =>
    if c = '$' then
      if d = '$' then '$' :: getSubstitution matched before after rest
      else if d = '&' then matched ++ getSubstitution matched before after rest
      else if d = Char.ofNat 96 then before ++ getSubstitution matched before after rest
      else if d = Char.ofNat 39 then after ++ getSubstitution matched before after rest
      else c :: getSubstitution matched before after (d :: rest)
    else c :: getSubstitution matched before after (d :: rest)

/-- `text.replace(search, replacement)` for strings `search` and `replacement`: only the first
occurrence of `search` is replaced. -/
def replace (text search replacement : Str) : Str :=
  match splitAtFirst search text with
  | none => text
  | some (before, after) => before ++ getSubstitution search before after replacement ++ after

/-! ## The dictionary -/

/-- The members of the JSON document `american_spellings.json`, in document order. -/
abbrev Dict := List (Str × Str)

/-- The value of a numeric string. -/
def numericValue (k : Str) : Nat := k.foldl (fun n c => 10 * n + (c.toNat - 48)) 0

/-- Whether a property key is an array index (a canonical numeric string below `2^32 - 1`);
such keys come first, in ascending numeric order, in `Object.keys`. -/
def isArrayIndex (k : Str) : Bool :=
  decide (k = ['0']) ||
    (decide (k ≠ []) && k.all isDigit && decide (k.head? ≠ some '0') &&
      decide (numericValue k < 2 ^ 32 - 1))

/-- The keys of a member list without repetitions, each at its first position. -/
def dedupKeys : List Str → List Str
  | [] => []
  | k :: ks => k :: (dedupKeys ks).filter (fun x => decide (x ≠ k))

/-- Insertion into a list ordered by ascending numeric value. -/
def insertByValue (k : Str) : List Str → List Str
  | [] => [k]
  | x :: xs => if numericValue k ≤ numericValue x then k :: x :: xs else x :: insertByValue k xs

/-- Array-index keys in ascending numeric order. -/
def sortByValue : List Str → List Str
  | [] => []
  | k :: ks => insertByValue k (sortByValue ks)

/-- `Object.keys(spellings)`: array-index keys in ascending order, then the other keys in
creation order. -/
def objectKeys (spellings : Dict) : List Str :=
  let ks := dedupKeys (spellings.map Prod.fst)
  sortByValue (ks.filter isArrayIndex) ++ ks.filter (fun k => !isArrayIndex k)

/-- `spellings[k]`: the value of the last member with key `k` (a later member of a JSON object
overwrites an earlier one); `none` stands for `undefined`. -/
def getProp : Dict → Str → Option Str
  | [], _ => none
  | (k, v) :: rest, key =>
    match getProp rest key with
    | some x => some x
    | none => if k = key then some v else none

/-- Insertion step of the stable sort with comparator `(a, b) => b.length - a.length`: the new
key goes before the first key that is not longer than it. -/
def insertByLength (k : Str) : List Str → List Str
  | [] => [k]
  | x :: xs => if x.length ≤ k.length then k :: x :: xs else x :: insertByLength k xs

/-- `keys.sort((a, b) => b.length - a.length)`: stable, longest first. -/
def sortByLength : List Str → List Str
  | [] => []
  | k :: ks => insertByLength k (sortByLength ks)

/-- The constant `sortedKeys` of `convertToBritish`. -/
def sortedKeys (spellings : Dict) : List Str := sortByLength (objectKeys spellings)

/-! ## `convertToBritish` -/

/-- One entry of the array `changes`. -/
structure Change where
  line : Nat
  original : Str
  changed : Str
deriving DecidableEq, Repr

/-- The case-preserving replacement computed for one match (lines 43-55).  `none` is the
`TypeError` raised by `originalWord[0].toUpperCase()` when `originalWord` is empty. -/
def replacementFor (american british originalWord : Str) : Option Str :=
  if originalWord = american then some british
  else if originalWord = toUpperCase american then some (toUpperCase british)
  else
    match originalWord with
    | [] => none
    | c :: _ =>
      if [c] = toUpperCase [c] then some (toUpperCase (british.take 1) ++ british.drop 1)
      else some british

/-- The loop `for (const match of matches)` (lines 39-67) on the state
`(convertedText, changes)`. -/
def applyMatches (american british : Str) (lineNumber : Nat) :
    List Str → Str × List Change → Option (Str × List Change)
  | [], st => some st
  | originalWord :: rest, (convertedText, changes) =>
    match replacementFor american british originalWord with
    | none => none
    | some replacement =>
      if originalWord ≠ replacement then
        applyMatches american british lineNumber rest
          (replace convertedText originalWord replacement,
            changes ++ [⟨lineNumber, originalWord, replacement⟩])
      else applyMatches american british lineNumber rest (convertedText, changes)

/-- The loop `for (const american of sortedKeys)` (lines 30-68). -/
def convertKeys (spellings : Dict) (lineNumber : Nat) :
    List Str → Str × List Change → Option (Str × List Change)
  | [], st => some st
  | american :: rest, (convertedText, changes) =>
    match getProp spellings american with
    | none => none
    | some british =>
      match applyMatches american british lineNumber (matchAll american convertedText)
          (convertedText, changes) with
      | none => none
      | some st => convertKeys spellings lineNumber rest st

/-- The function `convertToBritish(text, lineNumber, fileName)`; the result is the pair
`(convertedText, changes)`.  The parameter `fileName` is not used by the body. -/
def convertToBritish (spellings : Dict) (text : Str) (lineNumber : Nat) :
    Option (Str × List Change) :=
  convertKeys spellings lineNumber (sortedKeys spellings) (text, [])

/-! ## The file pipeline -/

/-- `content.split('\n')`. -/
def splitLines : Str → List Str
  | [] => [[]]
  | c :: cs =>
    if c = '\n' then [] :: splitLines cs
    else
      match splitLines cs with
      | [] => [[c]]
      | l :: ls => (c :: l) :: ls

/-- `lines.join('\n')`. -/
def joinLines : List Str → Str
  | [] => []
  | [l] => l
  | l :: m :: ls => l ++ '\n' :: joinLines (m :: ls)

/-- `line.trim()`. -/
def trim (s : Str) : Str :=
  ((s.dropWhile isWhiteSpace).reverse.dropWhile isWhiteSpace).reverse

/-- The atoms of the timestamp pattern: `\d` or a literal character. -/
inductive Atom where
  | digit : Atom
  | lit : Char → Atom
deriving DecidableEq, Repr

/-- Match of a sequence of atoms against the whole input (the pattern is anchored by `^` and
`$`, and has no `m` flag). -/
def matchAtoms : List Atom → Str → Bool
  | [], [] => true
  | [], _ :: _ => false
  | _ :: _, [] => false
  | Atom.digit :: as, c :: cs => isDigit c && matchAtoms as cs
  | Atom.lit x :: as, c :: cs => decide (c = x) && matchAtoms as cs

/-- The atoms of `\d{2}:\d{2}:\d{2}\.\d{3}`. -/
def clockAtoms : List Atom :=
  [Atom.digit, Atom.digit, Atom.lit ':', Atom.digit, Atom.digit, Atom.lit ':',
    Atom.digit, Atom.digit, Atom.lit '.', Atom.digit, Atom.digit, Atom.digit]

/-- The pattern `/^\d{2}:\d{2}:\d{2}\.\d{3} --> \d{2}:\d{2}:\d{2}\.\d{3}$/`. -/
def timestampAtoms : List Atom :=
  clockAtoms ++ [Atom.lit ' ', Atom.lit '-', Atom.lit '-', Atom.lit '>', Atom.lit ' '] ++
    clockAtoms

/-- The condition of line 105: the trimmed line is empty, a timestamp range or `WEBVTT`. -/
def isStructuralLine (line : Str) : Bool :=
  decide (trim line = []) || matchAtoms timestampAtoms (trim line) ||
    decide (trim line = "WEBVTT".toList)

/-- The callback of `lines.map` (lines 101-117) for the line at index `lineIndex`, with the
array `conversionLog[fileName].changes` threaded through: the line emitted and the array
afterwards. -/
def processLine (spellings : Dict) (line : Str) (lineIndex : Nat) (log : List Change) :
    Option (Str × List Change) :=
  if isStructuralLine line then some (line, log)
  else
    match convertToBritish spellings line (lineIndex + 1) with
    | none => none
    | some (convertedText, changes) =>
      some (convertedText, if changes.length > 0 then log ++ changes else log)

/-- The call `lines.map(...)` over the lines from index `lineIndex` on. -/
def processLines (spellings : Dict) : Nat → List Str → List Change →
    Option (List Str × List Change)
  | _, [], log => some ([], log)
  | lineIndex, line :: rest, log =>
    match processLine spellings line lineIndex log with
    | none => none
    | some (out, log1) =>
      match processLines spellings (lineIndex + 1) rest log1 with
      | none => none
      | some (outs, log2) => some (out :: outs, log2)

/-- The value stored in `conversionLog[fileName]`. -/
structure FileLog where
  outputFile : Str
  changes : List Change
deriving DecidableEq, Repr

/-- What processing one file produces. -/
structure FileResult where
  outputFileName : Str
  outputContent : Str
  logKey : Str
  logEntry : FileLog
deriving DecidableEq, Repr

/-- The body of `files.forEach` (lines 83-121) for one file: the name and content written to
the output directory, and the entry stored in `conversionLog` under the input file name. -/
def processFile (spellings : Dict) (fileName content : Str) : Option FileResult :=
  let outputFileName := replace fileName "_en.vtt".toList "_uk.vtt".toList
  match processLines spellings 0 (splitLines content) [] with
  | none => none
  | some (convertedLines, changes) =>
    some ⟨outputFileName, joinLines convertedLines, fileName, ⟨outputFileName, changes⟩⟩

/-! ## `escapeRegExp` and the pattern built from a key -/

/-- The characters of the class `[.*+?^${}()|[\]\\]` of `escapeRegExp`. -/
def isRegExpSpecial (c : Char) : Bool :=
  decide (c ∈ ['.', '*', '+', '?', '^', '$', '{', '}', '(', ')', '|', '[', ']', '\\'])

/-- The call `string.replace(/[.*+?^${}()|[\]\\]/g, '\\$&')` from a position on: `before` is
the part of the string already scanned.  Every match is one character of the class, and it is
replaced by the substitution of the template `\$&`. -/
def escapeFrom (before : Str) : Str → Str
  | [] => []
  | c :: cs =>
    (if isRegExpSpecial c then getSubstitution [c] before cs ['\\', '$', '&'] else [c]) ++
      escapeFrom (before ++ [c]) cs

/-- The function `escapeRegExp(string)`. -/
def escapeRegExp (s : Str) : Str := escapeFrom [] s

/-- The source text given to `new RegExp` on line 35. -/
def regexSource (american : Str) : Str :=
  ['\\', 'b'] ++ escapeRegExp american ++ ['\\', 'b']

/-- The terms of a pattern in the fragment the script builds: the assertion `\b` and a
character matched literally. -/
inductive PatItem where
  | boundary : PatItem
  | char : Char → PatItem
deriving DecidableEq, Repr

/-- The reading of a pattern source: `\b` is the word-boundary assertion, a backslash followed
by a syntax character is that character, a character that is not a syntax character is itself.
Everything else (an unescaped syntax character, another escape, a lone backslash at the end) is
outside the fragment: `none`. -/
def parsePattern : Str → Option (List PatItem)
  | [] => some []
  | [c] => if c = '\\' ∨ isRegExpSpecial c = true then none else some [PatItem.char c]
  | c :: d :: rest =>
    if c = '\\' then
      if d = 'b' then
        match parsePattern rest with
        | some items => some (PatItem.boundary :: items)
        | none => none
      else if isRegExpSpecial d then
        match parsePattern rest with
        | some items => some (PatItem.char d :: items)
        | none => none
      else none
    else if isRegExpSpecial c then none
    else
      match parsePattern (d :: rest) with
      | some items => some (PatItem.char c :: items)
      | none => none

/-- One attempt of a sequence of terms at a position (flag `i`): the matched text. -/
def matchItems : List PatItem → Option Char → Str → Option Str
  | [], _, _ => some []
  | PatItem.boundary :: items, prev, rest =>
    if isWordBoundary prev rest.head? then matchItems items prev rest else none
  | PatItem.char _ :: _, _, [] => none
  | PatItem.char p :: items, _, c :: cs =>
    if canonicalize p = canonicalize c then
      match matchItems items (some c) cs with
      | some w => some (c :: w)
      | none => none
    else none

/-! ## The pipeline line by line -/

/-- The line emitted by the callback of `lines.map` for the line at index `lineIndex`. -/
def convertedLine (spellings : Dict) (line : Str) (lineIndex : Nat) : Str :=
  match processLine spellings line lineIndex [] with
  | some st => st.1
  | none => line

/-- The change records the callback of `lines.map` logs for the line at index `lineIndex`. -/
def lineChanges (spellings : Dict) (line : Str) (lineIndex : Nat) : List Change :=
  match processLine spellings line lineIndex [] with
  | some st => st.2
  | none => []

/-- The lines emitted for the lines from index `lineIndex` on. -/
def convertedLines (spellings : Dict) : Nat → List Str → List Str
  | _, [] => []
  | lineIndex, line :: rest =>
    convertedLine spellings line lineIndex :: convertedLines spellings (lineIndex + 1) rest

/-- The change records logged for the lines from index `lineIndex` on, in log order. -/
def fileChanges (spellings : Dict) : Nat → List Str → List Change
  | _, [] => []
  | lineIndex, line :: rest =>
    lineChanges spellings line lineIndex ++ fileChanges spellings (lineIndex + 1) rest

/-! ## The scan key by key -/

/-- The record pushed for one match `originalWord` of the key `american`, if the match is
replaced (lines 58-65). -/
def recordFor (spellings : Dict) (lineNumber : Nat) (american originalWord : Str) :
    Option Change :=
  match getProp spellings american with
  | none => none
  | some british =>
    match replacementFor american british originalWord with
    | none => none
    | some replacement =>
      if originalWord ≠ replacement then some ⟨lineNumber, originalWord, replacement⟩ else none

/-- The working text once one key has been processed. -/
def textAfterKey (spellings : Dict) (lineNumber : Nat) (american text : Str) : Str :=
  match convertKeys spellings lineNumber [american] (text, []) with
  | some st => st.1
  | none => text

/-- The working text at the moment the scan of each key begins, for the keys in the order they
are processed. -/
def scanTexts (spellings : Dict) (lineNumber : Nat) : List Str → Str → List Str
  | [], _ => []
  | american :: rest, text =>
    text :: scanTexts spellings lineNumber rest (textAfterKey spellings lineNumber american text)

/-! ## Vocabulary of the specification -/

/-- The key stands in `text` at index `i` as a whole word, letter case ignored. -/
def WholeWordAt (k text : Str) (i : Nat) : Prop :=
  ((text.drop i).take k.length).map canonicalize = k.map canonicalize ∧
  isWordAt (text.take i).getLast? ≠ isWordAt (text.drop i).head? ∧
  isWordAt (text.take (i + k.length)).getLast? ≠ isWordAt (text.drop (i + k.length)).head?

instance (k text : Str) (i : Nat) : Decidable (WholeWordAt k text i) := by
  unfold WholeWordAt; infer_instance

/-- The key occurs somewhere in `text` as a whole word, letter case ignored. -/
def WholeWordOccurs (k text : Str) : Prop := ∃ i, i < text.length + 1 ∧ WholeWordAt k text i

instance (k text : Str) : Decidable (WholeWordOccurs k text) := by
  unfold WholeWordOccurs; infer_instance

/-- A string of ASCII characters.  On such strings the case mapping of the model is that of
`toUpperCase` and of the `i` flag, and `List.length` is the `.length` of the code. -/
def AsciiStr (s : Str) : Prop := ∀ c ∈ s, c.toNat < 128

instance (s : Str) : Decidable (AsciiStr s) := by
  unfold AsciiStr; infer_instance

/-- A dictionary whose keys and values are ASCII strings. -/
def AsciiDict (d : Dict) : Prop := ∀ kv ∈ d, AsciiStr kv.1 ∧ AsciiStr kv.2

instance (d : Dict) : Decidable (AsciiDict d) := by
  unfold AsciiDict; infer_instance

/-- A lowercase letter `a`..`z`. -/
def isLowerLetter (c : Char) : Bool := decide (97 ≤ c.toNat ∧ c.toNat ≤ 122)

/-- The string with its first character upper-cased and the rest as it is. -/
def capitalize (s : Str) : Str := toUpperCase (s.take 1) ++ s.drop 1

/-- Equality of two strings, letter case ignored. -/
def CiEq (a b : Str) : Prop := a.map canonicalize = b.map canonicalize

instance (a b : Str) : Decidable (CiEq a b) := by
  unfold CiEq; infer_instance

/-- The string `k` stands somewhere inside `s`, letter case ignored. -/
def CiInfix (k s : Str) : Prop := k.map canonicalize <:+: s.map canonicalize

instance (k s : Str) : Decidable (CiInfix k s) := by
  unfold CiInfix; infer_instance

/-- A phrase: a string that begins and ends with a word character. -/
def IsPhrase (s : Str) : Prop := isWordAt s.head? = true ∧ isWordAt s.getLast? = true

instance (s : Str) : Decidable (IsPhrase s) := by
  unfold IsPhrase; infer_instance

/-- The ways a string `K` can come to stand across an end of a string `V` that is written
between two characters that are not word characters: `K` stands in `V`; or `V` ends with a
beginning of `K` that is followed in `K` by a character that is not a word character; or `V`
begins with an end of `K` that is preceded in `K` by such a character; or `V` is a part of
`K` that stands in `K` between two such characters. -/
def TouchesRaw (K V : Str) : Prop :=
  K <:+: V ∨
  (∃ i, i < K.length ∧ 0 < i ∧ isWordAt (K.drop i).head? = false ∧ K.take i <:+ V) ∨
  (∃ i, i < K.length ∧ 0 < i ∧ isWordAt (K.take i).getLast? = false ∧ K.drop i <+: V) ∨
  (∃ i, i < K.length ∧ ∃ j, j < K.length ∧ 0 < i ∧ i ≤ j ∧
    isWordAt (K.take i).getLast? = false ∧ isWordAt (K.drop j).head? = false ∧
    (K.take j).drop i = V)

instance (K V : Str) : Decidable (TouchesRaw K V) := by
  unfold TouchesRaw; infer_instance

/-- The key `k` touches the value `v`, letter case ignored. -/
def Touches (k v : Str) : Prop := TouchesRaw (k.map canonicalize) (v.map canonicalize)

instance (k v : Str) : Decidable (Touches k v) := by
  unfold Touches; infer_instance

/-- Wherever a key of the dictionary stands in the text, letter case ignored, the character
before it and the character after it, if any, are not word characters. -/
def Isolated (d : Dict) (T : Str) : Prop :=
  ∀ kv ∈ d, ∀ X w Y, T = X ++ (w ++ Y) → CiEq w kv.1 →
    isWordAt X.getLast? = false ∧ isWordAt Y.head? = false

/-- The string `s` with a backslash put in front of every character `escapeRegExp` names, and
every other character left where it is. -/
def escapeSpec (s : Str) : Str :=
  s.flatMap (fun c => if isRegExpSpecial c then ['\\', c] else [c])

/-- Removal of the backslash that stands in front of an escaped character. -/
def unescape : Str → Str
  | [] => []
  | [c] => [c]
  | c :: d :: rest => if c = '\\' then d :: unescape rest else c :: unescape (d :: rest)

/-- The replacement of the first occurrence of `original` in `text` by exactly `changed`. -/
def replaceLiteral (text original changed : Str) : Str :=
  match splitAtFirst original text with
  | none => text
  | some (before, after) => before ++ changed ++ after

/-- The change records applied one after the other to a text. -/
def replay (text : Str) (changes : List Change) : Str :=
  changes.foldl (fun t c => replaceLiteral t c.original c.changed) text

/-- The case rule of the specification for a matched word `w` of the entry `k` to `v`: `v`
when `w` is `k`; else `v` upper-cased when `w` is `k` upper-cased; else `v` capitalised when
the first character of `w` is an upper-case letter; else `v`. -/
def caseRuleUpperFirst (k v w : Str) : Str :=
  if w = k then v
  else if w = toUpperCase k then toUpperCase v
  else if w.head?.any (fun c => decide (65 ≤ c.toNat ∧ c.toNat ≤ 90)) then capitalize v
  else v

/-- A clock reading `HH:MM:SS.mmm`: two digits, a colon, two digits, a colon, two digits, a
dot and three digits. -/
def IsClock (s : Str) : Prop :=
  ∃ h1 h2 m1 m2 s1 s2 f1 f2 f3 : Char,
    (isDigit h1 = true ∧ isDigit h2 = true ∧ isDigit m1 = true ∧ isDigit m2 = true ∧
      isDigit s1 = true ∧ isDigit s2 = true ∧ isDigit f1 = true ∧ isDigit f2 = true ∧
      isDigit f3 = true) ∧
    s = [h1, h2, ':', m1, m2, ':', s1, s2, '.', f1, f2, f3]

/-- A timestamp range: a clock reading on both sides of ` --> `. -/
def IsTimestampRange (s : Str) : Prop :=
  ∃ a b, IsClock a ∧ IsClock b ∧ s = a ++ " --> ".toList ++ b

/-! ## Whole-word occurrences and the scan -/

theorem getLast?_toList_append (pre w : Str) :
    (pre.getLast?.toList ++ w).getLast? = (pre ++ w).getLast? := by
  cases w with
  | nil =>
    rcases List.eq_nil_or_concat pre with rfl | ⟨p, c, rfl⟩ <;> simp
  | cons x xs =>
    rw [List.getLast?_append_of_ne_nil _ (List.cons_ne_nil x xs),
      List.getLast?_append_of_ne_nil _ (List.cons_ne_nil x xs)]

theorem matchHere_eq_some_iff (k pre rest w : Str) :
    matchHere k pre.getLast? rest = some w ↔
      (WholeWordAt k (pre ++ rest) pre.length ∧ w = rest.take k.length) := by
  unfold matchHere WholeWordAt isWordBoundary
  simp only [getLast?_toList_append, List.drop_left, List.take_left, List.take_append,
    List.drop_append, Bool.and_eq_true, bne_iff_ne, decide_eq_true_eq]
  constructor
  · intro h
    split at h
    · rename_i hc
      simp only [Option.some.injEq] at h
      exact ⟨⟨hc.1.2, hc.1.1, hc.2⟩, h.symm⟩
    · simp at h
  · rintro ⟨⟨h1, h2, h3⟩, rfl⟩
    rw [if_pos ⟨⟨h2, h1⟩, h3⟩]

theorem matchAllFrom_eq_nil (k : Str) (rest pre : Str) (skip : Nat)
    (h : ∀ i, pre.length ≤ i → i < (pre ++ rest).length + 1 → ¬ WholeWordAt k (pre ++ rest) i) :
    matchAllFrom k pre.getLast? rest skip = [] := by
  induction rest generalizing pre skip with
  | nil =>
    unfold matchAllFrom
    split
    · have : matchHere k pre.getLast? [] = none := by
        cases hm : matchHere k pre.getLast? [] with
        | none => rfl
        | some w =>
          exact absurd ((matchHere_eq_some_iff k pre [] w).1 hm).1 (h _ (le_refl _) (by simp))
      simp [this]
    · rfl
  | cons c cs ih =>
    have hnext : ∀ s, matchAllFrom k (some c) cs s = [] := by
      intro s
      have := ih (pre ++ [c]) s (by
        intro i hi hlt
        simp only [List.append_assoc, List.singleton_append] at hlt ⊢
        exact h i (by simp at hi; omega) hlt)
      simpa using this
    unfold matchAllFrom
    split
    · have : matchHere k pre.getLast? (c :: cs) = none := by
        cases hm : matchHere k pre.getLast? (c :: cs) with
        | none => rfl
        | some w =>
          exact absurd ((matchHere_eq_some_iff k pre (c :: cs) w).1 hm).1
            (h _ (le_refl _) (by simp; omega))
      simp [this, hnext]
    · exact hnext _

theorem matchAll_eq_nil_of_not_occurs (k text : Str) (h : ¬ WholeWordOccurs k text) :
    matchAll k text = [] := by
  have := matchAllFrom_eq_nil k text [] 0 (by
    intro i _ hlt hw
    exact h ⟨i, by simpa using hlt, by simpa using hw⟩)
  simpa [matchAll] using this

/-! ## The dictionary keys -/

theorem insertByLength_perm (k : Str) (l : List Str) : (insertByLength k l).Perm (k :: l) := by
  induction l with
  | nil => exact List.Perm.refl _
  | cons x xs ih =>
    unfold insertByLength
    split
    · exact List.Perm.refl _
    · exact (List.Perm.cons x ih).trans (List.Perm.swap k x xs)

theorem sortByLength_perm (l : List Str) : (sortByLength l).Perm l := by
  induction l with
  | nil => exact List.Perm.refl _
  | cons k ks ih =>
    unfold sortByLength
    exact (insertByLength_perm k _).trans (List.Perm.cons k ih)

theorem insertByValue_perm (k : Str) (l : List Str) : (insertByValue k l).Perm (k :: l) := by
  induction l with
  | nil => exact List.Perm.refl _
  | cons x xs ih =>
    unfold insertByValue
    split
    · exact List.Perm.refl _
    · exact (List.Perm.cons x ih).trans (List.Perm.swap k x xs)

theorem sortByValue_perm (l : List Str) : (sortByValue l).Perm l := by
  induction l with
  | nil => exact List.Perm.refl _
  | cons k ks ih =>
    unfold sortByValue
    exact (insertByValue_perm k _).trans (List.Perm.cons k ih)

theorem mem_dedupKeys (k : Str) (l : List Str) : k ∈ dedupKeys l ↔ k ∈ l := by
  induction l with
  | nil => simp [dedupKeys]
  | cons x xs ih =>
    simp only [dedupKeys, List.mem_cons, List.mem_filter, ih, decide_eq_true_eq]
    by_cases hx : k = x <;> simp [hx]

theorem nodup_dedupKeys (l : List Str) : (dedupKeys l).Nodup := by
  induction l with
  | nil => simp [dedupKeys]
  | cons x xs ih =>
    simp only [dedupKeys, List.nodup_cons, List.mem_filter, decide_eq_true_eq]
    exact ⟨fun h => h.2 rfl, ih.filter _⟩

theorem objectKeys_perm (d : Dict) : (objectKeys d).Perm (dedupKeys (d.map Prod.fst)) := by
  unfold objectKeys
  exact (List.Perm.append_right _ (sortByValue_perm _)).trans
    (List.filter_append_perm isArrayIndex (dedupKeys (d.map Prod.fst)))

theorem sortedKeys_perm (d : Dict) : (sortedKeys d).Perm (dedupKeys (d.map Prod.fst)) :=
  (sortByLength_perm _).trans (objectKeys_perm d)

theorem mem_sortedKeys (d : Dict) (k : Str) : k ∈ sortedKeys d ↔ k ∈ d.map Prod.fst :=
  ((sortedKeys_perm d).mem_iff).trans (mem_dedupKeys k _)

theorem nodup_sortedKeys (d : Dict) : (sortedKeys d).Nodup :=
  (sortedKeys_perm d).nodup_iff.2 (nodup_dedupKeys _)

theorem getProp_isSome_of_mem (d : Dict) (k : Str) (h : k ∈ d.map Prod.fst) :
    ∃ v, getProp d k = some v := by
  induction d with
  | nil => simp at h
  | cons kv rest ih =>
    obtain ⟨k', v'⟩ := kv
    unfold getProp
    cases hr : getProp rest k with
    | some x => exact ⟨x, rfl⟩
    | none =>
      simp only [List.map_cons, List.mem_cons] at h
      rcases h with h | h
      · exact ⟨v', by simp [h]⟩
      · obtain ⟨v, hv⟩ := ih h
        rw [hr] at hv
        exact absurd hv (by simp)

theorem mem_of_getProp (d : Dict) (k v : Str) (h : getProp d k = some v) : (k, v) ∈ d := by
  induction d with
  | nil => simp [getProp] at h
  | cons kv rest ih =>
    obtain ⟨k', v'⟩ := kv
    unfold getProp at h
    cases hr : getProp rest k with
    | some x =>
      rw [hr] at h
      simp only [Option.some.injEq] at h
      subst h
      exact List.mem_cons_of_mem _ (ih hr)
    | none =>
      rw [hr] at h
      simp only at h
      split at h
      · rename_i hk
        simp only [Option.some.injEq] at h
        subst hk; subst h
        exact List.mem_cons_self _ _
      · simp at h

theorem convertKeys_no_match (d : Dict) (n : Nat) (keys : List Str) (text : Str)
    (cs : List Change) (hk : ∀ k ∈ keys, k ∈ d.map Prod.fst)
    (hm : ∀ k ∈ keys, matchAll k text = []) :
    convertKeys d n keys (text, cs) = some (text, cs) := by
  induction keys with
  | nil => rfl
  | cons k ks ih =>
    obtain ⟨v, hv⟩ := getProp_isSome_of_mem d k (hk k (List.mem_cons_self _ _))
    unfold convertKeys
    simp only [hv, hm k (List.mem_cons_self _ _), applyMatches]
    exact ih (fun x hx => hk x (List.mem_cons_of_mem _ hx))
      (fun x hx => hm x (List.mem_cons_of_mem _ hx))

/-- C1: when no key of the dictionary occurs in the line as a whole word (letter case ignored),
`convertToBritish` returns the line itself and an empty list of changes.  The keys are ASCII
strings, the range on which the case folding of the model is that of the `i` flag; the line is
any string. -/
theorem convertToBritish_unchanged_of_no_whole_word (spellings : Dict) (text : Str)
    (lineNumber : Nat) (_hascii : ∀ kv ∈ spellings, AsciiStr kv.1)
    (h : ∀ kv ∈ spellings, ¬ WholeWordOccurs kv.1 text) :
    convertToBritish spellings text lineNumber = some (text, []) := by
  unfold convertToBritish
  apply convertKeys_no_match
  · intro k hk
    exact (mem_sortedKeys spellings k).1 hk
  · intro k hk
    apply matchAll_eq_nil_of_not_occurs
    obtain ⟨kv, hkv, rfl⟩ := List.mem_map.1 ((mem_sortedKeys spellings k).1 hk)
    exact h kv hkv

theorem convertToBritish_unchanged_of_no_whole_word_witness :
    (∀ kv ∈ [("gray".toList, "grey".toList), ("color".toList, "colour".toList)],
        AsciiStr kv.1) ∧
    (∀ kv ∈ [("gray".toList, "grey".toList), ("color".toList, "colour".toList)],
        ¬ WholeWordOccurs kv.1 "Grayscale, colorful!".toList) ∧
      convertToBritish [("gray".toList, "grey".toList), ("color".toList, "colour".toList)]
        "Grayscale, colorful!".toList 3 = some ("Grayscale, colorful!".toList, []) :=
  ⟨by decide, by decide,
    convertToBritish_unchanged_of_no_whole_word _ _ 3 (by decide) (by decide)⟩

/-! ## The sort by length -/

theorem insertByLength_pairwise (k : Str) (l : List Str)
    (h : l.Pairwise (fun a b => b.length ≤ a.length)) :
    (insertByLength k l).Pairwise (fun a b => b.length ≤ a.length) := by
  induction l with
  | nil => simp [insertByLength]
  | cons x xs ih =>
    unfold insertByLength
    have hx := List.pairwise_cons.1 h
    split
    · rename_i hle
      refine List.pairwise_cons.2 ⟨?_, h⟩
      intro y hy
      rcases List.mem_cons.1 hy with rfl | hy
      · exact hle
      · exact (hx.1 y hy).trans hle
    · rename_i hgt
      refine List.pairwise_cons.2 ⟨?_, ih hx.2⟩
      intro y hy
      rcases List.mem_cons.1 ((insertByLength_perm k xs).mem_iff.1 hy) with rfl | hy
      · omega
      · exact hx.1 y hy

theorem sortByLength_pairwise (l : List Str) :
    (sortByLength l).Pairwise (fun a b => b.length ≤ a.length) := by
  induction l with
  | nil => simp [sortByLength]
  | cons k ks ih => exact insertByLength_pairwise k _ ih

theorem filter_insertByLength (k : Str) (l : List Str) (L : Nat) :
    (insertByLength k l).filter (fun x => decide (x.length = L)) =
      (k :: l).filter (fun x => decide (x.length = L)) := by
  induction l with
  | nil => rfl
  | cons x xs ih =>
    unfold insertByLength
    split
    · rfl
    · rename_i hlt
      have hlt : k.length < x.length := Nat.lt_of_not_le hlt
      by_cases hx : x.length = L
      · have hk : k.length ≠ L := by omega
        rw [List.filter_cons_of_pos (by simpa using hx), ih,
          List.filter_cons_of_neg (by simpa using hk),
          List.filter_cons_of_neg (by simpa using hk),
          List.filter_cons_of_pos (by simpa using hx)]
      · rw [List.filter_cons_of_neg (by simpa using hx), ih]
        by_cases hk : k.length = L
        · rw [List.filter_cons_of_pos (by simpa using hk),
            List.filter_cons_of_pos (by simpa using hk),
            List.filter_cons_of_neg (by simpa using hx)]
        · rw [List.filter_cons_of_neg (by simpa using hk),
            List.filter_cons_of_neg (by simpa using hk),
            List.filter_cons_of_neg (by simpa using hx)]

theorem filter_sortByLength (l : List Str) (L : Nat) :
    (sortByLength l).filter (fun x => decide (x.length = L)) =
      l.filter (fun x => decide (x.length = L)) := by
  induction l with
  | nil => rfl
  | cons k ks ih =>
    unfold sortByLength
    rw [filter_insertByLength]
    by_cases hk : k.length = L
    · rw [List.filter_cons_of_pos (by simpa using hk), List.filter_cons_of_pos (by simpa using hk),
        ih]
    · rw [List.filter_cons_of_neg (by simpa using hk), List.filter_cons_of_neg (by simpa using hk),
        ih]

/-! ## Evaluations of the converter -/

/-- C3: with the dictionary that maps `gray` to `grey`, the line `grayscale gray` has one
whole-word match, the second word, but the first occurrence of the matched string is the one
rewritten: the result is `greyscale gray`, so the `gray` inside `grayscale` is altered. -/
theorem convertToBritish_grayscale_gray :
    convertToBritish [("gray".toList, "grey".toList)] "grayscale gray".toList 1 =
      some ("greyscale gray".toList, [⟨1, "gray".toList, "grey".toList⟩]) := by
  decide

/-- C5: with the single entry `program` to `programme`, the line `program program` becomes
`programmeme program`: the second replacement lands inside the `programme` written by the
first one, and the second whole word is left as it was. -/
theorem convertToBritish_program_program :
    convertToBritish [("program".toList, "programme".toList)] "program program".toList 1 =
      some ("programmeme program".toList,
        [⟨1, "program".toList, "programme".toList⟩, ⟨1, "program".toList, "programme".toList⟩]) := by
  decide

/-! ## Structural lines -/

theorem matchAtoms_timestamp_of_range (s : Str) (h : IsTimestampRange s) :
    matchAtoms timestampAtoms s = true := by
  obtain ⟨a, b, ⟨a1, a2, a3, a4, a5, a6, a7, a8, a9, ha, rfl⟩,
    ⟨b1, b2, b3, b4, b5, b6, b7, b8, b9, hb, rfl⟩, rfl⟩ := h
  simp [timestampAtoms, clockAtoms, matchAtoms, ha, hb]

/-- C7: a line that, once trimmed, is empty, is `WEBVTT` or is a timestamp range is emitted
as it stands, surrounding white space included, and the change list of the file is left as it
was, whatever the dictionary. -/
theorem processLine_structural (spellings : Dict) (line : Str) (lineIndex : Nat)
    (log : List Change)
    (h : trim line = [] ∨ trim line = "WEBVTT".toList ∨ IsTimestampRange (trim line)) :
    processLine spellings line lineIndex log = some (line, log) := by
  have hs : isStructuralLine line = true := by
    unfold isStructuralLine
    rcases h with h | h | h
    · simp [h]
    · simp [h]
    · simp [matchAtoms_timestamp_of_range _ h]
  simp [processLine, hs]

theorem processLine_structural_witness :
    (trim " 00:00:01.000 --> 00:00:04.000\r".toList = [] ∨
      trim " 00:00:01.000 --> 00:00:04.000\r".toList = "WEBVTT".toList ∨
      IsTimestampRange (trim " 00:00:01.000 --> 00:00:04.000\r".toList)) ∧
    processLine [("0".toList, "zero".toList)] " 00:00:01.000 --> 00:00:04.000\r".toList 2 [] =
      some (" 00:00:01.000 --> 00:00:04.000\r".toList, []) :=
  have h : IsTimestampRange (trim " 00:00:01.000 --> 00:00:04.000\r".toList) :=
    ⟨"00:00:01.000".toList, "00:00:04.000".toList,
      ⟨'0', '0', '0', '0', '0', '1', '0', '0', '0', by decide, by decide⟩,
      ⟨'0', '0', '0', '0', '0', '4', '0', '0', '0', by decide, by decide⟩, by decide⟩
  ⟨Or.inr (Or.inr h), processLine_structural _ _ 2 [] (Or.inr (Or.inr h))⟩

/-- C8: with the dictionary that maps `center` to `centre`, the timing line
`00:00:01.000 --> 00:00:04.000 align:center` is not recognised as a timestamp line: it is
converted, its cue setting becomes `align:centre`, and a change record is logged for it. -/
theorem processFile_cue_settings :
    processFile [("center".toList, "centre".toList)] "clip_en.vtt".toList
        "WEBVTT\n\n00:00:01.000 --> 00:00:04.000 align:center\nHello".toList =
      some ⟨"clip_uk.vtt".toList,
        "WEBVTT\n\n00:00:01.000 --> 00:00:04.000 align:centre\nHello".toList,
        "clip_en.vtt".toList,
        ⟨"clip_uk.vtt".toList, [⟨3, "center".toList, "centre".toList⟩]⟩⟩ := by
  decide

/-! ## Matches, and the converter never throws -/

theorem matchHere_map_canonicalize (k : Str) (prev : Option Char) (rest w : Str)
    (h : matchHere k prev rest = some w) : w.map canonicalize = k.map canonicalize := by
  unfold matchHere at h
  simp only at h
  split at h
  · rename_i hc
    simp only [Bool.and_eq_true, decide_eq_true_eq] at hc
    simp only [Option.some.injEq] at h
    rw [← h]
    exact hc.1.2
  · simp at h

theorem mem_matchAllFrom (k : Str) (rest : Str) (prev : Option Char) (skip : Nat) (w : Str)
    (h : w ∈ matchAllFrom k prev rest skip) : w.map canonicalize = k.map canonicalize := by
  induction rest generalizing prev skip with
  | nil =>
    unfold matchAllFrom at h
    split at h
    · cases hm : matchHere k prev [] with
      | none => simp [hm] at h
      | some x =>
        simp only [hm, Option.toList, List.mem_singleton] at h
        subst h
        exact matchHere_map_canonicalize k prev [] _ hm
    · simp at h
  | cons c cs ih =>
    unfold matchAllFrom at h
    split at h
    · cases hm : matchHere k prev (c :: cs) with
      | none =>
        simp only [hm] at h
        exact ih _ _ h
      | some x =>
        simp only [hm, List.mem_cons] at h
        rcases h with rfl | h
        · exact matchHere_map_canonicalize k prev _ _ hm
        · exact ih _ _ h
    · exact ih _ _ h

theorem mem_matchAll (k text w : Str) (h : w ∈ matchAll k text) :
    w.map canonicalize = k.map canonicalize :=
  mem_matchAllFrom k text none 0 w h

theorem replacementFor_isSome (k v w : Str) (h : w.map canonicalize = k.map canonicalize) :
    ∃ r, replacementFor k v w = some r := by
  unfold replacementFor
  split
  · exact ⟨_, rfl⟩
  · split
    · exact ⟨_, rfl⟩
    · cases w with
      | nil =>
        rename_i hne _
        have : k = [] := by
          have := congrArg List.length h
          simp at this
          exact List.length_eq_zero.1 this.symm
        exact absurd this.symm hne
      | cons c cs =>
        simp only
        split <;> exact ⟨_, rfl⟩

/-- The changes of the loop over the matches are appended to the ones already recorded. -/
theorem applyMatches_acc (k v : Str) (n : Nat) (ws : List Str) (text : Str) (cs : List Change) :
    applyMatches k v n ws (text, cs) =
      (applyMatches k v n ws (text, [])).map (fun st => (st.1, cs ++ st.2)) := by
  induction ws generalizing text cs with
  | nil => simp [applyMatches]
  | cons w ws ih =>
    unfold applyMatches
    cases replacementFor k v w with
    | none => rfl
    | some r =>
      simp only
      split
      · rw [ih _ (cs ++ _), ih _ ([] ++ _)]
        simp [Option.map_map, Function.comp_def]
      · exact ih _ _

theorem applyMatches_isSome (k v : Str) (n : Nat) (ws : List Str) (st : Str × List Change)
    (h : ∀ w ∈ ws, w.map canonicalize = k.map canonicalize) :
    ∃ st', applyMatches k v n ws st = some st' := by
  induction ws generalizing st with
  | nil => exact ⟨st, by simp [applyMatches]⟩
  | cons w ws ih =>
    obtain ⟨text, cs⟩ := st
    obtain ⟨r, hr⟩ := replacementFor_isSome k v w (h w (List.mem_cons_self _ _))
    unfold applyMatches
    simp only [hr]
    split <;> exact ih _ (fun x hx => h x (List.mem_cons_of_mem _ hx))

theorem convertKeys_acc (d : Dict) (n : Nat) (keys : List Str) (text : Str) (cs : List Change) :
    convertKeys d n keys (text, cs) =
      (convertKeys d n keys (text, [])).map (fun st => (st.1, cs ++ st.2)) := by
  induction keys generalizing text cs with
  | nil => simp [convertKeys]
  | cons k ks ih =>
    unfold convertKeys
    cases getProp d k with
    | none => rfl
    | some v =>
      simp only
      rw [applyMatches_acc]
      cases applyMatches k v n (matchAll k text) (text, []) with
      | none => rfl
      | some st =>
        obtain ⟨t1, c1⟩ := st
        simp only [Option.map_some']
        rw [ih t1 (cs ++ c1), ih t1 c1]
        simp [Option.map_map, Function.comp_def]

theorem convertKeys_isSome (d : Dict) (n : Nat) (keys : List Str) (st : Str × List Change)
    (hk : ∀ k ∈ keys, k ∈ d.map Prod.fst) : ∃ st', convertKeys d n keys st = some st' := by
  induction keys generalizing st with
  | nil => exact ⟨st, by simp [convertKeys]⟩
  | cons k ks ih =>
    obtain ⟨text, cs⟩ := st
    obtain ⟨v, hv⟩ := getProp_isSome_of_mem d k (hk k (List.mem_cons_self _ _))
    obtain ⟨st1, h1⟩ := applyMatches_isSome k v n (matchAll k text) (text, cs)
      (fun w hw => mem_matchAll k text w hw)
    unfold convertKeys
    simp only [hv, h1]
    exact ih _ (fun x hx => hk x (List.mem_cons_of_mem _ hx))

theorem convertToBritish_isSome (d : Dict) (text : Str) (n : Nat) :
    ∃ st, convertToBritish d text n = some st :=
  convertKeys_isSome d n _ _ (fun k hk => (mem_sortedKeys d k).1 hk)

theorem processLine_isSome (d : Dict) (line : Str) (i : Nat) (log : List Change) :
    ∃ st, processLine d line i log = some st := by
  unfold processLine
  split
  · exact ⟨_, rfl⟩
  · obtain ⟨st, h⟩ := convertToBritish_isSome d line (i + 1)
    rw [h]
    exact ⟨_, rfl⟩

/-! ## Case mapping of characters -/

theorem toNat_ofNat_of_lt (n : Nat) (h : n < 55296) : (Char.ofNat n).toNat = n := by
  have hv : n.isValidChar := Or.inl h
  simp only [Char.ofNat, hv, Char.ofNatAux, Char.toNat, dite_true]
  show (BitVec.ofNatLt n _).toNat = n
  simp

theorem toNat_upperChar (c : Char) :
    (upperChar c).toNat = if 97 ≤ c.toNat ∧ c.toNat ≤ 122 then c.toNat - 32 else c.toNat := by
  unfold upperChar
  split
  · exact toNat_ofNat_of_lt _ (by omega)
  · rfl

theorem char_eq_of_toNat_eq (a b : Char) (h : a.toNat = b.toNat) : a = b := by
  rw [← Char.ofNat_toNat a, ← Char.ofNat_toNat b, h]

theorem upperChar_eq_newline (c : Char) (h : upperChar c = '\n') : c = '\n' := by
  have h1 := toNat_upperChar c
  rw [h] at h1
  apply char_eq_of_toNat_eq
  have h2 : ('\n' : Char).toNat = 10 := by decide
  rw [h2] at h1 ⊢
  split at h1 <;> omega

/-! ## Replacement introduces no new characters -/

theorem splitAtFirst_eq (w : Str) (t b a : Str) (h : splitAtFirst w t = some (b, a)) :
    t = b ++ w ++ a := by
  induction t generalizing b with
  | nil =>
    unfold splitAtFirst at h
    split at h
    · rename_i hw
      simp only [Option.some.injEq, Prod.mk.injEq] at h
      simp [← h.1, ← h.2, hw]
    · simp at h
  | cons c cs ih =>
    unfold splitAtFirst at h
    split at h
    · rename_i hp
      simp only [Option.some.injEq, Prod.mk.injEq] at h
      rw [← h.1, ← h.2]
      have := List.isPrefixOf_iff_prefix.1 hp
      obtain ⟨r, hr⟩ := this
      rw [← hr]
      simp
    · cases hs : splitAtFirst w cs with
      | none => simp [hs] at h
      | some p =>
        obtain ⟨b', a'⟩ := p
        simp only [hs, Option.some.injEq, Prod.mk.injEq] at h
        obtain ⟨h1, h2⟩ := h
        subst h1; subst h2
        rw [ih b' hs]
        simp

theorem mem_getSubstitution_aux (m b a : Str) (c : Char) (n : Nat) :
    ∀ r : Str, r.length ≤ n → c ∈ getSubstitution m b a r → c ∈ m ∨ c ∈ b ∨ c ∈ a ∨ c ∈ r := by
  induction n with
  | zero =>
    intro r hr h
    have : r = [] := List.length_eq_zero.1 (Nat.le_zero.1 hr)
    subst this
    simp [getSubstitution] at h
  | succ n ih =>
    intro r hr h
    match r, hr, h with
    | [], _, h => simp [getSubstitution] at h
    | [x], _, h => right; right; right; simpa [getSubstitution] using h
    | x :: y :: rest, hr, h =>
      have hrest : rest.length ≤ n := by simp at hr; omega
      have hyrest : (y :: rest).length ≤ n := by simp at hr ⊢; omega
      have l1 : c ∈ getSubstitution m b a rest → c ∈ m ∨ c ∈ b ∨ c ∈ a ∨ c ∈ x :: y :: rest := by
        intro hc
        rcases ih rest hrest hc with h | h | h | h
        · exact Or.inl h
        · exact Or.inr (Or.inl h)
        · exact Or.inr (Or.inr (Or.inl h))
        · exact Or.inr (Or.inr (Or.inr (List.mem_cons_of_mem _ (List.mem_cons_of_mem _ h))))
      have l2 : c ∈ getSubstitution m b a (y :: rest) →
          c ∈ m ∨ c ∈ b ∨ c ∈ a ∨ c ∈ x :: y :: rest := by
        intro hc
        rcases ih (y :: rest) hyrest hc with h | h | h | h
        · exact Or.inl h
        · exact Or.inr (Or.inl h)
        · exact Or.inr (Or.inr (Or.inl h))
        · exact Or.inr (Or.inr (Or.inr (List.mem_cons_of_mem _ h)))
      unfold getSubstitution at h
      split_ifs at h with h1 h2 h3 h4 h5
      · rcases List.mem_cons.1 h with hc | hc
        · exact Or.inr (Or.inr (Or.inr (by simp [hc, h1])))
        · exact l1 hc
      · rcases List.mem_append.1 h with hc | hc
        · exact Or.inl hc
        · exact l1 hc
      · rcases List.mem_append.1 h with hc | hc
        · exact Or.inr (Or.inl hc)
        · exact l1 hc
      · rcases List.mem_append.1 h with hc | hc
        · exact Or.inr (Or.inr (Or.inl hc))
        · exact l1 hc
      · rcases List.mem_cons.1 h with hc | hc
        · exact Or.inr (Or.inr (Or.inr (by simp [hc])))
        · exact l2 hc
      · rcases List.mem_cons.1 h with hc | hc
        · exact Or.inr (Or.inr (Or.inr (by simp [hc])))
        · exact l2 hc

theorem mem_getSubstitution (m b a r : Str) (c : Char) (h : c ∈ getSubstitution m b a r) :
    c ∈ m ∨ c ∈ b ∨ c ∈ a ∨ c ∈ r :=
  mem_getSubstitution_aux m b a c r.length r (le_refl _) h

theorem mem_replace (t w r : Str) (c : Char) (h : c ∈ replace t w r) : c ∈ t ∨ c ∈ r := by
  unfold replace at h
  cases hs : splitAtFirst w t with
  | none =>
    rw [hs] at h
    exact Or.inl h
  | some p =>
    obtain ⟨b, a⟩ := p
    rw [hs] at h
    have ht := splitAtFirst_eq w t b a hs
    simp only [List.mem_append] at h
    rw [ht]
    simp only [List.mem_append]
    rcases h with (h | h) | h
    · exact Or.inl (Or.inl (Or.inl h))
    · rcases mem_getSubstitution _ _ _ _ _ h with h | h | h | h
      · exact Or.inl (Or.inl (Or.inr h))
      · exact Or.inl (Or.inl (Or.inl h))
      · exact Or.inl (Or.inr h)
      · exact Or.inr h
    · exact Or.inl (Or.inr h)

theorem newline_of_mem_replacementFor (k v w r : Str) (h : replacementFor k v w = some r)
    (hr : '\n' ∈ r) : '\n' ∈ v := by
  have hup : ∀ s : Str, '\n' ∈ toUpperCase s → '\n' ∈ s := by
    intro s hs
    obtain ⟨c, hc, hcu⟩ := List.mem_map.1 hs
    rw [upperChar_eq_newline c hcu] at hc
    exact hc
  unfold replacementFor at h
  split_ifs at h with h1 h2
  · simp only [Option.some.injEq] at h
    rw [h]; exact hr
  · simp only [Option.some.injEq] at h
    rw [← h] at hr
    exact hup _ hr
  · cases w with
    | nil => simp at h
    | cons c cs =>
      simp only at h
      split_ifs at h
      · simp only [Option.some.injEq] at h
        rw [← h] at hr
        rcases List.mem_append.1 hr with hr | hr
        · exact List.mem_of_mem_take (hup _ hr)
        · exact List.mem_of_mem_drop hr
      · simp only [Option.some.injEq] at h
        rw [h]; exact hr

theorem applyMatches_no_newline (k v : Str) (n : Nat) (ws : List Str) (st st' : Str × List Change)
    (hv : '\n' ∉ v) (ht : '\n' ∉ st.1) (h : applyMatches k v n ws st = some st') :
    '\n' ∉ st'.1 := by
  induction ws generalizing st with
  | nil =>
    simp only [applyMatches, Option.some.injEq] at h
    rw [← h]; exact ht
  | cons w ws ih =>
    obtain ⟨text, cs⟩ := st
    unfold applyMatches at h
    cases hr : replacementFor k v w with
    | none => simp [hr] at h
    | some r =>
      simp only [hr] at h
      split_ifs at h
      · refine ih _ ?_ h
        intro hc
        rcases mem_replace _ _ _ _ hc with hc | hc
        · exact ht hc
        · exact hv (newline_of_mem_replacementFor k v w r hr hc)
      · exact ih _ ht h

theorem convertKeys_no_newline (d : Dict) (n : Nat) (keys : List Str) (st st' : Str × List Change)
    (hd : ∀ kv ∈ d, '\n' ∉ kv.2) (ht : '\n' ∉ st.1) (h : convertKeys d n keys st = some st') :
    '\n' ∉ st'.1 := by
  induction keys generalizing st with
  | nil =>
    simp only [convertKeys, Option.some.injEq] at h
    rw [← h]; exact ht
  | cons k ks ih =>
    obtain ⟨text, cs⟩ := st
    unfold convertKeys at h
    cases hv : getProp d k with
    | none => simp [hv] at h
    | some v =>
      simp only [hv] at h
      cases ha : applyMatches k v n (matchAll k text) (text, cs) with
      | none => simp [ha] at h
      | some st1 =>
        simp only [ha] at h
        exact ih st1 (applyMatches_no_newline k v n _ _ _ (hd _ (mem_of_getProp d k v hv)) ht ha) h

/-! ## Lines of a file -/

theorem splitLines_ne_nil (s : Str) : splitLines s ≠ [] := by
  induction s with
  | nil => simp [splitLines]
  | cons c cs ih =>
    unfold splitLines
    split
    · simp
    · cases h : splitLines cs <;> simp

theorem newline_not_mem_splitLines (s : Str) : ∀ l ∈ splitLines s, '\n' ∉ l := by
  induction s with
  | nil => simp [splitLines]
  | cons c cs ih =>
    unfold splitLines
    split
    · intro l hl
      rcases List.mem_cons.1 hl with rfl | hl
      · simp
      · exact ih l hl
    · rename_i hc
      cases h : splitLines cs with
      | nil => exact absurd h (splitLines_ne_nil cs)
      | cons l ls =>
        rw [h] at ih
        intro x hx
        rcases List.mem_cons.1 hx with rfl | hx
        · intro hmem
          rcases List.mem_cons.1 hmem with h1 | h1
          · exact hc h1.symm
          · exact ih l (List.mem_cons_self _ _) h1
        · exact ih x (List.mem_cons_of_mem _ hx)

theorem splitLines_append_newline (l : Str) (rest : Str) (hl : '\n' ∉ l) :
    splitLines (l ++ '\n' :: rest) = l :: splitLines rest := by
  induction l with
  | nil => simp [splitLines]
  | cons c cs ih =>
    have hc : c ≠ '\n' := fun h => hl (by simp [h])
    have hcs : '\n' ∉ cs := fun h => hl (List.mem_cons_of_mem _ h)
    show splitLines (c :: (cs ++ '\n' :: rest)) = _
    rw [splitLines, if_neg hc, ih hcs]

theorem splitLines_of_no_newline (l : Str) (hl : '\n' ∉ l) : splitLines l = [l] := by
  induction l with
  | nil => simp [splitLines]
  | cons c cs ih =>
    have hc : c ≠ '\n' := fun h => hl (by simp [h])
    have hcs : '\n' ∉ cs := fun h => hl (List.mem_cons_of_mem _ h)
    rw [splitLines, if_neg hc, ih hcs]

theorem splitLines_joinLines (ls : List Str) (hne : ls ≠ []) (h : ∀ l ∈ ls, '\n' ∉ l) :
    splitLines (joinLines ls) = ls := by
  induction ls with
  | nil => exact absurd rfl hne
  | cons l rest ih =>
    cases rest with
    | nil => simpa [joinLines] using splitLines_of_no_newline l (h l (List.mem_cons_self _ _))
    | cons m ms =>
      simp only [joinLines]
      rw [splitLines_append_newline l _ (h l (List.mem_cons_self _ _)),
        ih (List.cons_ne_nil _ _) (fun x hx => h x (List.mem_cons_of_mem _ hx))]

/-! ## The pipeline line by line -/

theorem processLine_eq (d : Dict) (line : Str) (i : Nat) (log : List Change) :
    processLine d line i log = some (convertedLine d line i, log ++ lineChanges d line i) := by
  unfold convertedLine lineChanges processLine
  split
  · simp
  · obtain ⟨st, h⟩ := convertToBritish_isSome d line (i + 1)
    obtain ⟨t, cs⟩ := st
    simp only [h]
    cases cs with
    | nil => simp
    | cons c cs => simp

theorem processLines_eq (d : Dict) (i : Nat) (lines : List Str) (log : List Change) :
    processLines d i lines log =
      some (convertedLines d i lines, log ++ fileChanges d i lines) := by
  induction lines generalizing i log with
  | nil => simp [processLines, convertedLines, fileChanges]
  | cons l ls ih =>
    simp only [processLines, processLine_eq, ih, convertedLines, fileChanges, List.append_assoc]

theorem convertedLines_length (d : Dict) (i : Nat) (lines : List Str) :
    (convertedLines d i lines).length = lines.length := by
  induction lines generalizing i with
  | nil => rfl
  | cons l ls ih => simp [convertedLines, ih]

theorem convertedLines_getElem? (d : Dict) (i : Nat) (lines : List Str) (j : Nat) :
    (convertedLines d i lines)[j]? = (lines[j]?).map (fun l => convertedLine d l (i + j)) := by
  induction lines generalizing i j with
  | nil => simp [convertedLines]
  | cons l ls ih =>
    cases j with
    | zero => simp [convertedLines]
    | succ j =>
      simp only [convertedLines, List.getElem?_cons_succ, ih]
      congr 1
      funext x
      congr 1
      omega

theorem applyMatches_line (k v : Str) (n : Nat) (ws : List Str) (st st' : Str × List Change)
    (h : applyMatches k v n ws st = some st') : ∀ c ∈ st'.2, c ∈ st.2 ∨ c.line = n := by
  induction ws generalizing st with
  | nil =>
    simp only [applyMatches, Option.some.injEq] at h
    rw [← h]
    exact fun c hc => Or.inl hc
  | cons w ws ih =>
    obtain ⟨text, cs⟩ := st
    unfold applyMatches at h
    cases hr : replacementFor k v w with
    | none => simp [hr] at h
    | some r =>
      simp only [hr] at h
      split_ifs at h
      · intro c hc
        rcases ih _ h c hc with hc | hc
        · rcases List.mem_append.1 hc with hc | hc
          · exact Or.inl hc
          · right
            simp only [List.mem_singleton] at hc
            rw [hc]
        · exact Or.inr hc
      · exact ih _ h

theorem convertKeys_line (d : Dict) (n : Nat) (keys : List Str) (st st' : Str × List Change)
    (h : convertKeys d n keys st = some st') : ∀ c ∈ st'.2, c ∈ st.2 ∨ c.line = n := by
  induction keys generalizing st with
  | nil =>
    simp only [convertKeys, Option.some.injEq] at h
    rw [← h]
    exact fun c hc => Or.inl hc
  | cons k ks ih =>
    obtain ⟨text, cs⟩ := st
    unfold convertKeys at h
    cases hv : getProp d k with
    | none => simp [hv] at h
    | some v =>
      simp only [hv] at h
      cases ha : applyMatches k v n (matchAll k text) (text, cs) with
      | none => simp [ha] at h
      | some st1 =>
        simp only [ha] at h
        intro c hc
        rcases ih st1 h c hc with hc | hc
        · exact applyMatches_line k v n _ _ _ ha c hc
        · exact Or.inr hc

theorem lineChanges_line (d : Dict) (line : Str) (i : Nat) :
    ∀ c ∈ lineChanges d line i, c.line = i + 1 := by
  intro c hc
  unfold lineChanges processLine at hc
  split_ifs at hc
  · simp at hc
  · cases h : convertToBritish d line (i + 1) with
    | none => simp [h] at hc
    | some st =>
      obtain ⟨t, cs⟩ := st
      simp only [h] at hc
      have hc' : c ∈ cs := by
        cases cs with
        | nil => simp at hc
        | cons x xs => simpa using hc
      rcases convertKeys_line d (i + 1) _ _ _ h c hc' with h1 | h1
      · simp at h1
      · exact h1

theorem fileChanges_lt (d : Dict) (j : Nat) (xs : List Str) :
    ∀ c ∈ fileChanges d j xs, j < c.line := by
  induction xs generalizing j with
  | nil => simp [fileChanges]
  | cons x xs ihx =>
    intro c hc
    simp only [fileChanges, List.mem_append] at hc
    rcases hc with hc | hc
    · have := lineChanges_line d x j c hc
      omega
    · have := ihx (j + 1) c hc
      omega

theorem fileChanges_filter (d : Dict) (i : Nat) (lines : List Str) (n : Nat) (hn : i < n) :
    (fileChanges d i lines).filter (fun c => decide (c.line = n)) =
      match lines[n - 1 - i]? with
      | some l => lineChanges d l (n - 1)
      | none => [] := by
  induction lines generalizing i with
  | nil => simp [fileChanges]
  | cons l ls ih =>
    simp only [fileChanges, List.filter_append]
    by_cases hi : i + 1 = n
    · have h0 : n - 1 - i = 0 := by omega
      have h1 : (lineChanges d l i).filter (fun c => decide (c.line = n)) = lineChanges d l i := by
        apply List.filter_eq_self.2
        intro c hc
        simp [lineChanges_line d l i c hc, hi]
      have h2 : (fileChanges d (i + 1) ls).filter (fun c => decide (c.line = n)) = [] := by
        apply List.filter_eq_nil_iff.2
        intro c hc
        have := fileChanges_lt d (i + 1) ls c hc
        simp
        omega
      rw [h1, h2, h0]
      have : n - 1 = i := by omega
      simp [this]
    · have h1 : (lineChanges d l i).filter (fun c => decide (c.line = n)) = [] := by
        apply List.filter_eq_nil_iff.2
        intro c hc
        simp [lineChanges_line d l i c hc, hi]
      have hidx : n - 1 - i = (n - 1 - (i + 1)) + 1 := by omega
      rw [h1, ih (i + 1) (by omega), hidx]
      simp

/-! ## End to end -/

theorem convertToBritish_color_gray (m : Nat) :
    convertToBritish [("color".toList, "colour".toList), ("gray".toList, "grey".toList)]
        "The color was gray.".toList m =
      some ("The colour was grey.".toList,
        [⟨m, "color".toList, "colour".toList⟩, ⟨m, "gray".toList, "grey".toList⟩]) := rfl

theorem convertedLines_no_newline (d : Dict) (hd : ∀ kv ∈ d, '\n' ∉ kv.2) (i : Nat)
    (lines : List Str) (h : ∀ l ∈ lines, '\n' ∉ l) :
    ∀ l ∈ convertedLines d i lines, '\n' ∉ l := by
  induction lines generalizing i with
  | nil => simp [convertedLines]
  | cons x xs ih =>
    intro l hl
    simp only [convertedLines, List.mem_cons] at hl
    rcases hl with rfl | hl
    · unfold convertedLine processLine
      split_ifs
      · exact h x (List.mem_cons_self _ _)
      · cases hc : convertToBritish d x (i + 1) with
        | none => exact h x (List.mem_cons_self _ _)
        | some st =>
          exact convertKeys_no_newline d (i + 1) _ (x, []) st hd (h x (List.mem_cons_self _ _)) hc
    · exact ih (i + 1) (fun y hy => h y (List.mem_cons_of_mem _ hy)) l hl

/-- C9: with the dictionary `color` to `colour`, `gray` to `grey`, a file `sample_en.vtt` whose
line number `n` is `The color was gray.` gives the output file `sample_uk.vtt` whose line
number `n` is `The colour was grey.`, and under the key `sample_en.vtt` a log entry naming
`sample_uk.vtt` whose records for line `n` are exactly the one for `color` followed by the one
for `gray`. -/
theorem processFile_sample (content : Str) (n : Nat) (hn : 1 ≤ n)
    (hline : (splitLines content)[n - 1]? = some "The color was gray.".toList) :
    ∃ r, processFile [("color".toList, "colour".toList), ("gray".toList, "grey".toList)]
          "sample_en.vtt".toList content = some r ∧
      r.outputFileName = "sample_uk.vtt".toList ∧
      (splitLines r.outputContent)[n - 1]? = some "The colour was grey.".toList ∧
      r.logKey = "sample_en.vtt".toList ∧
      r.logEntry.outputFile = "sample_uk.vtt".toList ∧
      r.logEntry.changes.filter (fun c => decide (c.line = n)) =
        [⟨n, "color".toList, "colour".toList⟩, ⟨n, "gray".toList, "grey".toList⟩] := by
  have hname : replace "sample_en.vtt".toList "_en.vtt".toList "_uk.vtt".toList =
      "sample_uk.vtt".toList := by decide
  have hstruct : isStructuralLine "The color was gray.".toList = false := by decide
  have hconv : ∀ i, processLine
      [("color".toList, "colour".toList), ("gray".toList, "grey".toList)]
      "The color was gray.".toList i [] =
        some ("The colour was grey.".toList,
          [⟨i + 1, "color".toList, "colour".toList⟩, ⟨i + 1, "gray".toList, "grey".toList⟩]) := by
    intro i
    simp only [processLine, hstruct, convertToBritish_color_gray]
    rfl
  refine ⟨_, by simp only [processFile, processLines_eq]; rfl, hname, ?_, rfl, hname, ?_⟩
  · show (splitLines (joinLines _))[n - 1]? = _
    rw [splitLines_joinLines]
    · rw [convertedLines_getElem?, hline]
      simp only [Option.map_some', convertedLine, hconv]
    · intro h
      have := congrArg List.length h
      rw [convertedLines_length] at this
      exact splitLines_ne_nil content (List.length_eq_zero.1 this)
    · apply convertedLines_no_newline
      · decide
      · exact newline_not_mem_splitLines content
  · show ([] ++ fileChanges _ 0 _).filter _ = _
    rw [List.nil_append, fileChanges_filter _ 0 _ n (by omega)]
    simp only [Nat.sub_zero, hline, lineChanges, hconv]
    have : n - 1 + 1 = n := by omega
    rw [this]

theorem processFile_sample_witness :
    1 ≤ 4 ∧
    (splitLines "WEBVTT\n\n00:00:01.000 --> 00:00:04.000\nThe color was gray.\n".toList)[4 - 1]? =
      some "The color was gray.".toList ∧
    ∃ r, processFile [("color".toList, "colour".toList), ("gray".toList, "grey".toList)]
          "sample_en.vtt".toList
          "WEBVTT\n\n00:00:01.000 --> 00:00:04.000\nThe color was gray.\n".toList = some r ∧
      r.outputFileName = "sample_uk.vtt".toList ∧
      (splitLines r.outputContent)[4 - 1]? = some "The colour was grey.".toList ∧
      r.logKey = "sample_en.vtt".toList ∧
      r.logEntry.outputFile = "sample_uk.vtt".toList ∧
      r.logEntry.changes.filter (fun c => decide (c.line = 4)) =
        [⟨4, "color".toList, "colour".toList⟩, ⟨4, "gray".toList, "grey".toList⟩] :=
  ⟨by decide, by decide, processFile_sample _ 4 (by decide) (by decide)⟩

/-! ## The order of the change records -/

theorem applyMatches_changes (d : Dict) (k v : Str) (n : Nat) (hv : getProp d k = some v)
    (ws : List Str) (text : Str) (st : Str × List Change)
    (h : applyMatches k v n ws (text, []) = some st) :
    st.2 = ws.filterMap (recordFor d n k) := by
  induction ws generalizing text st with
  | nil =>
    simp only [applyMatches, Option.some.injEq] at h
    rw [← h]
    rfl
  | cons w ws ih =>
    unfold applyMatches at h
    cases hr : replacementFor k v w with
    | none => simp [hr] at h
    | some r =>
      simp only [hr] at h
      split_ifs at h with hne
      · rw [applyMatches_acc] at h
        cases ha : applyMatches k v n ws (replace text w r, []) with
        | none => simp [ha] at h
        | some st1 =>
          simp only [ha, Option.map_some', Option.some.injEq] at h
          rw [← h]
          simp only [List.filterMap_cons, recordFor, hv, hr, hne, ne_eq, not_false_eq_true,
            if_true, ih _ _ ha, List.nil_append, List.singleton_append]
      · simp only [List.filterMap_cons, recordFor, hv, hr, hne, if_false]
        exact ih _ _ h

theorem convertKeys_changes (d : Dict) (n : Nat) (keys : List Str) (text : Str)
    (st : Str × List Change) (h : convertKeys d n keys (text, []) = some st) :
    st.2 = (List.zipWith (fun k s => (matchAll k s).filterMap (recordFor d n k)) keys
      (scanTexts d n keys text)).flatten := by
  induction keys generalizing text st with
  | nil =>
    simp only [convertKeys, Option.some.injEq] at h
    rw [← h]
    rfl
  | cons k ks ih =>
    have h0 := h
    unfold convertKeys at h
    cases hv : getProp d k with
    | none => simp [hv] at h
    | some v =>
      simp only [hv] at h
      cases ha : applyMatches k v n (matchAll k text) (text, []) with
      | none => simp [ha] at h
      | some st1 =>
        obtain ⟨t1, c1⟩ := st1
        simp only [ha] at h
        rw [convertKeys_acc] at h
        cases hr : convertKeys d n ks (t1, []) with
        | none => simp [hr] at h
        | some st2 =>
          simp only [hr, Option.map_some', Option.some.injEq] at h
          have htext : textAfterKey d n k text = t1 := by
            simp [textAfterKey, convertKeys, hv, ha]
          rw [← h]
          simp only [scanTexts, List.zipWith_cons_cons, List.flatten_cons, htext]
          have e2 : c1 = (matchAll k text).filterMap (recordFor d n k) :=
            applyMatches_changes d k v n hv _ _ _ ha
          rw [← ih t1 st2 hr, ← e2]

theorem matchAllFrom_positions (k : Str) (rest pre : Str) (skip : Nat) :
    ∃ ps : List Nat, ps.Pairwise (fun i j => i < j) ∧
      (∀ i ∈ ps, pre.length ≤ i ∧ WholeWordAt k (pre ++ rest) i) ∧
      matchAllFrom k pre.getLast? rest skip =
        ps.map (fun i => ((pre ++ rest).drop i).take k.length) := by
  induction rest generalizing pre skip with
  | nil =>
    unfold matchAllFrom
    split
    · cases hm : matchHere k pre.getLast? [] with
      | none => exact ⟨[], List.Pairwise.nil, by simp, by simp⟩
      | some w =>
        have := (matchHere_eq_some_iff k pre [] w).1 hm
        refine ⟨[pre.length], List.pairwise_singleton _ _, ?_, ?_⟩
        · intro i hi
          simp only [List.mem_singleton] at hi
          subst hi
          exact ⟨le_refl _, this.1⟩
        · simp [this.2]
    · exact ⟨[], List.Pairwise.nil, by simp, by simp⟩
  | cons c cs ih =>
    have hnext : ∀ s, ∃ ps : List Nat, ps.Pairwise (fun i j => i < j) ∧
        (∀ i ∈ ps, pre.length + 1 ≤ i ∧ WholeWordAt k (pre ++ c :: cs) i) ∧
        matchAllFrom k (some c) cs s =
          ps.map (fun i => ((pre ++ c :: cs).drop i).take k.length) := by
      intro s
      obtain ⟨ps, h1, h2, h3⟩ := ih (pre ++ [c]) s
      refine ⟨ps, h1, ?_, ?_⟩
      · intro i hi
        have := h2 i hi
        simpa using this
      · simpa using h3
    unfold matchAllFrom
    split
    · cases hm : matchHere k pre.getLast? (c :: cs) with
      | none =>
        obtain ⟨ps, h1, h2, h3⟩ := hnext 0
        exact ⟨ps, h1, fun i hi => ⟨by have := (h2 i hi).1; omega, (h2 i hi).2⟩, h3⟩
      | some w =>
        have hw := (matchHere_eq_some_iff k pre (c :: cs) w).1 hm
        obtain ⟨ps, h1, h2, h3⟩ := hnext (w.length - 1)
        rw [hw.2] at h3
        refine ⟨pre.length :: ps, List.pairwise_cons.2 ⟨?_, h1⟩, ?_, ?_⟩
        · intro j hj
          have := (h2 j hj).1
          omega
        · intro i hi
          rcases List.mem_cons.1 hi with rfl | hi
          · exact ⟨le_refl _, hw.1⟩
          · exact ⟨by have := (h2 i hi).1; omega, (h2 i hi).2⟩
        · simp only [h3, List.map_cons, List.drop_left, hw.2]
    · obtain ⟨ps, h1, h2, h3⟩ := hnext (skip - 1)
      exact ⟨ps, h1, fun i hi => ⟨by have := (h2 i hi).1; omega, (h2 i hi).2⟩, h3⟩

theorem matchAll_positions (k text : Str) :
    ∃ ps : List Nat, ps.Pairwise (fun i j => i < j) ∧ (∀ i ∈ ps, WholeWordAt k text i) ∧
      matchAll k text = ps.map (fun i => (text.drop i).take k.length) := by
  obtain ⟨ps, h1, h2, h3⟩ := matchAllFrom_positions k text [] 0
  exact ⟨ps, h1, fun i hi => by simpa using (h2 i hi).2, by simpa [matchAll] using h3⟩

theorem fileChanges_sorted (d : Dict) (i : Nat) (lines : List Str) :
    ((fileChanges d i lines).map Change.line).Pairwise (fun a b => a ≤ b) := by
  induction lines generalizing i with
  | nil => simp [fileChanges]
  | cons l ls ih =>
    simp only [fileChanges, List.map_append]
    refine List.pairwise_append.2 ⟨?_, ih (i + 1), ?_⟩
    · refine List.pairwise_map.2 (List.Pairwise.imp_of_mem ?_ (List.pairwise_of_forall
        (l := lineChanges d l i) (R := fun _ _ => True) (fun _ _ => trivial)))
      intro a b ha hb _
      rw [lineChanges_line d l i a ha, lineChanges_line d l i b hb]
    · intro a ha b hb
      obtain ⟨x, hx, rfl⟩ := List.mem_map.1 ha
      obtain ⟨y, hy, rfl⟩ := List.mem_map.1 hb
      have := lineChanges_line d l i x hx
      have := fileChanges_lt d (i + 1) ls y hy
      omega

/-- C10 (counterexample): for the line `gray color` and the dictionary `color` to `colour`,
`gray` to `grey`, the record for `color`, the longer key, is logged before the record for
`gray`, although `gray` stands to the left of `color` in the line. -/
theorem change_order_gray_color :
    convertToBritish [("color".toList, "colour".toList), ("gray".toList, "grey".toList)]
        "gray color".toList 1 =
      some ("grey colour".toList,
        [⟨1, "color".toList, "colour".toList⟩, ⟨1, "gray".toList, "grey".toList⟩]) := by
  decide

/-- C10 (amended): the change records of a file are those of its lines, line after line, so
their line numbers never decrease; the records of one line are grouped by key, in the order the
keys are processed, which is longest first and, among keys of one length, the order of
`Object.keys`; the records of one key follow its matches in the working text as it stood when
the scan of that key began, which `matchAll` lists from left to right.  The dictionary is
ASCII. -/
theorem change_record_order (spellings : Dict) (_hascii : AsciiDict spellings) :
    (∀ (fileName content : Str), ∃ r, processFile spellings fileName content = some r ∧
      r.logEntry.changes = fileChanges spellings 0 (splitLines content) ∧
      (r.logEntry.changes.map Change.line).Pairwise (fun a b => a ≤ b)) ∧
    (∀ (text : Str) (lineNumber : Nat),
      (convertToBritish spellings text lineNumber).map Prod.snd =
        some (List.zipWith
          (fun k s => (matchAll k s).filterMap (recordFor spellings lineNumber k))
          (sortedKeys spellings)
          (scanTexts spellings lineNumber (sortedKeys spellings) text)).flatten) ∧
    (sortedKeys spellings).Pairwise (fun a b => b.length ≤ a.length) ∧
    (∀ L : Nat, (sortedKeys spellings).filter (fun k => decide (k.length = L)) =
      (objectKeys spellings).filter (fun k => decide (k.length = L))) ∧
    (∀ k s : Str, ∃ ps : List Nat, ps.Pairwise (fun i j => i < j) ∧
      (∀ i ∈ ps, WholeWordAt k s i) ∧
      matchAll k s = ps.map (fun i => (s.drop i).take k.length)) := by
  refine ⟨?_, ?_, sortByLength_pairwise _, fun L => filter_sortByLength _ L, matchAll_positions⟩
  · intro fileName content
    refine ⟨_, by simp only [processFile, processLines_eq]; rfl, by simp, ?_⟩
    simpa using fileChanges_sorted spellings 0 (splitLines content)
  · intro text lineNumber
    obtain ⟨st, h⟩ := convertToBritish_isSome spellings text lineNumber
    rw [h, Option.map_some', convertKeys_changes spellings lineNumber _ text st h]

theorem change_record_order_witness :
    AsciiDict [("tire".toList, "tyre".toList), ("color".toList, "colour".toList),
      ("gray".toList, "grey".toList)] ∧
    (sortedKeys [("tire".toList, "tyre".toList), ("color".toList, "colour".toList),
      ("gray".toList, "grey".toList)]).filter (fun k => decide (k.length = 4)) =
      (objectKeys [("tire".toList, "tyre".toList), ("color".toList, "colour".toList),
        ("gray".toList, "grey".toList)]).filter (fun k => decide (k.length = 4)) :=
  ⟨by decide, (change_record_order _ (by decide)).2.2.2.1 4⟩

/-! ## A line that is one word -/

theorem upperChar_idem (c : Char) : upperChar (upperChar c) = upperChar c := by
  apply char_eq_of_toNat_eq
  rw [toNat_upperChar (upperChar c), toNat_upperChar c]
  split_ifs <;> omega

theorem isWordChar_upperChar (c : Char) : isWordChar (upperChar c) = isWordChar c := by
  unfold isWordChar isDigit
  rw [toNat_upperChar c]
  by_cases h : 97 ≤ c.toNat ∧ c.toNat ≤ 122
  · have h1 : 65 ≤ c.toNat - 32 ∧ c.toNat - 32 ≤ 90 := by omega
    simp [h, h1]
  · simp [h]

theorem isWordChar_of_isLowerLetter (c : Char) (h : isLowerLetter c = true) :
    isWordChar c = true := by
  unfold isLowerLetter at h
  unfold isWordChar
  simp only [decide_eq_true_eq] at h
  simp [h]

theorem upperChar_ne_dollar (c : Char) (h : c ≠ '$') : upperChar c ≠ '$' := by
  intro hu
  apply h
  have h1 := toNat_upperChar c
  rw [hu] at h1
  apply char_eq_of_toNat_eq
  have h2 : ('$' : Char).toNat = 36 := by decide
  rw [h2] at h1 ⊢
  split at h1 <;> omega

theorem upperChar_ne_of_isLowerLetter (c : Char) (h : isLowerLetter c = true) :
    upperChar c ≠ c := by
  intro hu
  unfold isLowerLetter at h
  simp only [decide_eq_true_eq] at h
  have h1 := toNat_upperChar c
  rw [hu, if_pos h] at h1
  omega

theorem matchAllFrom_skip (k : Str) (hk : k ≠ []) (rest : Str) (prev : Option Char) (skip : Nat)
    (h : rest.length ≤ skip) : matchAllFrom k prev rest skip = [] := by
  induction rest generalizing prev skip with
  | nil =>
    unfold matchAllFrom
    split
    · have : matchHere k prev [] = none := by
        unfold matchHere
        have : ¬ ([] : Str) = List.map canonicalize k := by
          intro h0
          exact hk (List.map_eq_nil_iff.1 h0.symm)
        simp [this]
      simp [this]
    · rfl
  | cons c cs ih =>
    unfold matchAllFrom
    have : skip ≠ 0 := by simp at h; omega
    rw [if_neg this]
    exact ih _ _ (by simp at h; omega)

theorem matchAll_self (k L : Str) (hk : k ≠ []) (hL : L.map canonicalize = k.map canonicalize)
    (hw : ∀ c ∈ L, isWordChar c = true) : matchAll k L = [L] := by
  have hlen : L.length = k.length := by simpa using congrArg List.length hL
  cases L with
  | nil => exact absurd (List.length_eq_zero.1 hlen.symm) hk
  | cons c cs =>
    have hm : matchHere k none (c :: cs) = some (c :: cs) := by
      have htake : (c :: cs).take k.length = c :: cs := by
        rw [← hlen]; exact List.take_length _
      have hdrop : (c :: cs).drop k.length = [] := by
        rw [← hlen]; exact List.drop_length _
      have hlast : isWordAt ((c :: cs).getLast?) = true := by
        rw [List.getLast?_eq_getLast _ (List.cons_ne_nil _ _)]
        exact hw _ (List.getLast_mem _)
      have hfirst : isWordAt (some c) = true := hw c (List.mem_cons_self _ _)
      have hnone : isWordAt none = false := rfl
      unfold matchHere
      simp only [htake, hdrop, hL, isWordBoundary, Option.toList, List.nil_append,
        List.head?_cons, List.head?_nil, hlast, hfirst, hnone]
      simp
    unfold matchAll matchAllFrom
    simp only [hm, if_true]
    rw [matchAllFrom_skip k hk cs (some c) _ (by simp)]

theorem splitAtFirst_self (w : Str) : splitAtFirst w w = some ([], []) := by
  cases w with
  | nil => simp [splitAtFirst]
  | cons c cs =>
    unfold splitAtFirst
    have : (c :: cs).isPrefixOf (c :: cs) = true := List.isPrefixOf_iff_prefix.2 (List.prefix_refl _)
    rw [if_pos this]
    simp

theorem getSubstitution_of_no_dollar_aux (m b a : Str) (n : Nat) :
    ∀ r : Str, r.length ≤ n → '$' ∉ r → getSubstitution m b a r = r := by
  induction n with
  | zero =>
    intro r hr _
    have : r = [] := List.length_eq_zero.1 (Nat.le_zero.1 hr)
    subst this
    rfl
  | succ n ih =>
    intro r hr h
    match r, hr, h with
    | [], _, _ => rfl
    | [x], _, _ => rfl
    | x :: y :: rest, hr, h =>
      have hx : x ≠ '$' := fun e => h (by simp [e])
      have hrest : '$' ∉ y :: rest := fun e => h (List.mem_cons_of_mem _ e)
      unfold getSubstitution
      rw [if_neg hx, ih (y :: rest) (by simp at hr ⊢; omega) hrest]

theorem getSubstitution_of_no_dollar (m b a r : Str) (h : '$' ∉ r) :
    getSubstitution m b a r = r :=
  getSubstitution_of_no_dollar_aux m b a r.length r (le_refl _) h

theorem replace_self (w r : Str) (h : '$' ∉ r) : replace w w r = r := by
  unfold replace
  rw [splitAtFirst_self]
  simp [getSubstitution_of_no_dollar _ _ _ r h]

theorem convertKeys_append (d : Dict) (n : Nat) (ks1 ks2 : List Str) (st : Str × List Change) :
    convertKeys d n (ks1 ++ ks2) st =
      (convertKeys d n ks1 st).bind (convertKeys d n ks2) := by
  induction ks1 generalizing st with
  | nil => simp [convertKeys]
  | cons k ks ih =>
    obtain ⟨text, cs⟩ := st
    simp only [List.cons_append, convertKeys]
    cases getProp d k with
    | none => rfl
    | some v =>
      simp only
      cases applyMatches k v n (matchAll k text) (text, cs) with
      | none => rfl
      | some st1 => exact ih st1

theorem convertKeys_single_word (d : Dict) (n : Nat) (before after : List Str) (k v L R : Str)
    (hv : getProp d k = some v)
    (hb : ∀ x ∈ before, x ∈ d.map Prod.fst ∧ ¬ WholeWordOccurs x L)
    (ha : ∀ x ∈ after, x ∈ d.map Prod.fst ∧ ¬ WholeWordOccurs x R)
    (hm : matchAll k L = [L]) (hr : replacementFor k v L = some R) (hd : '$' ∉ R) :
    (convertKeys d n (before ++ k :: after) (L, [])).map Prod.fst = some R := by
  rw [convertKeys_append]
  rw [convertKeys_no_match d n before L [] (fun x hx => (hb x hx).1)
    (fun x hx => matchAll_eq_nil_of_not_occurs x L (hb x hx).2)]
  simp only [Option.some_bind, convertKeys, hv, hm, applyMatches, hr]
  split_ifs with hne
  · simp only [replace_self L R hd]
    rw [convertKeys_no_match d n after R _ (fun x hx => (ha x hx).1)
      (fun x hx => matchAll_eq_nil_of_not_occurs x R (ha x hx).2)]
    rfl
  · have : L = R := by simpa using hne
    subst this
    simp only
    rw [convertKeys_no_match d n after L _ (fun x hx => (ha x hx).1)
      (fun x hx => matchAll_eq_nil_of_not_occurs x L (ha x hx).2)]
    rfl

theorem convertToBritish_single_word (d : Dict) (n : Nat) (k v L R : Str)
    (hv : getProp d k = some v)
    (hother : ∀ kv ∈ d, kv.1 ≠ k → ¬ WholeWordOccurs kv.1 L ∧ ¬ WholeWordOccurs kv.1 R)
    (hm : matchAll k L = [L]) (hr : replacementFor k v L = some R) (hd : '$' ∉ R) :
    (convertToBritish d L n).map Prod.fst = some R := by
  have hmem : k ∈ sortedKeys d :=
    (mem_sortedKeys d k).2 (List.mem_map.2 ⟨(k, v), mem_of_getProp d k v hv, rfl⟩)
  obtain ⟨before, after, hsplit⟩ := List.append_of_mem hmem
  have hnd := nodup_sortedKeys d
  rw [hsplit] at hnd
  have hkb : ∀ x ∈ before, x ≠ k := by
    intro x hx e
    subst e
    have := (List.nodup_append.1 hnd).2.2
    exact this hx (List.mem_cons_self _ _)
  have hka : ∀ x ∈ after, x ≠ k := by
    intro x hx e
    subst e
    have := (List.nodup_cons.1 (List.nodup_append.1 hnd).2.1).1
    exact this hx
  have hin : ∀ x, x ∈ before ∨ x ∈ after → x ∈ d.map Prod.fst := by
    intro x hx
    apply (mem_sortedKeys d x).1
    rw [hsplit]
    rcases hx with hx | hx
    · exact List.mem_append_left _ hx
    · exact List.mem_append_right _ (List.mem_cons_of_mem _ hx)
  have hocc : ∀ x, x ∈ d.map Prod.fst → x ≠ k →
      ¬ WholeWordOccurs x L ∧ ¬ WholeWordOccurs x R := by
    intro x hx hne
    obtain ⟨kv, hkv, rfl⟩ := List.mem_map.1 hx
    exact hother kv hkv hne
  unfold convertToBritish
  rw [hsplit]
  exact convertKeys_single_word d n before after k v L R hv
    (fun x hx => ⟨hin x (Or.inl hx), (hocc x (hin x (Or.inl hx)) (hkb x hx)).1⟩)
    (fun x hx => ⟨hin x (Or.inr hx), (hocc x (hin x (Or.inr hx)) (hka x hx)).2⟩)
    hm hr hd

theorem dollar_not_mem_toUpperCase (s : Str) (h : '$' ∉ s) : '$' ∉ toUpperCase s := by
  intro hm
  obtain ⟨c, hc, hcu⟩ := List.mem_map.1 hm
  exact upperChar_ne_dollar c (fun e => h (e ▸ hc)) hcu

theorem dollar_not_mem_capitalize (s : Str) (h : '$' ∉ s) : '$' ∉ capitalize s := by
  intro hm
  rcases List.mem_append.1 hm with hm | hm
  · exact dollar_not_mem_toUpperCase _ (fun e => h (List.mem_of_mem_take e)) hm
  · exact h (List.mem_of_mem_drop hm)

theorem toUpperCase_ne_of_lower (s : Str) (hs : s ≠ []) (hl : ∀ c ∈ s, isLowerLetter c = true) :
    toUpperCase s ≠ s := by
  cases s with
  | nil => exact absurd rfl hs
  | cons c cs =>
    intro h
    simp only [toUpperCase, List.map_cons, List.cons.injEq] at h
    exact upperChar_ne_of_isLowerLetter c (hl c (List.mem_cons_self _ _)) h.1

/-- C2 (counterexample): with the entries `abc` to `de` and `de` to `x`, the value `de` being
all-lowercase, the line `abc` is converted to `x`, not to `de`: the value written for `abc` is
itself rewritten when the shorter key `de` is processed. -/
theorem chained_entries_counterexample :
    getProp [("abc".toList, "de".toList), ("de".toList, "x".toList)] "abc".toList =
        some "de".toList ∧
      (convertToBritish [("abc".toList, "de".toList), ("de".toList, "x".toList)]
        "abc".toList 1).map Prod.fst = some "x".toList ∧
      (convertToBritish [("abc".toList, "de".toList), ("de".toList, "x".toList)]
        "abc".toList 1).map Prod.fst ≠ some "de".toList := by
  decide

/-- C2 (amended): for an entry `k` to `v` where `k` is a non-empty word of lowercase letters
and `v` holds no `$`, in an ASCII dictionary (the range on which the case mapping of the model
is that of `toUpperCase`) none of whose other keys occurs as a whole word in the
lines converted or in the expected results: the line `k` becomes `v`, the line `k` fully
upper-cased becomes `v` fully upper-cased, and, when `k` has at least two letters, the line `k`
with its first letter upper-cased becomes `v` with its first character upper-cased. -/
theorem convertToBritish_standalone_word (d : Dict) (k v : Str) (n : Nat)
    (_hascii : AsciiDict d) (hentry : getProp d k = some v) (hk : k ≠ [])
    (hlower : ∀ c ∈ k, isLowerLetter c = true) (hdollar : '$' ∉ v)
    (hother : ∀ kv ∈ d, kv.1 ≠ k →
      ∀ s ∈ [k, toUpperCase k, capitalize k, v, toUpperCase v, capitalize v],
        ¬ WholeWordOccurs kv.1 s) :
    (convertToBritish d k n).map Prod.fst = some v ∧
    (convertToBritish d (toUpperCase k) n).map Prod.fst = some (toUpperCase v) ∧
    (2 ≤ k.length →
      (convertToBritish d (capitalize k) n).map Prod.fst = some (capitalize v)) := by
  have hword : ∀ c ∈ k, isWordChar c = true :=
    fun c hc => isWordChar_of_isLowerLetter c (hlower c hc)
  have hidem : ∀ s : Str, (toUpperCase s).map canonicalize = s.map canonicalize := by
    intro s
    simp [toUpperCase, canonicalize, upperChar_idem]
  refine ⟨?_, ?_, ?_⟩
  · apply convertToBritish_single_word d n k v k v hentry
    · intro kv hkv hne
      exact ⟨hother kv hkv hne k (by simp), hother kv hkv hne v (by simp)⟩
    · exact matchAll_self k k hk rfl hword
    · simp [replacementFor]
    · exact hdollar
  · apply convertToBritish_single_word d n k v (toUpperCase k) (toUpperCase v) hentry
    · intro kv hkv hne
      exact ⟨hother kv hkv hne _ (by simp), hother kv hkv hne (toUpperCase v) (by simp)⟩
    · apply matchAll_self k _ hk (hidem k)
      intro c hc
      obtain ⟨c', hc', rfl⟩ := List.mem_map.1 hc
      rw [isWordChar_upperChar]
      exact hword c' hc'
    · unfold replacementFor
      rw [if_neg (toUpperCase_ne_of_lower k hk hlower), if_pos rfl]
    · exact dollar_not_mem_toUpperCase v hdollar
  · intro hlen
    match k, hk, hlower, hword, hentry, hother, hlen with
    | [c], _, _, _, _, _, hlen => simp at hlen
    | c :: c2 :: cs, hk, hlower, hword, hentry, hother, _ =>
      have hcap : capitalize (c :: c2 :: cs) = upperChar c :: c2 :: cs := by
        simp [capitalize, toUpperCase]
      have hc := upperChar_ne_of_isLowerLetter c (hlower c (by simp))
      have hc2 := upperChar_ne_of_isLowerLetter c2 (hlower c2 (by simp))
      apply convertToBritish_single_word d n (c :: c2 :: cs) v _ (capitalize v) hentry
      · intro kv hkv hne
        exact ⟨hother kv hkv hne _ (by simp), hother kv hkv hne (capitalize v) (by simp)⟩
      · rw [hcap]
        apply matchAll_self _ _ hk
        · simp [canonicalize, upperChar_idem]
        · intro x hx
          rcases List.mem_cons.1 hx with rfl | hx
          · rw [isWordChar_upperChar]
            exact hword c (by simp)
          · exact hword x (List.mem_cons_of_mem _ hx)
      · rw [hcap]
        unfold replacementFor
        rw [if_neg (by simp [hc]), if_neg (by simp [toUpperCase, Ne.symm hc2])]
        simp [toUpperCase, upperChar_idem, capitalize]
      · exact dollar_not_mem_capitalize v hdollar

theorem convertToBritish_standalone_word_witness :
    AsciiDict [("color".toList, "colour".toList), ("gray".toList, "grey".toList)] ∧
    getProp [("color".toList, "colour".toList), ("gray".toList, "grey".toList)] "color".toList =
        some "colour".toList ∧
      (convertToBritish [("color".toList, "colour".toList), ("gray".toList, "grey".toList)]
          "color".toList 1).map Prod.fst = some "colour".toList ∧
      (convertToBritish [("color".toList, "colour".toList), ("gray".toList, "grey".toList)]
          (toUpperCase "color".toList) 1).map Prod.fst = some (toUpperCase "colour".toList) ∧
      (2 ≤ "color".toList.length →
        (convertToBritish [("color".toList, "colour".toList), ("gray".toList, "grey".toList)]
          (capitalize "color".toList) 1).map Prod.fst = some (capitalize "colour".toList)) :=
  ⟨by decide, by decide,
    convertToBritish_standalone_word _ "color".toList "colour".toList 1 (by decide) (by decide)
      (by decide) (by decide) (by decide) (by decide)⟩

/-! ## Equality up to letter case -/

theorem isWordChar_canonicalize (c : Char) : isWordChar (canonicalize c) = isWordChar c :=
  isWordChar_upperChar c

theorem isWordChar_of_ciEq (a b : Str) (h : CiEq a b) (hb : ∀ c ∈ b, isWordChar c = true) :
    ∀ c ∈ a, isWordChar c = true := by
  unfold CiEq at h
  induction a generalizing b with
  | nil => simp
  | cons x xs ih =>
    cases b with
    | nil => simp at h
    | cons y ys =>
      simp only [List.map_cons, List.cons.injEq] at h
      intro c hc
      rcases List.mem_cons.1 hc with rfl | hc
      · rw [← isWordChar_canonicalize, h.1, isWordChar_canonicalize]
        exact hb y (List.mem_cons_self _ _)
      · exact ih ys h.2 (fun z hz => hb z (List.mem_cons_of_mem _ hz)) c hc

theorem length_eq_of_ciEq (a b : Str) (h : CiEq a b) : a.length = b.length := by
  simpa using congrArg List.length h

/-! ## The scan past a stretch of the text -/

theorem matchHere_eq_none_of_not_ci (k : Str) (prev : Option Char) (rest : Str)
    (h : ¬ CiEq (rest.take k.length) k) : matchHere k prev rest = none := by
  unfold matchHere
  unfold CiEq at h
  rw [if_neg]
  intro hc
  simp only [Bool.and_eq_true, decide_eq_true_eq] at hc
  exact h hc.1.2

theorem matchAllFrom_skip_through (k : Str) (xs R : Str) (prev : Option Char) (skip : Nat)
    (h : xs.length ≤ skip) :
    matchAllFrom k prev (xs ++ R) skip =
      matchAllFrom k (prev.toList ++ xs).getLast? R (skip - xs.length) := by
  induction xs generalizing prev skip with
  | nil => cases prev <;> simp
  | cons c cs ih =>
    have hs : skip ≠ 0 := by simp at h; omega
    show matchAllFrom k prev (c :: (cs ++ R)) skip = _
    rw [matchAllFrom, if_neg hs, ih (some c) (skip - 1) (by simp at h; omega)]
    have e1 : ((some c).toList ++ cs).getLast? = (prev.toList ++ c :: cs).getLast? := by
      rw [show prev.toList ++ c :: cs = (prev.toList ++ [c]) ++ cs by simp]
      cases cs with
      | nil => simp
      | cons y ys =>
        rw [List.getLast?_append_of_ne_nil _ (List.cons_ne_nil y ys),
          List.getLast?_append_of_ne_nil _ (List.cons_ne_nil y ys)]
    have e2 : skip - 1 - cs.length = skip - (c :: cs).length := by simp; omega
    rw [e1, e2]

/-! ## Replacement and letter case -/

theorem splitAtFirst_through (w xs R : Str)
    (h : ∀ xs1 xs2, xs = xs1 ++ xs2 → xs2 ≠ [] → ¬ w <+: xs2 ++ R) :
    splitAtFirst w (xs ++ R) = (splitAtFirst w R).map (fun p => (xs ++ p.1, p.2)) := by
  induction xs with
  | nil =>
    simp only [List.nil_append]
    cases splitAtFirst w R <;> rfl
  | cons c cs ih =>
    have hnp : ¬ w.isPrefixOf (c :: (cs ++ R)) = true := by
      intro hp
      exact h [] (c :: cs) rfl (List.cons_ne_nil _ _) (List.isPrefixOf_iff_prefix.1 hp)
    show splitAtFirst w (c :: (cs ++ R)) = _
    rw [splitAtFirst, if_neg hnp, ih (fun xs1 xs2 e hne => h (c :: xs1) xs2 (by simp [e]) hne)]
    cases splitAtFirst w R with
    | none => rfl
    | some p => rfl

theorem ciEq_refl (a : Str) : CiEq a a := rfl

theorem ciEq_symm {a b : Str} (h : CiEq a b) : CiEq b a := Eq.symm h

theorem ciEq_trans {a b c : Str} (h1 : CiEq a b) (h2 : CiEq b c) : CiEq a c := Eq.trans h1 h2

theorem ciInfix_of_ciEq {a b : Str} (h : CiEq a b) : CiInfix a b := by
  unfold CiInfix
  rw [h]

theorem ciEq_toUpperCase (v : Str) : CiEq (toUpperCase v) v := by
  unfold CiEq
  simp [toUpperCase, canonicalize, upperChar_idem]

theorem replacementFor_ciEq (k v w r : Str) (h : replacementFor k v w = some r) : CiEq r v := by
  unfold replacementFor at h
  split_ifs at h with h1 h2
  · simp only [Option.some.injEq] at h
    rw [← h]; exact ciEq_refl v
  · simp only [Option.some.injEq] at h
    rw [← h]; exact ciEq_toUpperCase v
  · cases w with
    | nil => simp at h
    | cons c cs =>
      simp only at h
      split_ifs at h
      · simp only [Option.some.injEq] at h
        rw [← h]
        unfold CiEq
        have := ciEq_toUpperCase (v.take 1)
        unfold CiEq at this
        rw [List.map_append, this, ← List.map_append, List.take_append_drop]
      · simp only [Option.some.injEq] at h
        rw [← h]; exact ciEq_refl v

theorem ciInfix_of_exact {w p k : Str} (h : w <:+: p) (hw : CiEq w k) : CiInfix k p := by
  unfold CiInfix
  rw [← hw]
  exact h.map canonicalize

/-! ## The order of the dictionary members -/

theorem dedupKeys_of_nodup (l : List Str) (h : l.Nodup) : dedupKeys l = l := by
  induction l with
  | nil => rfl
  | cons k ks ih =>
    obtain ⟨hk, hks⟩ := List.nodup_cons.1 h
    simp only [dedupKeys, ih hks, List.cons.injEq, true_and]
    apply List.filter_eq_self.2
    intro x hx
    simp only [decide_eq_true_eq]
    intro e
    exact hk (e ▸ hx)

theorem getProp_of_mem (d : Dict) (h : (d.map Prod.fst).Nodup) (k v : Str) (hm : (k, v) ∈ d) :
    getProp d k = some v := by
  obtain ⟨x, hx⟩ := getProp_isSome_of_mem d k (List.mem_map.2 ⟨(k, v), hm, rfl⟩)
  have hx' := mem_of_getProp d k x hx
  have : x = v := by
    have hinj := List.inj_on_of_nodup_map h hx' hm rfl
    exact (Prod.mk.inj hinj).2
  rw [hx, this]

theorem convertKeys_congr (d1 d2 : Dict) (n : Nat) (keys : List Str)
    (h : ∀ k ∈ keys, getProp d1 k = getProp d2 k) (st : Str × List Change) :
    convertKeys d1 n keys st = convertKeys d2 n keys st := by
  induction keys generalizing st with
  | nil => rfl
  | cons k ks ih =>
    obtain ⟨text, cs⟩ := st
    simp only [convertKeys, h k (List.mem_cons_self _ _)]
    cases getProp d2 k with
    | none => rfl
    | some v =>
      simp only
      cases applyMatches k v n (matchAll k text) (text, cs) with
      | none => rfl
      | some st1 => exact ih (fun x hx => h x (List.mem_cons_of_mem _ hx)) st1

theorem eq_of_sorted_of_classes (l1 l2 : List Str)
    (h1 : l1.Pairwise (fun a b => b.length ≤ a.length))
    (h2 : l2.Pairwise (fun a b => b.length ≤ a.length))
    (hf : ∀ L : Nat, l1.filter (fun x => decide (x.length = L)) =
      l2.filter (fun x => decide (x.length = L))) : l1 = l2 := by
  induction l1 generalizing l2 with
  | nil =>
    cases l2 with
    | nil => rfl
    | cons y ys =>
      have := hf y.length
      rw [List.filter_cons_of_pos (by simp)] at this
      simp at this
  | cons x xs ih =>
    cases l2 with
    | nil =>
      have := hf x.length
      rw [List.filter_cons_of_pos (by simp)] at this
      simp at this
    | cons y ys =>
      obtain ⟨hx, hxs⟩ := List.pairwise_cons.1 h1
      obtain ⟨hy, hys⟩ := List.pairwise_cons.1 h2
      have hxy : x.length ≤ y.length := by
        have hm : x ∈ (y :: ys).filter (fun z => decide (z.length = x.length)) := by
          rw [← hf x.length, List.filter_cons_of_pos (by simp)]
          exact List.mem_cons_self _ _
        rcases List.mem_cons.1 (List.mem_filter.1 hm).1 with e | hm
        · rw [e]
        · exact hy x hm
      have hyx : y.length ≤ x.length := by
        have hm : y ∈ (x :: xs).filter (fun z => decide (z.length = y.length)) := by
          rw [hf y.length, List.filter_cons_of_pos (by simp)]
          exact List.mem_cons_self _ _
        rcases List.mem_cons.1 (List.mem_filter.1 hm).1 with e | hm
        · rw [e]
        · exact hx y hm
      have hlen : x.length = y.length := Nat.le_antisymm hxy hyx
      have h0 := hf x.length
      rw [List.filter_cons_of_pos (by simp), List.filter_cons_of_pos (by simpa using hlen.symm)]
        at h0
      obtain ⟨hxy', h0'⟩ := List.cons.inj h0
      subst hxy'
      congr 1
      apply ih ys hxs hys
      intro L
      by_cases hL : x.length = L
      · subst hL
        exact h0'
      · have := hf L
        rwa [List.filter_cons_of_neg (by simpa using hL),
          List.filter_cons_of_neg (by simpa using hL)] at this

theorem sortedKeys_eq_of_classes (d1 d2 : Dict) (hperm : d1.Perm d2)
    (hnd : (d1.map Prod.fst).Nodup)
    (hties : ∀ k ∈ objectKeys d1,
      (objectKeys d1).filter (fun x => decide (x.length = k.length)) =
        (objectKeys d2).filter (fun x => decide (x.length = k.length))) :
    sortedKeys d1 = sortedKeys d2 := by
  have hkeys : (d1.map Prod.fst).Perm (d2.map Prod.fst) := hperm.map _
  have hnd2 : (d2.map Prod.fst).Nodup := hkeys.nodup_iff.1 hnd
  have hp : (objectKeys d1).Perm (objectKeys d2) := by
    have h1 := objectKeys_perm d1
    have h2 := objectKeys_perm d2
    rw [dedupKeys_of_nodup _ hnd] at h1
    rw [dedupKeys_of_nodup _ hnd2] at h2
    exact h1.trans (hkeys.trans h2.symm)
  unfold sortedKeys
  apply eq_of_sorted_of_classes _ _ (sortByLength_pairwise _) (sortByLength_pairwise _)
  intro L
  rw [filter_sortByLength, filter_sortByLength]
  by_cases h : ∃ k ∈ objectKeys d1, k.length = L
  · obtain ⟨k, hk, rfl⟩ := h
    exact hties k hk
  · have e1 : (objectKeys d1).filter (fun x => decide (x.length = L)) = [] := by
      apply List.filter_eq_nil_iff.2
      intro x hx
      simp only [decide_eq_true_eq]
      exact fun e => h ⟨x, hx, e⟩
    have e2 : (objectKeys d2).filter (fun x => decide (x.length = L)) = [] := by
      apply List.filter_eq_nil_iff.2
      intro x hx
      simp only [decide_eq_true_eq]
      exact fun e => h ⟨x, hp.mem_iff.2 hx, e⟩
    rw [e1, e2]

/-- C11 (counterexample): the dictionaries `gray` to `grey`, `tire` to `tyre` and `tire` to
`tyre`, `gray` to `grey` hold the same pairs, yet for the line `gray tire` the first logs the
change of `gray` before that of `tire` and the second logs them the other way round: keys of
equal length are processed in the order they were inserted. -/
theorem insertion_order_counterexample :
    [("gray".toList, "grey".toList), ("tire".toList, "tyre".toList)].Perm
      [("tire".toList, "tyre".toList), ("gray".toList, "grey".toList)] ∧
    convertToBritish [("gray".toList, "grey".toList), ("tire".toList, "tyre".toList)]
        "gray tire".toList 1 =
      some ("grey tyre".toList,
        [⟨1, "gray".toList, "grey".toList⟩, ⟨1, "tire".toList, "tyre".toList⟩]) ∧
    convertToBritish [("tire".toList, "tyre".toList), ("gray".toList, "grey".toList)]
        "gray tire".toList 1 =
      some ("grey tyre".toList,
        [⟨1, "tire".toList, "tyre".toList⟩, ⟨1, "gray".toList, "grey".toList⟩]) ∧
    convertToBritish [("gray".toList, "grey".toList), ("tire".toList, "tyre".toList)]
        "gray tire".toList 1 ≠
      convertToBritish [("tire".toList, "tyre".toList), ("gray".toList, "grey".toList)]
        "gray tire".toList 1 :=
  ⟨List.Perm.swap _ _ _, by decide, by decide, by decide⟩

/-- C11 (amended): two dictionaries that hold the same key/value pairs, with ASCII keys, and in
which the keys of any one length stand in the same order in `Object.keys`, give the same
converted text and the same list of changes for every line. -/
theorem convertToBritish_insertion_order (d1 d2 : Dict) (text : Str) (lineNumber : Nat)
    (_hascii : ∀ kv ∈ d1, AsciiStr kv.1)
    (hperm : d1.Perm d2)
    (hnd : (d1.map Prod.fst).Nodup)
    (hties : ∀ k ∈ objectKeys d1,
      (objectKeys d1).filter (fun x => decide (x.length = k.length)) =
        (objectKeys d2).filter (fun x => decide (x.length = k.length))) :
    convertToBritish d1 text lineNumber = convertToBritish d2 text lineNumber := by
  have hnd2 : (d2.map Prod.fst).Nodup := (hperm.map Prod.fst).nodup_iff.1 hnd
  unfold convertToBritish
  rw [← sortedKeys_eq_of_classes d1 d2 hperm hnd hties]
  apply convertKeys_congr
  intro k hk
  obtain ⟨kv, hkv, rfl⟩ := List.mem_map.1 ((mem_sortedKeys d1 k).1 hk)
  rw [getProp_of_mem d1 hnd kv.1 kv.2 hkv, getProp_of_mem d2 hnd2 kv.1 kv.2 (hperm.mem_iff.1 hkv)]

theorem convertToBritish_insertion_order_witness :
    (∀ kv ∈ [("color".toList, "colour".toList), ("gray".toList, "grey".toList),
      ("favor".toList, "favour".toList), ("tire".toList, "tyre".toList)], AsciiStr kv.1) ∧
    [("color".toList, "colour".toList), ("gray".toList, "grey".toList),
      ("favor".toList, "favour".toList), ("tire".toList, "tyre".toList)].Perm
      [("gray".toList, "grey".toList), ("color".toList, "colour".toList),
        ("tire".toList, "tyre".toList), ("favor".toList, "favour".toList)] ∧
    convertToBritish [("color".toList, "colour".toList), ("gray".toList, "grey".toList),
        ("favor".toList, "favour".toList), ("tire".toList, "tyre".toList)]
        "gray tire, favor color".toList 1 =
      convertToBritish [("gray".toList, "grey".toList), ("color".toList, "colour".toList),
        ("tire".toList, "tyre".toList), ("favor".toList, "favour".toList)]
        "gray tire, favor color".toList 1 :=
  ⟨by decide, by decide,
    convertToBritish_insertion_order _ _ _ 1 (by decide) (by decide) (by decide) (by decide)⟩

/-! ## The name of the output file -/

/-- C12: for the file name `a_en.vtt_en.vtt`, which ends with `_en.vtt`, the output name
computed is `a_uk.vtt_en.vtt`: the first occurrence of the marker is rewritten and the
trailing one is left in place. -/
theorem processFile_marker_twice :
    processFile [] "a_en.vtt_en.vtt".toList "WEBVTT".toList =
      some ⟨"a_uk.vtt_en.vtt".toList, "WEBVTT".toList, "a_en.vtt_en.vtt".toList,
        ⟨"a_uk.vtt_en.vtt".toList, []⟩⟩ := by
  decide

/-! ## Split and join -/

theorem joinLines_cons_cons (c : Char) (l : Str) (ls : List Str) :
    joinLines ((c :: l) :: ls) = c :: joinLines (l :: ls) := by
  cases ls <;> simp [joinLines]

theorem joinLines_splitLines (s : Str) : joinLines (splitLines s) = s := by
  induction s with
  | nil => rfl
  | cons c cs ih =>
    unfold splitLines
    split
    · rename_i hc
      cases h : splitLines cs with
      | nil => exact absurd h (splitLines_ne_nil cs)
      | cons m ls =>
        rw [h] at ih
        simp only [joinLines, List.nil_append, ih, hc]
    · cases h : splitLines cs with
      | nil => exact absurd h (splitLines_ne_nil cs)
      | cons m ls =>
        rw [h] at ih
        simp only [joinLines_cons_cons, ih]

theorem processLine_unchanged (d : Dict) (line : Str) (i : Nat) (log : List Change)
    (h : isStructuralLine line = false → ∀ kv ∈ d, ¬ WholeWordOccurs kv.1 line) :
    processLine d line i log = some (line, log) := by
  unfold processLine
  split
  · rfl
  · rename_i hs
    have hconv : convertToBritish d line (i + 1) = some (line, []) := by
      unfold convertToBritish
      apply convertKeys_no_match d (i + 1) _ _ _ (fun k hk => (mem_sortedKeys d k).1 hk)
      intro k hk
      apply matchAll_eq_nil_of_not_occurs
      obtain ⟨kv, hkv, rfl⟩ := List.mem_map.1 ((mem_sortedKeys d k).1 hk)
      exact h (by simpa using hs) kv hkv
    rw [hconv]
    rfl

theorem processLines_unchanged (d : Dict) (i : Nat) (lines : List Str) (log : List Change)
    (h : ∀ line ∈ lines, isStructuralLine line = false → ∀ kv ∈ d, ¬ WholeWordOccurs kv.1 line) :
    processLines d i lines log = some (lines, log) := by
  induction lines generalizing i log with
  | nil => rfl
  | cons l ls ih =>
    simp only [processLines, processLine_unchanged d l i log (h l (List.mem_cons_self _ _)),
      ih (i + 1) log (fun x hx => h x (List.mem_cons_of_mem _ hx))]

/-- C13: when no line of the content other than the structural ones holds a key of the
dictionary as a whole word (letter case ignored), the content written to the output file is
the input content, and the list of changes of the file is empty.  The keys are ASCII strings,
the range on which the case folding of the model is that of the `i` flag; the content is any
string. -/
theorem processFile_round_trip (spellings : Dict) (fileName content : Str)
    (_hascii : ∀ kv ∈ spellings, AsciiStr kv.1)
    (h : ∀ line ∈ splitLines content, isStructuralLine line = false →
      ∀ kv ∈ spellings, ¬ WholeWordOccurs kv.1 line) :
    ∃ r, processFile spellings fileName content = some r ∧ r.outputContent = content ∧
      r.logEntry.changes = [] := by
  refine ⟨_, by simp only [processFile, processLines_unchanged spellings 0 _ [] h]; rfl, ?_, rfl⟩
  exact joinLines_splitLines content

theorem processFile_round_trip_witness :
    (∀ kv ∈ [("gray".toList, "grey".toList), ("webvtt".toList, "x".toList)], AsciiStr kv.1) ∧
    (∀ line ∈ splitLines "WEBVTT\n\n00:00:01.000 --> 00:00:04.000\nA grayscale image.\n".toList,
      isStructuralLine line = false →
        ∀ kv ∈ [("gray".toList, "grey".toList), ("webvtt".toList, "x".toList)],
          ¬ WholeWordOccurs kv.1 line) ∧
    ∃ r, processFile [("gray".toList, "grey".toList), ("webvtt".toList, "x".toList)]
          "clip_en.vtt".toList
          "WEBVTT\n\n00:00:01.000 --> 00:00:04.000\nA grayscale image.\n".toList = some r ∧
      r.outputContent = "WEBVTT\n\n00:00:01.000 --> 00:00:04.000\nA grayscale image.\n".toList ∧
      r.logEntry.changes = [] :=
  ⟨by decide, by decide, processFile_round_trip _ _ _ (by decide) (by decide)⟩

/-! ## The change records of a line and of a file -/

theorem applyMatches_records (k v : Str) (n : Nat) (ws : List Str) (st st' : Str × List Change)
    (h : applyMatches k v n ws st = some st') :
    ∀ c ∈ st'.2, c ∈ st.2 ∨ (c.line = n ∧ c.original ≠ c.changed ∧ c.original ∈ ws) := by
  induction ws generalizing st with
  | nil =>
    simp only [applyMatches, Option.some.injEq] at h
    rw [← h]
    exact fun c hc => Or.inl hc
  | cons w ws ih =>
    obtain ⟨text, cs⟩ := st
    unfold applyMatches at h
    cases hr : replacementFor k v w with
    | none => simp [hr] at h
    | some r =>
      simp only [hr] at h
      split_ifs at h with hne
      · intro c hc
        rcases ih _ h c hc with hc | ⟨h1, h2, h3⟩
        · rcases List.mem_append.1 hc with hc | hc
          · exact Or.inl hc
          · right
            simp only [List.mem_singleton] at hc
            rw [hc]
            exact ⟨rfl, hne, List.mem_cons_self _ _⟩
        · exact Or.inr ⟨h1, h2, List.mem_cons_of_mem _ h3⟩
      · intro c hc
        rcases ih _ h c hc with hc | ⟨h1, h2, h3⟩
        · exact Or.inl hc
        · exact Or.inr ⟨h1, h2, List.mem_cons_of_mem _ h3⟩

theorem convertKeys_records (d : Dict) (n : Nat) (keys : List Str) (st st' : Str × List Change)
    (h : convertKeys d n keys st = some st') :
    ∀ c ∈ st'.2, c ∈ st.2 ∨
      (c.line = n ∧ c.original ≠ c.changed ∧ ∃ k ∈ keys, CiEq c.original k) := by
  induction keys generalizing st with
  | nil =>
    simp only [convertKeys, Option.some.injEq] at h
    rw [← h]
    exact fun c hc => Or.inl hc
  | cons k ks ih =>
    obtain ⟨text, cs⟩ := st
    unfold convertKeys at h
    cases hv : getProp d k with
    | none => simp [hv] at h
    | some v =>
      simp only [hv] at h
      cases ha : applyMatches k v n (matchAll k text) (text, cs) with
      | none => simp [ha] at h
      | some st1 =>
        simp only [ha] at h
        intro c hc
        rcases ih st1 h c hc with hc | ⟨h1, h2, k', hk', h3⟩
        · rcases applyMatches_records k v n _ _ _ ha c hc with hc | ⟨h1, h2, h3⟩
          · exact Or.inl hc
          · exact Or.inr ⟨h1, h2, k, List.mem_cons_self _ _, mem_matchAll k text _ h3⟩
        · exact Or.inr ⟨h1, h2, k', List.mem_cons_of_mem _ hk', h3⟩

/-- C17: every change record returned by `convertToBritish` has an `original` different from
its `changed`, carries the line number given to the call, and has an `original` equal, letter
case ignored, to a key of the dictionary.  The dictionary is ASCII, the range on which the
case mapping of the model is that of the code; the line is any string. -/
theorem change_records_wellformed (spellings : Dict) (text : Str) (lineNumber : Nat)
    (_hascii : AsciiDict spellings) :
    ∃ r, convertToBritish spellings text lineNumber = some r ∧
      ∀ c ∈ r.2, c.original ≠ c.changed ∧ c.line = lineNumber ∧
        ∃ kv ∈ spellings, CiEq c.original kv.1 := by
  obtain ⟨r, hr⟩ := convertToBritish_isSome spellings text lineNumber
  refine ⟨r, hr, ?_⟩
  intro c hc
  rcases convertKeys_records spellings lineNumber _ _ _ hr c hc with h | ⟨h1, h2, k, hk, h3⟩
  · simp at h
  · obtain ⟨kv, hkv, rfl⟩ := List.mem_map.1 ((mem_sortedKeys spellings k).1 hk)
    exact ⟨h2, h1, kv, hkv, h3⟩

theorem change_records_wellformed_witness :
    AsciiDict [("color".toList, "colour".toList), ("gray".toList, "grey".toList)] ∧
    ∃ r, convertToBritish [("color".toList, "colour".toList), ("gray".toList, "grey".toList)]
        "Gray COLOR, color".toList 7 = some r ∧
      ∀ c ∈ r.2, c.original ≠ c.changed ∧ c.line = 7 ∧
        ∃ kv ∈ [("color".toList, "colour".toList), ("gray".toList, "grey".toList)],
          CiEq c.original kv.1 :=
  ⟨by decide, change_records_wellformed _ _ 7 (by decide)⟩

theorem lineChanges_of_structural (d : Dict) (line : Str) (i : Nat)
    (h : isStructuralLine line = true) : lineChanges d line i = [] := by
  simp [lineChanges, processLine, h]

theorem convertedLine_of_structural (d : Dict) (line : Str) (i : Nat)
    (h : isStructuralLine line = true) : convertedLine d line i = line := by
  simp [convertedLine, processLine, h]

theorem mem_fileChanges (d : Dict) (i : Nat) (lines : List Str) (c : Change)
    (h : c ∈ fileChanges d i lines) :
    ∃ j l, lines[j]? = some l ∧ c ∈ lineChanges d l (i + j) := by
  induction lines generalizing i with
  | nil => simp [fileChanges] at h
  | cons x xs ih =>
    simp only [fileChanges, List.mem_append] at h
    rcases h with h | h
    · exact ⟨0, x, by simp, by simpa using h⟩
    · obtain ⟨j, l, hl, hc⟩ := ih (i + 1) h
      refine ⟨j + 1, l, by simpa using hl, ?_⟩
      have : i + (j + 1) = i + 1 + j := by omega
      rw [this]
      exact hc

/-- C18: in the log of a file the line numbers of the change records never decrease, each of
them lies between 1 and the number of lines of the file, and the line it names is not a
structural line. -/
theorem file_log_line_numbers (spellings : Dict) (fileName content : Str) :
    ∃ r, processFile spellings fileName content = some r ∧
      (r.logEntry.changes.map Change.line).Pairwise (fun a b => a ≤ b) ∧
      ∀ c ∈ r.logEntry.changes, 1 ≤ c.line ∧ c.line ≤ (splitLines content).length ∧
        ∃ l, (splitLines content)[c.line - 1]? = some l ∧ isStructuralLine l = false := by
  refine ⟨_, by simp only [processFile, processLines_eq]; rfl, ?_, ?_⟩
  · simpa using fileChanges_sorted spellings 0 (splitLines content)
  · intro c hc
    have hc' : c ∈ fileChanges spellings 0 (splitLines content) := by simpa using hc
    obtain ⟨j, l, hl, hcl⟩ := mem_fileChanges spellings 0 _ c hc'
    have hline := lineChanges_line spellings l (0 + j) c hcl
    have hj : j < (splitLines content).length := by
      by_contra hge
      rw [List.getElem?_eq_none (by omega)] at hl
      simp at hl
    refine ⟨by omega, by omega, l, ?_, ?_⟩
    · have : c.line - 1 = j := by omega
      rw [this]
      exact hl
    · cases hs : isStructuralLine l with
      | false => rfl
      | true =>
        rw [lineChanges_of_structural spellings l _ hs] at hcl
        simp at hcl

/-- C20: when no value of the dictionary holds a line feed, the output content has as many
lines as the input content, and where the input line is structural the output line is the
same line. -/
theorem processFile_line_alignment (spellings : Dict) (fileName content : Str)
    (hd : ∀ kv ∈ spellings, '\n' ∉ kv.2) :
    ∃ r, processFile spellings fileName content = some r ∧
      (splitLines r.outputContent).length = (splitLines content).length ∧
      ∀ (i : Nat) (l : Str), (splitLines content)[i]? = some l → isStructuralLine l = true →
        (splitLines r.outputContent)[i]? = some l := by
  have hsplit : splitLines (joinLines (convertedLines spellings 0 (splitLines content))) =
      convertedLines spellings 0 (splitLines content) := by
    apply splitLines_joinLines
    · intro h
      have := congrArg List.length h
      rw [convertedLines_length] at this
      exact splitLines_ne_nil content (List.length_eq_zero.1 this)
    · exact convertedLines_no_newline spellings hd 0 _ (newline_not_mem_splitLines content)
  refine ⟨_, by simp only [processFile, processLines_eq]; rfl, ?_, ?_⟩
  · show (splitLines (joinLines _)).length = _
    rw [hsplit, convertedLines_length]
  · intro i l hl hs
    show (splitLines (joinLines _))[i]? = _
    rw [hsplit, convertedLines_getElem?, hl]
    simp only [Option.map_some', convertedLine_of_structural spellings l _ hs]

theorem processFile_line_alignment_witness :
    (∀ kv ∈ [("color".toList, "colour".toList)], '\n' ∉ kv.2) ∧
    ∃ r, processFile [("color".toList, "colour".toList)] "clip_en.vtt".toList
          "WEBVTT\n\n00:00:01.000 --> 00:00:04.000\nThe color\n".toList = some r ∧
      (splitLines r.outputContent).length =
        (splitLines "WEBVTT\n\n00:00:01.000 --> 00:00:04.000\nThe color\n".toList).length ∧
      ∀ (i : Nat) (l : Str), (splitLines "WEBVTT\n\n00:00:01.000 --> 00:00:04.000\nThe color\n".toList)[i]? =
          some l → isStructuralLine l = true → (splitLines r.outputContent)[i]? = some l :=
  ⟨by decide, processFile_line_alignment _ _ _ (by decide)⟩

/-! ## `escapeRegExp` -/

theorem getSubstitution_escape (c : Char) (before after : Str) :
    getSubstitution [c] before after ['\\', '$', '&'] = ['\\', c] := by
  have h1 : ('\\' : Char) ≠ '$' := by decide
  have h2 : ('&' : Char) ≠ '$' := by decide
  simp [getSubstitution, h1, h2]

theorem escapeFrom_eq (s before : Str) : escapeFrom before s = escapeSpec s := by
  induction s generalizing before with
  | nil => rfl
  | cons c cs ih =>
    simp only [escapeFrom, escapeSpec, List.flatMap_cons, getSubstitution_escape, ih]

theorem escapeRegExp_eq (s : Str) : escapeRegExp s = escapeSpec s := escapeFrom_eq s []

theorem escapeSpec_cons (c : Char) (cs : Str) :
    escapeSpec (c :: cs) = (if isRegExpSpecial c then ['\\', c] else [c]) ++ escapeSpec cs := by
  simp [escapeSpec, List.flatMap_cons]

theorem backslash_special : isRegExpSpecial '\\' = true := by decide

theorem unescape_cons_of_ne (c : Char) (R : Str) (h : c ≠ '\\') :
    unescape (c :: R) = c :: unescape R := by
  cases R with
  | nil => rfl
  | cons d r => simp [unescape, h]

theorem unescape_escapeSpec (s : Str) : unescape (escapeSpec s) = s := by
  induction s with
  | nil => rfl
  | cons c cs ih =>
    rw [escapeSpec_cons]
    by_cases hc : isRegExpSpecial c = true
    · rw [if_pos hc]
      simp [unescape, ih]
    · rw [if_neg hc]
      have hne : c ≠ '\\' := by
        intro e
        rw [e] at hc
        exact hc backslash_special
      simp only [List.singleton_append]
      rw [unescape_cons_of_ne c _ hne, ih]

theorem escapeSpec_of_no_special (s : Str) (h : ∀ c ∈ s, isRegExpSpecial c = false) :
    escapeSpec s = s := by
  induction s with
  | nil => rfl
  | cons c cs ih =>
    rw [escapeSpec_cons, h c (List.mem_cons_self _ _),
      ih (fun x hx => h x (List.mem_cons_of_mem _ hx))]
    rfl

/-- C19: `escapeRegExp(s)` is `s` with one backslash put in front of each of the characters
`. * + ? ^ $ { } ( ) | [ ] \` and every other character left in place; removing the backslash
in front of each escaped character gives `s` back; and a string without any of these characters
is returned as it is. -/
theorem escapeRegExp_literal (s : Str) :
    escapeRegExp s = s.flatMap (fun c => if isRegExpSpecial c then ['\\', c] else [c]) ∧
    (∀ c : Char, isRegExpSpecial c = true ↔
      c ∈ ['.', '*', '+', '?', '^', '$', '{', '}', '(', ')', '|', '[', ']', '\\']) ∧
    unescape (escapeRegExp s) = s ∧
    ((∀ c ∈ s, isRegExpSpecial c = false) → escapeRegExp s = s) := by
  refine ⟨escapeRegExp_eq s, ?_, ?_, ?_⟩
  · intro c
    simp [isRegExpSpecial]
  · rw [escapeRegExp_eq]
    exact unescape_escapeSpec s
  · intro h
    rw [escapeRegExp_eq]
    exact escapeSpec_of_no_special s h

theorem escapeRegExp_literal_witness :
    (∀ c ∈ "colour".toList, isRegExpSpecial c = false) ∧
      escapeRegExp "colour".toList = "colour".toList :=
  ⟨by decide, (escapeRegExp_literal "colour".toList).2.2.2 (by decide)⟩

/-! ## The pattern built from a key -/

theorem parsePattern_boundary (R : Str) :
    parsePattern ('\\' :: 'b' :: R) = (parsePattern R).map (fun items => PatItem.boundary :: items) := by
  simp only [parsePattern, if_true]
  cases parsePattern R <;> rfl

theorem parsePattern_escaped (c : Char) (R : Str) (hc : isRegExpSpecial c = true) :
    parsePattern ('\\' :: c :: R) = (parsePattern R).map (fun items => PatItem.char c :: items) := by
  have hb : c ≠ 'b' := by
    intro e
    rw [e] at hc
    exact absurd hc (by decide)
  simp only [parsePattern, if_true, if_neg hb, hc]
  cases parsePattern R <;> rfl

theorem parsePattern_plain (c : Char) (R : Str) (hc : isRegExpSpecial c = false) :
    parsePattern (c :: R) = (parsePattern R).map (fun items => PatItem.char c :: items) := by
  have hne : c ≠ '\\' := by
    intro e
    rw [e, backslash_special] at hc
    exact absurd hc (by simp)
  cases R with
  | nil => simp [parsePattern, hne, hc]
  | cons d r =>
    simp only [parsePattern, if_neg hne, hc]
    cases parsePattern (d :: r) <;> simp

theorem parsePattern_escapeSpec (k R : Str) :
    parsePattern (escapeSpec k ++ R) =
      (parsePattern R).map (fun items => k.map PatItem.char ++ items) := by
  induction k with
  | nil =>
    simp only [escapeSpec, List.flatMap_nil, List.nil_append, List.map_nil]
    cases parsePattern R <;> simp
  | cons c cs ih =>
    rw [escapeSpec_cons]
    by_cases hc : isRegExpSpecial c = true
    · rw [if_pos hc]
      show parsePattern ('\\' :: c :: (escapeSpec cs ++ R)) = _
      rw [parsePattern_escaped c _ hc, ih]
      cases parsePattern R <;> simp
    · rw [if_neg hc]
      show parsePattern (c :: (escapeSpec cs ++ R)) = _
      rw [parsePattern_plain c _ (by simpa using hc), ih]
      cases parsePattern R <;> simp

theorem parsePattern_regexSource (k : Str) :
    parsePattern (regexSource k) =
      some (PatItem.boundary :: k.map PatItem.char ++ [PatItem.boundary]) := by
  unfold regexSource
  rw [escapeRegExp_eq]
  show parsePattern ('\\' :: 'b' :: (escapeSpec k ++ ['\\', 'b'])) = _
  rw [parsePattern_boundary, parsePattern_escapeSpec, parsePattern_boundary]
  simp [parsePattern]

theorem matchItems_literal (k : Str) (prev : Option Char) (rest : Str) :
    matchItems (k.map PatItem.char ++ [PatItem.boundary]) prev rest =
      if decide ((rest.take k.length).map canonicalize = k.map canonicalize) &&
          isWordBoundary (prev.toList ++ rest.take k.length).getLast?
            (rest.drop k.length).head? then
        some (rest.take k.length)
      else none := by
  induction k generalizing prev rest with
  | nil =>
    cases prev <;> simp [matchItems]
  | cons p ps ih =>
    cases rest with
    | nil => simp [matchItems]
    | cons c cs =>
      show matchItems (PatItem.char p :: (ps.map PatItem.char ++ [PatItem.boundary])) prev
        (c :: cs) = _
      rw [matchItems, ih (some c) cs]
      simp only [List.map_cons, List.length_cons, List.take_succ_cons, List.drop_succ_cons,
        List.cons.injEq]
      have hlast : (prev.toList ++ c :: List.take ps.length cs).getLast? =
          ((some c).toList ++ List.take ps.length cs).getLast? := by
        rw [show prev.toList ++ c :: List.take ps.length cs =
          (prev.toList ++ [c]) ++ List.take ps.length cs by simp]
        cases List.take ps.length cs with
        | nil => simp
        | cons y ys =>
          rw [List.getLast?_append_of_ne_nil _ (List.cons_ne_nil y ys),
            List.getLast?_append_of_ne_nil _ (List.cons_ne_nil y ys)]
      rw [hlast]
      by_cases h1 : canonicalize p = canonicalize c
      · simp only [h1, if_true, true_and]
        split_ifs <;> rfl
      · have h1' : ¬ canonicalize c = canonicalize p := fun e => h1 e.symm
        simp [h1, h1']

theorem matchItems_regex (k : Str) (prev : Option Char) (rest : Str) :
    matchItems (PatItem.boundary :: k.map PatItem.char ++ [PatItem.boundary]) prev rest =
      matchHere k prev rest := by
  show matchItems (PatItem.boundary :: (k.map PatItem.char ++ [PatItem.boundary])) prev rest = _
  rw [matchItems, matchItems_literal]
  unfold matchHere
  by_cases hb : isWordBoundary prev rest.head? = true
  · simp [hb]
  · simp [hb]

/-- C14: `convertToBritish` returns a result for every dictionary, line and line number.  The
source built from any key is read as a pattern, and that pattern is the key itself, character
by character, between two `\b` assertions, whatever characters the key holds.  Every matched
word has a replacement, and a matched word that is empty is the key itself, so the test on the
first character of the matched word is not reached with an empty word. -/
theorem converter_never_fails :
    (∀ (spellings : Dict) (text : Str) (lineNumber : Nat),
      ∃ r, convertToBritish spellings text lineNumber = some r) ∧
    (∀ american : Str, parsePattern (regexSource american) =
      some (PatItem.boundary :: american.map PatItem.char ++ [PatItem.boundary])) ∧
    (∀ (american : Str) (prev : Option Char) (rest : Str),
      matchItems (PatItem.boundary :: american.map PatItem.char ++ [PatItem.boundary]) prev rest =
        matchHere american prev rest) ∧
    (∀ (american british text originalWord : Str), originalWord ∈ matchAll american text →
      (originalWord = [] → originalWord = american) ∧
        ∃ r, replacementFor american british originalWord = some r) := by
  refine ⟨convertToBritish_isSome, parsePattern_regexSource, matchItems_regex, ?_⟩
  intro american british text w hw
  have hci := mem_matchAll american text w hw
  refine ⟨?_, replacementFor_isSome american british w hci⟩
  intro e
  rw [e] at hci ⊢
  have := congrArg List.length hci
  simp at this
  exact (List.length_eq_zero.1 this.symm).symm

theorem converter_never_fails_witness :
    ("" : String).toList ∈ matchAll "".toList "a b".toList ∧
      ((("" : String).toList = [] → ("" : String).toList = "".toList) ∧
        ∃ r, replacementFor "".toList "x".toList "".toList = some r) :=
  ⟨by decide, converter_never_fails.2.2.2 "".toList "x".toList "a b".toList "".toList (by decide)⟩

/-! ## The case rule -/

/-- C15: for the entry `1st` to `first` the matched word `1St` is the key up to letter case, is
neither the key nor the key upper-cased, and begins with a digit, not an upper-case letter.
The rule of the claim gives `first`; the test of line 50, `originalWord[0] ===
originalWord[0].toUpperCase()`, holds for the digit, and the code gives `First`.  On the three
examples of the claim, `COLOR`, `COlor` and `cOLOR` for `color` to `colour`, the code gives
`COLOUR`, `Colour` and `colour`. -/
theorem title_case_digit_first :
    CiEq "1St".toList "1st".toList ∧
    caseRuleUpperFirst "1st".toList "first".toList "1St".toList = "first".toList ∧
    replacementFor "1st".toList "first".toList "1St".toList = some "First".toList ∧
    convertToBritish [("1st".toList, "first".toList)] "1St".toList 1 =
      some ("First".toList, [⟨1, "1St".toList, "First".toList⟩]) ∧
    replacementFor "color".toList "colour".toList "COLOR".toList = some "COLOUR".toList ∧
    replacementFor "color".toList "colour".toList "COlor".toList = some "Colour".toList ∧
    replacementFor "color".toList "colour".toList "cOLOR".toList = some "colour".toList := by
  decide

/-! ## Replaying the change records -/

theorem replace_eq_replaceLiteral (t w r : Str) (h : '$' ∉ r) :
    replace t w r = replaceLiteral t w r := by
  unfold replace replaceLiteral
  cases splitAtFirst w t with
  | none => rfl
  | some p => simp only [getSubstitution_of_no_dollar _ _ _ r h]

theorem dollar_not_mem_replacementFor (k v w r : Str) (h : replacementFor k v w = some r)
    (hv : '$' ∉ v) : '$' ∉ r := by
  unfold replacementFor at h
  split_ifs at h with h1 h2
  · simp only [Option.some.injEq] at h
    rw [← h]; exact hv
  · simp only [Option.some.injEq] at h
    rw [← h]; exact dollar_not_mem_toUpperCase v hv
  · cases w with
    | nil => simp at h
    | cons c cs =>
      simp only at h
      split_ifs at h
      · simp only [Option.some.injEq] at h
        rw [← h]; exact dollar_not_mem_capitalize v hv
      · simp only [Option.some.injEq] at h
        rw [← h]; exact hv

theorem replay_append (t : Str) (cs : List Change) (c : Change) :
    replay t (cs ++ [c]) = replaceLiteral (replay t cs) c.original c.changed := by
  simp [replay, List.foldl_append]

theorem applyMatches_replay (k v : Str) (n : Nat) (hv : '$' ∉ v) (t0 : Str) (ws : List Str)
    (st st' : Str × List Change) (h : applyMatches k v n ws st = some st')
    (hst : replay t0 st.2 = st.1) : replay t0 st'.2 = st'.1 := by
  induction ws generalizing st with
  | nil =>
    simp only [applyMatches, Option.some.injEq] at h
    rw [← h]; exact hst
  | cons w ws ih =>
    obtain ⟨text, cs⟩ := st
    unfold applyMatches at h
    cases hr : replacementFor k v w with
    | none => simp [hr] at h
    | some r =>
      simp only [hr] at h
      split_ifs at h
      · apply ih _ h
        simp only [replay_append]
        simp only at hst
        rw [hst, replace_eq_replaceLiteral _ _ _ (dollar_not_mem_replacementFor k v w r hr hv)]
      · exact ih _ h hst

theorem convertKeys_replay (d : Dict) (n : Nat) (hd : ∀ kv ∈ d, '$' ∉ kv.2) (t0 : Str)
    (keys : List Str) (st st' : Str × List Change) (h : convertKeys d n keys st = some st')
    (hst : replay t0 st.2 = st.1) : replay t0 st'.2 = st'.1 := by
  induction keys generalizing st with
  | nil =>
    simp only [convertKeys, Option.some.injEq] at h
    rw [← h]; exact hst
  | cons k ks ih =>
    obtain ⟨text, cs⟩ := st
    unfold convertKeys at h
    cases hv : getProp d k with
    | none => simp [hv] at h
    | some v =>
      simp only [hv] at h
      cases ha : applyMatches k v n (matchAll k text) (text, cs) with
      | none => simp [ha] at h
      | some st1 =>
        simp only [ha] at h
        exact ih st1 h
          (applyMatches_replay k v n (hd _ (mem_of_getProp d k v hv)) t0 _ _ _ ha hst)

/-- When no value of the dictionary holds a `$`, the change records replay the conversion. -/
theorem replay_of_no_dollar (d : Dict) (text : Str) (n : Nat) (hd : ∀ kv ∈ d, '$' ∉ kv.2) :
    ∃ r, convertToBritish d text n = some r ∧ replay text r.2 = r.1 := by
  obtain ⟨r, hr⟩ := convertToBritish_isSome d text n
  exact ⟨r, hr, convertKeys_replay d n hd text _ _ _ hr rfl⟩

/-- C16: with the entry `color` to `col$&our` the line `my color` is converted to
`my colcolorour`, because `String.prototype.replace` expands `$&` to the matched word, while
the change record keeps `col$&our`; replaying the record on the line gives `my col$&our`,
which is not the converted text. -/
theorem replay_dollar_value :
    convertToBritish [("color".toList, "col$&our".toList)] "my color".toList 1 =
      some ("my colcolorour".toList, [⟨1, "color".toList, "col$&our".toList⟩]) ∧
    replay "my color".toList [⟨1, "color".toList, "col$&our".toList⟩] = "my col$&our".toList := by
  decide

/-! ## Places where a key stands -/

theorem exists_of_ciInfix (k T : Str) (h : CiInfix k T) : ∃ w, w <:+: T ∧ CiEq w k := by
  obtain ⟨L, R, hLR⟩ := h
  obtain ⟨l1, l2, hT, h1, _⟩ := List.map_eq_append_iff.1 hLR.symm
  obtain ⟨l3, w, hl1, _, hw⟩ := List.map_eq_append_iff.1 h1
  exact ⟨w, ⟨l3, l2, by rw [hT, hl1]⟩, hw⟩

theorem mem_matchAll_sublist (k text w : Str) (h : w ∈ matchAll k text) : w <:+: text := by
  obtain ⟨ps, _, _, hmap⟩ := matchAll_positions k text
  rw [hmap] at h
  obtain ⟨i, _, rfl⟩ := List.mem_map.1 h
  exact (List.take_prefix _ _).isInfix.trans (List.drop_suffix _ _).isInfix

theorem matchAll_eq_nil_of_not_ciInfix (k text : Str) (h : ¬ CiInfix k text) :
    matchAll k text = [] := by
  apply List.eq_nil_iff_forall_not_mem.2
  intro w hw
  exact h (ciInfix_of_exact (mem_matchAll_sublist k text w hw) (mem_matchAll k text w hw))

/-! ## A key across the end of a value -/

theorem isWordAt_map_canonicalize (o : Option Char) :
    isWordAt (o.map canonicalize) = isWordAt o := by
  cases o with
  | none => rfl
  | some c => exact isWordChar_canonicalize c

theorem isWordAt_head?_map (s : Str) :
    isWordAt (s.map canonicalize).head? = isWordAt s.head? := by
  rw [List.head?_map, isWordAt_map_canonicalize]

theorem isWordAt_getLast?_map (s : Str) :
    isWordAt (s.map canonicalize).getLast? = isWordAt s.getLast? := by
  rw [List.getLast?_map, isWordAt_map_canonicalize]

/-- A place where `K` begins in `V ++ Y`, after `A`: it lies in `Y`, or `K` touches `V`. -/
theorem overlap_raw_start (A V Y X K Y' a' : Str) (hX : X = A ++ a')
    (h2 : V ++ Y = a' ++ (K ++ Y')) (hY : isWordAt Y.head? = false) :
    A.length + V.length ≤ X.length ∨ TouchesRaw K V := by
  rcases List.append_eq_append_iff.1 h2 with ⟨z, hz, _⟩ | ⟨c', hc', h3⟩
  · left
    rw [hX, hz]
    simp
  · rcases List.append_eq_append_iff.1 h3 with ⟨y', hy', _⟩ | ⟨z', hz', hYz⟩
    · refine Or.inr (Or.inl ?_)
      rw [hc', hy']
      exact ⟨a', y', by simp⟩
    · -- K = c' ++ z', Y = z' ++ Y'
      by_cases hc0 : c' = []
      · left
        subst hc0
        rw [hX]
        simp only [List.append_nil] at hc'
        rw [hc']
        simp
      by_cases hz0 : z' = []
      · refine Or.inr (Or.inl ?_)
        subst hz0
        rw [hc', hz']
        simp only [List.append_nil]
        exact ⟨a', [], by simp⟩
      · refine Or.inr (Or.inr (Or.inl ⟨c'.length, ?_, List.length_pos.2 hc0, ?_, ?_⟩))
        · rw [hz', List.length_append]
          have := List.length_pos.2 hz0
          omega
        · rw [hz', List.drop_left]
          rw [hYz, List.head?_append_of_ne_nil _ hz0] at hY
          exact hY
        · rw [hz', List.take_left, hc']
          exact List.suffix_append _ _

/-- A place where `K` stands in `A ++ V ++ Y`, where `A` does not end and `Y` does not begin
with a word character: it lies in `A`, or in `Y`, or `K` touches `V`. -/
theorem overlap_raw (A V Y X K Y' : Str) (h : A ++ (V ++ Y) = X ++ (K ++ Y'))
    (hA : isWordAt A.getLast? = false) (hY : isWordAt Y.head? = false) :
    X.length + K.length ≤ A.length ∨ A.length + V.length ≤ X.length ∨ TouchesRaw K V := by
  rcases List.append_eq_append_iff.1 h with ⟨a', hX, h2⟩ | ⟨c', hc', h2⟩
  · right
    exact overlap_raw_start A V Y X K Y' a' hX h2 hY
  · by_cases hc0 : c' = []
    · right
      subst hc0
      simp only [List.append_nil, List.nil_append] at hc' h2
      exact overlap_raw_start A V Y X K Y' [] (by simp [hc']) (by simpa using h2.symm) hY
    have hclast : isWordAt c'.getLast? = false := by
      rw [hc', List.getLast?_append_of_ne_nil _ hc0] at hA
      exact hA
    rcases List.append_eq_append_iff.1 h2 with ⟨y', hy', _⟩ | ⟨z, hz, h3⟩
    · -- c' = K ++ y'
      left
      rw [hc', hy']
      simp only [List.length_append]
      omega
    · -- K = c' ++ z, V ++ Y = z ++ Y'
      by_cases hz0 : z = []
      · left
        subst hz0
        rw [hc', hz]
        simp
      right; right
      have hlt : c'.length < K.length := by
        rw [hz, List.length_append]
        have := List.length_pos.2 hz0
        omega
      have htake : isWordAt (K.take c'.length).getLast? = false := by
        rw [hz, List.take_left]
        exact hclast
      rcases List.append_eq_append_iff.1 h3 with ⟨y', hy', hYy⟩ | ⟨z', hz', _⟩
      · -- z = V ++ y', Y = y' ++ Y'
        by_cases hy0 : y' = []
        · -- K = c' ++ V
          subst hy0
          simp only [List.append_nil] at hy'
          refine Or.inr (Or.inr (Or.inl ⟨c'.length, hlt, List.length_pos.2 hc0, htake, ?_⟩))
          rw [hz, List.drop_left, hy']
        · -- K = c' ++ V ++ y'
          have hK : K = (c' ++ V) ++ y' := by rw [hz, hy', List.append_assoc]
          refine Or.inr (Or.inr (Or.inr ⟨c'.length, hlt, (c' ++ V).length, ?_,
            List.length_pos.2 hc0, ?_, htake, ?_, ?_⟩))
          · have h1 := congrArg List.length hK
            simp only [List.length_append] at h1 ⊢
            have := List.length_pos.2 hy0
            omega
          · simp
          · rw [hK, List.drop_left]
            rw [hYy, List.head?_append_of_ne_nil _ hy0] at hY
            exact hY
          · rw [hK, List.take_left, List.drop_left]
      · -- V = z ++ z'
        refine Or.inr (Or.inr (Or.inl ⟨c'.length, hlt, List.length_pos.2 hc0, htake, ?_⟩))
        rw [hz, List.drop_left, hz']
        exact List.prefix_append _ _

theorem isPhrase_ne_nil {k : Str} (hk : IsPhrase k) : k ≠ [] := by
  intro e
  have := hk.1
  rw [e] at this
  simp [isWordAt] at this

theorem ne_nil_of_ciEq {w k : Str} (h : CiEq w k) (hk : k ≠ []) : w ≠ [] := by
  intro e
  have := length_eq_of_ciEq w k h
  rw [e] at this
  exact hk (List.length_eq_zero.1 this.symm)

theorem isWordAt_head?_of_ciEq {a b : Str} (h : CiEq a b) :
    isWordAt a.head? = isWordAt b.head? := by
  rw [← isWordAt_head?_map a, ← isWordAt_head?_map b, h]

theorem isWordAt_getLast?_of_ciEq {a b : Str} (h : CiEq a b) :
    isWordAt a.getLast? = isWordAt b.getLast? := by
  rw [← isWordAt_getLast?_map a, ← isWordAt_getLast?_map b, h]

/-- A place where a key stands in `A ++ r ++ Y`, where `r` is a value up to letter case, `A`
does not end and `Y` does not begin with a word character, and the key does not touch the
value: it lies in `A` or in `Y`. -/
theorem overlap_ci (k v A r Y X w Y' : Str) (h : A ++ (r ++ Y) = X ++ (w ++ Y'))
    (hw : CiEq w k) (hr : CiEq r v) (hA : isWordAt A.getLast? = false)
    (hY : isWordAt Y.head? = false) (hT : ¬ Touches k v) :
    X.length + w.length ≤ A.length ∨ A.length + r.length ≤ X.length := by
  have h' := congrArg (List.map canonicalize) h
  simp only [List.map_append] at h'
  have hw' : w.map canonicalize = k.map canonicalize := hw
  have hr' : r.map canonicalize = v.map canonicalize := hr
  rw [hw', hr'] at h'
  rcases overlap_raw _ _ _ _ _ _ h' (by rw [isWordAt_getLast?_map]; exact hA)
    (by rw [isWordAt_head?_map]; exact hY) with h1 | h1 | h1
  · left
    have := length_eq_of_ciEq w k hw
    simp only [List.length_map] at h1
    omega
  · right
    have := length_eq_of_ciEq r v hr
    simp only [List.length_map] at h1
    omega
  · exact absurd h1 hT

theorem split_of_length_le (A S X T : Str) (h : A ++ S = X ++ T) (hl : X.length ≤ A.length) :
    ∃ Z, A = X ++ Z ∧ T = Z ++ S := by
  rcases List.append_eq_append_iff.1 h with ⟨a', hX, hS⟩ | ⟨c', hc', hT⟩
  · have : a' = [] := by
      have := congrArg List.length hX
      simp only [List.length_append] at this
      exact List.length_eq_zero.1 (by omega)
    subst this
    simp only [List.append_nil, List.nil_append] at hX hS
    exact ⟨[], by simp [hX], by simp [hS]⟩
  · exact ⟨c', hc', hT⟩

/-! ## The scan of a key that is a phrase -/

theorem exists_leftmost (k R : Str) (hk : k ≠ []) (h : CiInfix k R) :
    ∃ X w Y, R = X ++ (w ++ Y) ∧ CiEq w k ∧
      ∀ X2 w2 Y2, R = X2 ++ (w2 ++ Y2) → CiEq w2 k → X.length ≤ X2.length := by
  induction R with
  | nil =>
    exfalso
    unfold CiInfix at h
    simp only [List.map_nil, List.infix_nil, List.map_eq_nil_iff] at h
    exact hk h
  | cons c cs ih =>
    by_cases hp : ∃ w Y, c :: cs = w ++ Y ∧ CiEq w k
    · obtain ⟨w, Y, e, hw⟩ := hp
      exact ⟨[], w, Y, by simpa using e, hw, fun _ _ _ _ _ => Nat.zero_le _⟩
    · obtain ⟨w0, ⟨X0, Y0, e0⟩, hw0⟩ := exists_of_ciInfix k _ h
      have e0' : c :: cs = X0 ++ (w0 ++ Y0) := by rw [← e0]; simp
      cases X0 with
      | nil => exact absurd ⟨w0, Y0, by simpa using e0', hw0⟩ hp
      | cons x X1 =>
        simp only [List.cons_append, List.cons.injEq] at e0'
        have hin : CiInfix k cs := by
          apply ciInfix_of_exact _ hw0
          rw [e0'.2]
          exact ⟨X1, Y0, by simp⟩
        obtain ⟨X, w, Y, e, hw, hmin⟩ := ih hin
        refine ⟨c :: X, w, Y, by rw [e]; simp, hw, ?_⟩
        intro X2 w2 Y2 e2 hw2
        cases X2 with
        | nil => exact absurd ⟨w2, Y2, by simpa using e2, hw2⟩ hp
        | cons x2 X2' =>
          simp only [List.cons_append, List.cons.injEq] at e2
          have := hmin X2' w2 Y2 e2.2 hw2
          simp only [List.length_cons]
          omega

theorem toList_append_getLast? (prev : Option Char) (c : Char) (cs : Str) :
    (prev.toList ++ c :: cs).getLast? = ((some c).toList ++ cs).getLast? := by
  have : (some c).toList ++ cs = c :: cs := rfl
  rw [this, List.getLast?_append_of_ne_nil _ (List.cons_ne_nil c cs)]

/-- The scan passes over a stretch of the text where the key does not begin. -/
theorem matchAllFrom_no_occurrence (k X R : Str) (prev : Option Char)
    (h : ∀ X1 X2, X = X1 ++ X2 → X2 ≠ [] → ¬ CiEq ((X2 ++ R).take k.length) k) :
    matchAllFrom k prev (X ++ R) 0 = matchAllFrom k (prev.toList ++ X).getLast? R 0 := by
  induction X generalizing prev with
  | nil => cases prev <;> simp
  | cons c cs ih =>
    have hm : matchHere k prev (c :: (cs ++ R)) = none :=
      matchHere_eq_none_of_not_ci k prev _ (h [] (c :: cs) rfl (List.cons_ne_nil _ _))
    show matchAllFrom k prev (c :: (cs ++ R)) 0 = _
    rw [matchAllFrom, if_pos rfl, hm]
    simp only
    rw [ih (some c) (fun X1 X2 e hne => h (c :: X1) X2 (by rw [e]; rfl) hne),
      toList_append_getLast?]

/-- Where the text does not begin with a word character, the scan of a key that begins with
one does not depend on the character before. -/
theorem matchAllFrom_prev (k Y : Str) (hk : isWordAt k.head? = true)
    (hY : isWordAt Y.head? = false) (p q : Option Char) :
    matchAllFrom k p Y 0 = matchAllFrom k q Y 0 := by
  have hne : ∀ prev, matchHere k prev Y = none := by
    intro prev
    apply matchHere_eq_none_of_not_ci
    intro hci
    have h1 := isWordAt_head?_of_ciEq hci
    rw [hk] at h1
    cases hkk : k with
    | nil => rw [hkk] at hk; simp [isWordAt] at hk
    | cons k0 ks =>
      rw [hkk] at h1
      cases Y with
      | nil => simp [isWordAt] at h1
      | cons y ys =>
        simp only [List.length_cons, List.take_succ_cons, List.head?_cons] at h1
        simp only [List.head?_cons] at hY
        rw [hY] at h1
        exact absurd h1 (by simp)
  cases Y with
  | nil =>
    simp only [matchAllFrom, if_pos rfl, hne]
  | cons y ys =>
    rw [matchAllFrom, if_pos rfl, hne, matchAllFrom, if_pos rfl, hne]

/-- The matches of a key that is a phrase: the first place where the key stands, when it lies
between characters that are not word characters, is the first match, and the scan goes on
after it. -/
theorem matchAll_leftmost (k X w Y : Str) (hk : IsPhrase k) (hw : CiEq w k)
    (hX : isWordAt X.getLast? = false) (hY : isWordAt Y.head? = false)
    (hleft : ∀ X2 w2 Y2, X ++ (w ++ Y) = X2 ++ (w2 ++ Y2) → CiEq w2 k → X.length ≤ X2.length) :
    matchAll k (X ++ (w ++ Y)) = w :: matchAll k Y := by
  have hlen := length_eq_of_ciEq w k hw
  have hwne : w ≠ [] := ne_nil_of_ciEq hw (isPhrase_ne_nil hk)
  unfold matchAll
  rw [matchAllFrom_no_occurrence]
  · have hprev : (Option.toList (none : Option Char) ++ X).getLast? = X.getLast? := rfl
    rw [hprev]
    have htake : (w ++ Y).take k.length = w := by rw [← hlen]; exact List.take_left _ _
    have hdrop : (w ++ Y).drop k.length = Y := by rw [← hlen]; exact List.drop_left _ _
    have hhead : isWordAt (w ++ Y).head? = true := by
      rw [List.head?_append_of_ne_nil _ hwne, isWordAt_head?_of_ciEq hw]
      exact hk.1
    have hlast : isWordAt (X.getLast?.toList ++ w).getLast? = true := by
      rw [List.getLast?_append_of_ne_nil _ hwne, isWordAt_getLast?_of_ciEq hw]
      exact hk.2
    have hm : matchHere k X.getLast? (w ++ Y) = some w := by
      unfold matchHere isWordBoundary
      simp only [htake, hdrop, hX, hhead, hlast, hY]
      have : List.map canonicalize w = List.map canonicalize k := hw
      simp [this]
    cases hwc : w with
    | nil => exact absurd hwc hwne
    | cons c cs =>
      rw [hwc] at hm
      show matchAllFrom k X.getLast? (c :: (cs ++ Y)) 0 = _
      rw [matchAllFrom, if_pos rfl]
      have hm' : matchHere k X.getLast? (c :: (cs ++ Y)) = some (c :: cs) := hm
      rw [hm']
      simp only [List.length_cons, Nat.add_sub_cancel]
      rw [matchAllFrom_skip_through k cs Y (some c) cs.length (Nat.le_refl _), Nat.sub_self]
      rw [matchAllFrom_prev k Y hk.1 hY _ none]
  · intro X1 X2 e hne hci
    have hsplit : X2 ++ (w ++ Y) =
        (X2 ++ (w ++ Y)).take k.length ++ (X2 ++ (w ++ Y)).drop k.length :=
      (List.take_append_drop _ _).symm
    have := hleft X1 _ ((X2 ++ (w ++ Y)).drop k.length)
      (by rw [e, List.append_assoc]; exact congrArg (X1 ++ ·) hsplit) hci
    rw [e, List.length_append] at this
    have := List.length_pos.2 hne
    omega

/-! ## The loop over the matches, place by place -/

/-- `String.prototype.replace` rewrites the place where `w` stands first. -/
theorem replace_leftmost (w r A Y : Str) (hw : w ≠ []) (hr : '$' ∉ r)
    (hleft : ∀ X2 Y2, A ++ (w ++ Y) = X2 ++ (w ++ Y2) → A.length ≤ X2.length) :
    replace (A ++ (w ++ Y)) w r = A ++ (r ++ Y) := by
  have hsplit : splitAtFirst w (A ++ (w ++ Y)) = some (A, Y) := by
    rw [splitAtFirst_through]
    · have : splitAtFirst w (w ++ Y) = some ([], Y) := by
        cases hs : w with
        | nil => exact absurd hs hw
        | cons c cs =>
          have hp : (c :: cs).isPrefixOf (c :: (cs ++ Y)) = true :=
            List.isPrefixOf_iff_prefix.2 ⟨Y, rfl⟩
          show splitAtFirst (c :: cs) (c :: (cs ++ Y)) = _
          rw [splitAtFirst, if_pos hp]
          simp
      rw [this]
      simp
    · intro X1 X2 e hne hpre
      obtain ⟨t, ht⟩ := hpre
      have := hleft X1 t (by rw [e, List.append_assoc, ← ht])
      rw [e, List.length_append] at this
      have := List.length_pos.2 hne
      omega
  unfold replace
  rw [hsplit]
  simp [getSubstitution_of_no_dollar _ _ _ r hr]

/-- One replacement, of a key standing between characters that are not word characters, by a
value that no key touches: every place where a key stands afterwards lies before or after the
value written, and was a place where it stood. -/
theorem occurrence_after_replace (d : Dict) (k v w r A Y : Str)
    (hkd : ∃ kv ∈ d, kv.1 = k) (hw : CiEq w k) (hr : CiEq r v)
    (hT : ∀ kv ∈ d, ¬ Touches kv.1 v) (hiso : Isolated d (A ++ (w ++ Y))) :
    ∀ kv ∈ d, ∀ X' w' Y', A ++ (r ++ Y) = X' ++ (w' ++ Y') → CiEq w' kv.1 →
      (∃ Z, A = X' ++ (w' ++ Z) ∧ Y' = Z ++ (r ++ Y)) ∨
      (∃ Z, X' = A ++ (r ++ Z) ∧ Y = Z ++ (w' ++ Y')) := by
  obtain ⟨kv0, hkv0, rfl⟩ := hkd
  obtain ⟨hA, hY⟩ := hiso kv0 hkv0 A w Y rfl hw
  intro kv hkv X' w' Y' e hw'
  rcases overlap_ci kv.1 v A r Y X' w' Y' e hw' hr hA hY (hT kv hkv) with h1 | h1
  · left
    have e' : A ++ (r ++ Y) = (X' ++ w') ++ Y' := by rw [e, List.append_assoc]
    obtain ⟨Z, hZ, hY'⟩ := split_of_length_le A (r ++ Y) (X' ++ w') Y' e'
      (by rw [List.length_append]; exact h1)
    exact ⟨Z, by rw [hZ, List.append_assoc], hY'⟩
  · right
    have e' : X' ++ (w' ++ Y') = (A ++ r) ++ Y := by rw [← e, List.append_assoc]
    obtain ⟨Z, hZ, hY'⟩ := split_of_length_le X' (w' ++ Y') (A ++ r) Y e'
      (by rw [List.length_append]; exact h1)
    exact ⟨Z, by rw [hZ, List.append_assoc], hY'⟩

theorem isolated_after_replace (d : Dict) (k v w r A Y : Str)
    (hkeys : ∀ kv ∈ d, IsPhrase kv.1)
    (hkd : ∃ kv ∈ d, kv.1 = k) (hw : CiEq w k) (hr : CiEq r v)
    (hT : ∀ kv ∈ d, ¬ Touches kv.1 v) (hiso : Isolated d (A ++ (w ++ Y))) :
    Isolated d (A ++ (r ++ Y)) := by
  have hk : IsPhrase k := by
    obtain ⟨kv0, hkv0, rfl⟩ := hkd
    exact hkeys kv0 hkv0
  have hwne : w ≠ [] := ne_nil_of_ciEq hw (isPhrase_ne_nil hk)
  intro kv hkv X' w' Y' e hw'
  rcases occurrence_after_replace d k v w r A Y hkd hw hr hT hiso kv hkv X' w' Y' e hw' with
    ⟨Z, hZ, hY'⟩ | ⟨Z, hZ, hY'⟩
  · have := hiso kv hkv X' w' (Z ++ (w ++ Y)) (by rw [hZ]; simp) hw'
    refine ⟨this.1, ?_⟩
    rw [hY']
    cases Z with
    | nil =>
      exfalso
      have h2 := this.2
      rw [List.nil_append, List.head?_append_of_ne_nil _ hwne, isWordAt_head?_of_ciEq hw,
        hk.1] at h2
      exact absurd h2 (by simp)
    | cons z zs =>
      have h2 := this.2
      simpa using h2
  · have := hiso kv hkv (A ++ (w ++ Z)) w' Y' (by rw [hY']; simp) hw'
    refine ⟨?_, this.2⟩
    rw [hZ]
    by_cases hz : Z = []
    · exfalso
      subst hz
      have h1 := this.1
      rw [List.append_nil, List.getLast?_append_of_ne_nil _ hwne,
        isWordAt_getLast?_of_ciEq hw, hk.2] at h1
      exact absurd h1 (by simp)
    · have h1 := this.1
      rw [← List.append_assoc, List.getLast?_append_of_ne_nil _ hz] at h1
      rw [← List.append_assoc, List.getLast?_append_of_ne_nil _ hz]
      exact h1

theorem not_ciInfix_of_not_touches {k v : Str} (h : ¬ Touches k v) : ¬ CiInfix k v :=
  fun hc => h (Or.inl hc)

theorem ciInfix_of_occurrence {k w T X Y : Str} (e : T = X ++ (w ++ Y)) (hw : CiEq w k) :
    CiInfix k T :=
  ciInfix_of_exact ⟨X, Y, by rw [e]; simp⟩ hw

/-- The loop over the matches of one key that is a phrase, on a text where every key stands
between characters that are not word characters: afterwards the key stands nowhere, the other
keys stand where they stood, and only there. -/
theorem applyMatches_leftmost (d : Dict) (k v : Str) (n : Nat)
    (hkeys : ∀ kv ∈ d, IsPhrase kv.1) (hkd : ∃ kv ∈ d, kv.1 = k) (hv : '$' ∉ v)
    (hT : ∀ kv ∈ d, ¬ Touches kv.1 v) :
    ∀ (len : Nat) (R P : Str) (cs : List Change), R.length ≤ len → Isolated d (P ++ R) →
      (∀ X w Y, P ++ R = X ++ (w ++ Y) → CiEq w k → P.length ≤ X.length) →
      ∃ T' cs', applyMatches k v n (matchAll k R) (P ++ R, cs) = some (T', cs') ∧
        Isolated d T' ∧ ¬ CiInfix k T' ∧
        ∀ kv ∈ d, ¬ CiInfix kv.1 (P ++ R) → ¬ CiInfix kv.1 T' := by
  have hk : IsPhrase k := by
    obtain ⟨kv0, hkv0, rfl⟩ := hkd
    exact hkeys kv0 hkv0
  have hkne := isPhrase_ne_nil hk
  have hkv : ¬ CiInfix k v := by
    obtain ⟨kv0, hkv0, rfl⟩ := hkd
    exact not_ciInfix_of_not_touches (hT kv0 hkv0)
  intro len
  induction len with
  | zero =>
    intro R P cs hlen hiso hstart
    have hR : R = [] := List.length_eq_zero.1 (Nat.le_zero.1 hlen)
    subst hR
    refine ⟨P ++ [], cs, ?_, hiso, ?_, fun _ _ h => h⟩
    · have : matchAll k [] = [] := matchAll_eq_nil_of_not_ciInfix k [] (by
        unfold CiInfix
        simp only [List.map_nil, List.infix_nil, List.map_eq_nil_iff]
        exact hkne)
      rw [this]
      rfl
    · intro hc
      obtain ⟨w, ⟨X, Y, e⟩, hw⟩ := exists_of_ciInfix k _ hc
      have := hstart X w Y (by rw [← e]; simp) hw
      have e' := congrArg List.length e
      simp only [List.length_append, List.append_nil] at e' this
      have := List.length_pos.2 (ne_nil_of_ciEq hw hkne)
      omega
  | succ len ih =>
    intro R P cs hlen hiso hstart
    by_cases hin : CiInfix k R
    · obtain ⟨X, w, Y, e, hw, hmin⟩ := exists_leftmost k R hkne hin
      have hwne : w ≠ [] := ne_nil_of_ciEq hw hkne
      have eC : P ++ R = (P ++ X) ++ (w ++ Y) := by rw [e, List.append_assoc]
      obtain ⟨kv0, hkv0, hkv0k⟩ := hkd
      have hAY := hiso kv0 hkv0 (P ++ X) w Y eC (hkv0k ▸ hw)
      have hX : isWordAt X.getLast? = false := by
        by_cases hx : X = []
        · rw [hx]; rfl
        · have := hAY.1
          rwa [List.getLast?_append_of_ne_nil _ hx] at this
      have hm : matchAll k R = w :: matchAll k Y := by
        rw [e]
        exact matchAll_leftmost k X w Y hk hw hX hAY.2 (fun X2 w2 Y2 e2 h2 =>
          hmin X2 w2 Y2 (by rw [e, e2]) h2)
      obtain ⟨r, hr⟩ := replacementFor_isSome k v w hw
      have hrv : CiEq r v := replacementFor_ciEq k v w r hr
      have hne : w ≠ r := by
        intro ewr
        apply hkv
        have : CiEq k v := ciEq_trans (ciEq_symm hw) (ewr ▸ hrv)
        exact ciInfix_of_ciEq this
      have hleftC : ∀ X2 w2 Y2, (P ++ X) ++ (w ++ Y) = X2 ++ (w2 ++ Y2) → CiEq w2 k →
          (P ++ X).length ≤ X2.length := by
        intro X2 w2 Y2 e2 h2
        have h1 := hstart X2 w2 Y2 (by rw [eC, e2]) h2
        obtain ⟨Z, hZ, hR⟩ := split_of_length_le X2 (w2 ++ Y2) P R (by rw [← e2, ← eC]) h1
        have := hmin Z w2 Y2 hR h2
        rw [hZ, List.length_append, List.length_append]
        omega
      have hrep : replace (P ++ R) w r = (P ++ X) ++ (r ++ Y) := by
        rw [eC]
        exact replace_leftmost w r (P ++ X) Y hwne (dollar_not_mem_replacementFor k v w r hr hv)
          (fun X2 Y2 e2 => hleftC X2 w Y2 e2 hw)
      have hiso' : Isolated d ((P ++ X) ++ (r ++ Y)) :=
        isolated_after_replace d k v w r (P ++ X) Y hkeys ⟨kv0, hkv0, hkv0k⟩ hw hrv hT
          (eC ▸ hiso)
      have hocc := occurrence_after_replace d k v w r (P ++ X) Y ⟨kv0, hkv0, hkv0k⟩ hw hrv hT
        (eC ▸ hiso)
      have eC' : (P ++ X) ++ (r ++ Y) = ((P ++ X) ++ r) ++ Y := by simp
      have hYlen : Y.length ≤ len := by
        have := congrArg List.length e
        simp only [List.length_append] at this
        have := List.length_pos.2 hwne
        omega
      have hstart' : ∀ X' w' Y', ((P ++ X) ++ r) ++ Y = X' ++ (w' ++ Y') → CiEq w' k →
          ((P ++ X) ++ r).length ≤ X'.length := by
        intro X' w' Y' e' hw'
        rcases hocc kv0 hkv0 X' w' Y' (by rw [eC', e']) (hkv0k ▸ hw') with
          ⟨Z, hZ, _⟩ | ⟨Z, hZ, _⟩
        · exfalso
          have := hleftC X' w' (Z ++ (w ++ Y)) (by rw [hZ]; simp) hw'
          have h2 := congrArg List.length hZ
          simp only [List.length_append] at h2 this
          have := List.length_pos.2 (ne_nil_of_ciEq hw' hkne)
          omega
        · rw [hZ]
          simp only [List.length_append]
          omega
      obtain ⟨T', cs', hT', hisoT, hnot, hmono⟩ :=
        ih Y ((P ++ X) ++ r) (cs ++ [⟨n, w, r⟩]) hYlen (eC' ▸ hiso') hstart'
      refine ⟨T', cs', ?_, hisoT, hnot, ?_⟩
      · rw [hm]
        unfold applyMatches
        rw [hr]
        simp only
        rw [if_pos hne, hrep, eC']
        exact hT'
      · intro kv hkv hno
        apply hmono kv hkv
        intro hc
        apply hno
        obtain ⟨w', ⟨X', Y', e'⟩, hw'⟩ := exists_of_ciInfix kv.1 _ hc
        rcases hocc kv hkv X' w' Y' (by rw [eC', ← e']; simp) hw' with
          ⟨Z, hZ, _⟩ | ⟨Z, _, hZ⟩
        · rw [eC, hZ]
          exact ciInfix_of_occurrence (X := X') (Y := Z ++ (w ++ Y)) (by simp) hw'
        · rw [eC, hZ]
          exact ciInfix_of_occurrence (X := (P ++ X) ++ (w ++ Z)) (Y := Y') (by simp) hw'
    · refine ⟨P ++ R, cs, ?_, hiso, ?_, fun _ _ h => h⟩
      · rw [matchAll_eq_nil_of_not_ciInfix k R hin]
        rfl
      · intro hc
        obtain ⟨w, ⟨X, Y, e⟩, hw⟩ := exists_of_ciInfix k _ hc
        have h1 := hstart X w Y (by rw [← e]; simp) hw
        obtain ⟨Z, hZ, hR⟩ := split_of_length_le X (w ++ Y) P R (by rw [← e]; simp) h1
        exact hin (ciInfix_of_occurrence hR hw)

/-- The loop over the keys, on a text where every key stands between characters that are not
word characters: afterwards none of the keys processed stands in the text. -/
theorem convertKeys_isolated (d : Dict) (n : Nat) (hkeys : ∀ kv ∈ d, IsPhrase kv.1)
    (hvals : ∀ kv ∈ d, '$' ∉ kv.2) (hin : ∀ kv ∈ d, ∀ kv' ∈ d, ¬ Touches kv.1 kv'.2)
    (keys : List Str) :
    ∀ (T : Str) (cs : List Change), (∀ k ∈ keys, k ∈ d.map Prod.fst) → Isolated d T →
      ∃ T' cs', convertKeys d n keys (T, cs) = some (T', cs') ∧ Isolated d T' ∧
        (∀ k ∈ keys, ¬ CiInfix k T') ∧
        (∀ kv ∈ d, ¬ CiInfix kv.1 T → ¬ CiInfix kv.1 T') := by
  induction keys with
  | nil =>
    intro T cs _ hiso
    exact ⟨T, cs, rfl, hiso, by simp, fun _ _ h => h⟩
  | cons k ks ih =>
    intro T cs hmem hiso
    have hk := hmem k (List.mem_cons_self _ _)
    obtain ⟨v, hv⟩ := getProp_isSome_of_mem d k hk
    have hkv := mem_of_getProp d k v hv
    obtain ⟨T1, cs1, h1, hiso1, hnot1, hmono1⟩ :=
      applyMatches_leftmost d k v n hkeys ⟨(k, v), hkv, rfl⟩ (hvals (k, v) hkv)
        (fun kv hkv' => hin kv hkv' (k, v) hkv) T.length T [] cs (Nat.le_refl _)
        (by simpa using hiso) (fun _ _ _ _ _ => Nat.zero_le _)
    obtain ⟨T', cs', h2, hiso2, hnot2, hmono2⟩ :=
      ih T1 cs1 (fun x hx => hmem x (List.mem_cons_of_mem _ hx)) hiso1
    refine ⟨T', cs', ?_, hiso2, ?_, ?_⟩
    · unfold convertKeys
      rw [hv]
      simp only
      have h1' : applyMatches k v n (matchAll k T) (T, cs) = some (T1, cs1) := by
        simpa using h1
      rw [h1']
      exact h2
    · intro x hx
      rcases List.mem_cons.1 hx with rfl | hx
      · exact hmono2 (x, v) hkv hnot1
      · exact hnot2 x hx
    · intro kv hkv' hno
      exact hmono2 kv hkv' (hmono1 kv hkv' (by simpa using hno))

theorem isolated_of_whole_word (d : Dict) (t : Str) (hkeys : ∀ kv ∈ d, IsPhrase kv.1)
    (hline : ∀ kv ∈ d, ∀ i, i < t.length + 1 →
      CiEq ((t.drop i).take kv.1.length) kv.1 → WholeWordAt kv.1 t i) :
    Isolated d t := by
  intro kv hkv X w Y e hw
  have hk := hkeys kv hkv
  have hwne : w ≠ [] := ne_nil_of_ciEq hw (isPhrase_ne_nil hk)
  have hlen := length_eq_of_ciEq w kv.1 hw
  have hdrop : t.drop X.length = w ++ Y := by rw [e, List.drop_left]
  have htake : (t.drop X.length).take kv.1.length = w := by
    rw [hdrop, ← hlen, List.take_left]
  have hi : X.length < t.length + 1 := by
    rw [e]
    simp only [List.length_append]
    omega
  obtain ⟨_, h1, h2⟩ := hline kv hkv X.length hi (by rw [htake]; exact hw)
  constructor
  · have e1 : t.take X.length = X := by rw [e, List.take_left]
    rw [e1, hdrop, List.head?_append_of_ne_nil _ hwne, isWordAt_head?_of_ciEq hw, hk.1] at h1
    simpa using h1
  · have e' : t = (X ++ w) ++ Y := by rw [e, List.append_assoc]
    have hl : X.length + kv.1.length = (X ++ w).length := by
      rw [List.length_append, hlen]
    have e2 : t.take (X.length + kv.1.length) = X ++ w := by
      rw [hl, e', List.take_left]
    have e3 : t.drop (X.length + kv.1.length) = Y := by
      rw [hl, e', List.drop_left]
    rw [e2, e3, List.getLast?_append_of_ne_nil _ hwne, isWordAt_getLast?_of_ciEq hw, hk.2] at h2
    simpa using h2

/-! ## Idempotence -/

/-- C4 (counterexample): in the dictionary `apartment` to `flat`, `condo` to `apartment block`
no value is a key, yet converting `condo` gives `apartment block`, and converting that again
gives `flat block` with one change record: the longer key `apartment` is processed before
`condo`, so the word `apartment` written for `condo` is only met by the second conversion.
The same happens when no value holds a key at all.  A key that is a phrase can come to stand
across an end of the value written: with `q c` to `y`, `a b` to `x q` the line `a b c` becomes
`x q c` and then `x y`; with `c q` to `y`, `a b` to `q x` the line `c a b` becomes `c q x` and
then `y x`; with `x y z` to `w`, `k` to `y` the line `x k z` becomes `x y z` and then `w`.  A
key that does not begin with a word character is matched after a word character, which the
value then joins: with `ac` to `z`, `-b` to `c` the line `a-b` becomes `ac` and then `z`. -/
theorem idempotence_counterexample :
    (∀ kv ∈ [("apartment".toList, "flat".toList), ("condo".toList, "apartment block".toList)],
      kv.2 ∉ ["apartment".toList, "condo".toList]) ∧
    convertToBritish
        [("apartment".toList, "flat".toList), ("condo".toList, "apartment block".toList)]
        "condo".toList 1 =
      some ("apartment block".toList, [⟨1, "condo".toList, "apartment block".toList⟩]) ∧
    convertToBritish
        [("apartment".toList, "flat".toList), ("condo".toList, "apartment block".toList)]
        "apartment block".toList 1 =
      some ("flat block".toList, [⟨1, "apartment".toList, "flat".toList⟩]) ∧
    (∀ kv ∈ [("q c".toList, "y".toList), ("a b".toList, "x q".toList)],
      ∀ kv' ∈ [("q c".toList, "y".toList), ("a b".toList, "x q".toList)],
        ¬ CiInfix kv.1 kv'.2) ∧
    convertToBritish [("q c".toList, "y".toList), ("a b".toList, "x q".toList)]
        "a b c".toList 1 =
      some ("x q c".toList, [⟨1, "a b".toList, "x q".toList⟩]) ∧
    convertToBritish [("q c".toList, "y".toList), ("a b".toList, "x q".toList)]
        "x q c".toList 1 =
      some ("x y".toList, [⟨1, "q c".toList, "y".toList⟩]) ∧
    convertToBritish [("c q".toList, "y".toList), ("a b".toList, "q x".toList)]
        "c a b".toList 1 =
      some ("c q x".toList, [⟨1, "a b".toList, "q x".toList⟩]) ∧
    convertToBritish [("c q".toList, "y".toList), ("a b".toList, "q x".toList)]
        "c q x".toList 1 =
      some ("y x".toList, [⟨1, "c q".toList, "y".toList⟩]) ∧
    convertToBritish [("x y z".toList, "w".toList), ("k".toList, "y".toList)]
        "x k z".toList 1 =
      some ("x y z".toList, [⟨1, "k".toList, "y".toList⟩]) ∧
    convertToBritish [("x y z".toList, "w".toList), ("k".toList, "y".toList)]
        "x y z".toList 1 =
      some ("w".toList, [⟨1, "x y z".toList, "w".toList⟩]) ∧
    convertToBritish [("ac".toList, "z".toList), ("-b".toList, "c".toList)]
        "a-b".toList 1 =
      some ("ac".toList, [⟨1, "-b".toList, "c".toList⟩]) ∧
    convertToBritish [("ac".toList, "z".toList), ("-b".toList, "c".toList)]
        "ac".toList 1 =
      some ("z".toList, [⟨1, "ac".toList, "z".toList⟩]) :=
  ⟨by decide, by decide, by decide, by decide, by decide, by decide, by decide, by decide,
    by decide, by decide, by decide, by decide⟩

/-- C4 (amended): for an ASCII dictionary in which every key is a word or a phrase (it begins
and ends with a word character), no value holds a `$` and no key touches a value, and for a
line in which every place where a key stands, letter case ignored, is a whole-word match:
converting the converted line again returns it unchanged, with an empty list of changes. -/
theorem convertToBritish_idempotent_of_isolated (d : Dict) (t : Str) (n m : Nat)
    (_hascii : AsciiDict d)
    (hkeys : ∀ kv ∈ d, IsPhrase kv.1)
    (hvals : ∀ kv ∈ d, '$' ∉ kv.2)
    (hin : ∀ kv ∈ d, ∀ kv' ∈ d, ¬ Touches kv.1 kv'.2)
    (hline : ∀ kv ∈ d, ∀ i, i < t.length + 1 →
      CiEq ((t.drop i).take kv.1.length) kv.1 → WholeWordAt kv.1 t i) :
    ∃ t', (convertToBritish d t n).map Prod.fst = some t' ∧
      convertToBritish d t' m = some (t', []) := by
  obtain ⟨t', cs', h, _, hdone, _⟩ := convertKeys_isolated d n hkeys hvals hin (sortedKeys d) t []
    (fun k hk => (mem_sortedKeys d k).1 hk) (isolated_of_whole_word d t hkeys hline)
  refine ⟨t', ?_, ?_⟩
  · unfold convertToBritish
    rw [h]
    rfl
  · unfold convertToBritish
    apply convertKeys_no_match d m _ _ _ (fun k hk => (mem_sortedKeys d k).1 hk)
    intro k hk
    exact matchAll_eq_nil_of_not_ciInfix k t' (hdone k hk)

theorem convertToBritish_idempotent_of_isolated_witness :
    AsciiDict [("color".toList, "colour".toList),
        ("gas station".toList, "filling station".toList),
        ("condo".toList, "flat block".toList)] ∧
    (∀ kv ∈ [("color".toList, "colour".toList),
        ("gas station".toList, "filling station".toList),
        ("condo".toList, "flat block".toList)], IsPhrase kv.1) ∧
    (∀ kv ∈ [("color".toList, "colour".toList),
        ("gas station".toList, "filling station".toList),
        ("condo".toList, "flat block".toList)], '$' ∉ kv.2) ∧
    (∀ kv ∈ [("color".toList, "colour".toList),
        ("gas station".toList, "filling station".toList),
        ("condo".toList, "flat block".toList)],
      ∀ kv' ∈ [("color".toList, "colour".toList),
        ("gas station".toList, "filling station".toList),
        ("condo".toList, "flat block".toList)], ¬ Touches kv.1 kv'.2) ∧
    (∀ kv ∈ [("color".toList, "colour".toList),
        ("gas station".toList, "filling station".toList),
        ("condo".toList, "flat block".toList)],
      ∀ i, i < "The Color of a Gas Station, a CONDO!".toList.length + 1 →
        CiEq (("The Color of a Gas Station, a CONDO!".toList.drop i).take kv.1.length) kv.1 →
        WholeWordAt kv.1 "The Color of a Gas Station, a CONDO!".toList i) ∧
    ∃ t', (convertToBritish [("color".toList, "colour".toList),
        ("gas station".toList, "filling station".toList),
        ("condo".toList, "flat block".toList)]
        "The Color of a Gas Station, a CONDO!".toList 1).map Prod.fst = some t' ∧
      convertToBritish [("color".toList, "colour".toList),
        ("gas station".toList, "filling station".toList),
        ("condo".toList, "flat block".toList)] t' 1 = some (t', []) :=
  ⟨by decide, by decide, by decide, by decide, by decide,
    convertToBritish_idempotent_of_isolated _ _ 1 1 (by decide) (by decide) (by decide)
      (by decide) (by decide)⟩

/-! ## Longest key first -/

theorem isWordAt_getLast?_take (L : Str) (n : Nat) (hL : ∀ c ∈ L, isWordChar c = true)
    (h0 : 0 < n) (hn : 0 < L.length) : isWordAt (L.take n).getLast? = true := by
  have hne : L.take n ≠ [] := by
    intro e
    have := congrArg List.length e
    simp only [List.length_take, List.length_nil] at this
    omega
  rw [List.getLast?_eq_getLast _ hne]
  exact hL _ (List.take_subset n L (List.getLast_mem hne))

theorem isWordAt_head?_drop (L : Str) (n : Nat) (hL : ∀ c ∈ L, isWordChar c = true)
    (hn : n < L.length) : isWordAt (L.drop n).head? = true := by
  cases h : L.drop n with
  | nil =>
    have := congrArg List.length h
    simp only [List.length_drop, List.length_nil] at this
    omega
  | cons c cs =>
    have : c ∈ L := List.drop_subset n L (h ▸ List.mem_cons_self c cs)
    exact hL c this

theorem wholeWordAt_bound (k s : Str) (i : Nat) (hi : i < s.length + 1)
    (h : WholeWordAt k s i) : i + k.length ≤ s.length := by
  have := congrArg List.length h.1
  simp only [List.length_map, List.length_take, List.length_drop] at this
  omega

theorem not_occurs_of_longer (k s : Str) (h : s.length < k.length) : ¬ WholeWordOccurs k s := by
  rintro ⟨i, hi, hw⟩
  have := wholeWordAt_bound k s i hi hw
  omega

/-- A key shorter than a word does not stand in it as a whole word. -/
theorem not_occurs_of_shorter (k L : Str) (hk : k ≠ []) (hL : ∀ c ∈ L, isWordChar c = true)
    (hlen : k.length < L.length) : ¬ WholeWordOccurs k L := by
  rintro ⟨i, hi, hw⟩
  have hb := wholeWordAt_bound k L i hi hw
  have hkl : 0 < k.length := List.length_pos.2 hk
  obtain ⟨_, h1, h2⟩ := hw
  rcases Nat.eq_zero_or_pos i with rfl | hpos
  · apply h2
    rw [isWordAt_getLast?_take L _ hL (by omega) (by omega),
      isWordAt_head?_drop L _ hL (by omega)]
  · apply h1
    rw [isWordAt_getLast?_take L _ hL hpos (by omega), isWordAt_head?_drop L _ hL (by omega)]

theorem eq_takeWhile_append (k : Str) (l : List Str) (h : k ∈ l) :
    ∃ rest, l = l.takeWhile (fun x => decide (x ≠ k)) ++ k :: rest := by
  induction l with
  | nil => simp at h
  | cons x xs ih =>
    by_cases e : x = k
    · subst e
      exact ⟨xs, by simp [List.takeWhile]⟩
    · rcases List.mem_cons.1 h with h | h
      · exact absurd h.symm e
      · obtain ⟨rest, hr⟩ := ih h
        refine ⟨rest, ?_⟩
        rw [List.takeWhile_cons_of_pos (by simpa using e), List.cons_append, ← hr]

theorem append_cons_left_unique (k : Str) (a a' b b' : List Str)
    (h : a ++ k :: b = a' ++ k :: b') (ha : k ∉ a) (ha' : k ∉ a') : a = a' := by
  induction a generalizing a' with
  | nil =>
    cases a' with
    | nil => rfl
    | cons y ys =>
      simp only [List.nil_append, List.cons_append, List.cons.injEq] at h
      exact absurd (h.1 ▸ List.mem_cons_self _ _) ha'
  | cons x xs ih =>
    cases a' with
    | nil =>
      simp only [List.nil_append, List.cons_append, List.cons.injEq] at h
      exact absurd (h.1 ▸ List.mem_cons_self _ _) ha
    | cons y ys =>
      simp only [List.cons_append, List.cons.injEq] at h
      rw [h.1, ih ys h.2 (fun m => ha (List.mem_cons_of_mem _ m))
        (fun m => ha' (List.mem_cons_of_mem _ m))]

/-- The keys of the length of `k` that are processed before `k` are those that stand before it
in `Object.keys`. -/
theorem mem_takeWhile_of_before (d : Dict) (k x : Str) (before after : List Str)
    (hs : sortedKeys d = before ++ k :: after) (hx : x ∈ before) (hlen : x.length = k.length) :
    x ∈ (objectKeys d).takeWhile (fun y => decide (y ≠ k)) := by
  have hnd := nodup_sortedKeys d
  rw [hs] at hnd
  have hkb : k ∉ before := fun m => (List.nodup_append.1 hnd).2.2 m (List.mem_cons_self _ _)
  have hko : k ∈ objectKeys d := by
    have : k ∈ sortedKeys d := by rw [hs]; simp
    exact (sortByLength_perm _).mem_iff.1 this
  obtain ⟨rest, hr⟩ := eq_takeWhile_append k _ hko
  have hkt : k ∉ (objectKeys d).takeWhile (fun y => decide (y ≠ k)) := by
    intro m
    have := List.mem_takeWhile_imp m
    simp at this
  have hst := filter_sortByLength (objectKeys d) k.length
  change (sortedKeys d).filter _ = _ at hst
  rw [hs] at hst
  rw [hr] at hst
  rw [List.filter_append, List.filter_append, List.filter_cons_of_pos (by simp),
    List.filter_cons_of_pos (by simp)] at hst
  have := append_cons_left_unique k _ _ _ _ hst
    (fun m => hkb (List.mem_filter.1 m).1) (fun m => hkt (List.mem_filter.1 m).1)
  have hxf : x ∈ before.filter (fun y => decide (y.length = k.length)) :=
    List.mem_filter.2 ⟨hx, by simpa using hlen⟩
  rw [this] at hxf
  exact (List.mem_filter.1 hxf).1

theorem convertKeys_single_word_record (d : Dict) (n : Nat) (before after : List Str)
    (k v L R : Str) (hv : getProp d k = some v)
    (hb : ∀ x ∈ before, x ∈ d.map Prod.fst ∧ ¬ WholeWordOccurs x L)
    (ha : ∀ x ∈ after, x ∈ d.map Prod.fst ∧ ¬ WholeWordOccurs x R)
    (hm : matchAll k L = [L]) (hr : replacementFor k v L = some R) (hd : '$' ∉ R)
    (hne : L ≠ R) :
    convertKeys d n (before ++ k :: after) (L, []) = some (R, [⟨n, L, R⟩]) := by
  rw [convertKeys_append]
  rw [convertKeys_no_match d n before L [] (fun x hx => (hb x hx).1)
    (fun x hx => matchAll_eq_nil_of_not_occurs x L (hb x hx).2)]
  simp only [Option.some_bind, convertKeys, hv, hm, applyMatches, hr]
  rw [if_pos hne]
  simp only [replace_self L R hd]
  rw [convertKeys_no_match d n after R _ (fun x hx => (ha x hx).1)
    (fun x hx => matchAll_eq_nil_of_not_occurs x R (ha x hx).2)]
  rfl

/-- A line that is one word matched by the key `k`, whose replacement is a longer word: the
result is the replacement, with one record, when no key before `k` in `Object.keys` matches
the line and no key is empty. -/
theorem convertToBritish_single_word_first (d : Dict) (n : Nat) (k v L R : Str)
    (hv : getProp d k = some v)
    (hfirst : ∀ x ∈ (objectKeys d).takeWhile (fun y => decide (y ≠ k)), ¬ WholeWordOccurs x L)
    (hempty : ∀ kv ∈ d, kv.1 ≠ [])
    (hm : matchAll k L = [L]) (hr : replacementFor k v L = some R) (hd : '$' ∉ R)
    (hne : L ≠ R) (hLk : L.length = k.length) (hR : ∀ c ∈ R, isWordChar c = true)
    (hRk : k.length < R.length) :
    convertToBritish d L n = some (R, [⟨n, L, R⟩]) := by
  have hmem : k ∈ sortedKeys d :=
    (mem_sortedKeys d k).2 (List.mem_map.2 ⟨(k, v), mem_of_getProp d k v hv, rfl⟩)
  obtain ⟨before, after, hsplit⟩ := List.append_of_mem hmem
  have hsorted : (sortedKeys d).Pairwise (fun a b => b.length ≤ a.length) :=
    sortByLength_pairwise _
  rw [hsplit] at hsorted
  have hin : ∀ x, x ∈ before ∨ x ∈ after → x ∈ d.map Prod.fst := by
    intro x hx
    apply (mem_sortedKeys d x).1
    rw [hsplit]
    rcases hx with hx | hx
    · exact List.mem_append_left _ hx
    · exact List.mem_append_right _ (List.mem_cons_of_mem _ hx)
  unfold convertToBritish
  rw [hsplit]
  apply convertKeys_single_word_record d n before after k v L R hv _ _ hm hr hd hne
  · intro x hx
    refine ⟨hin x (Or.inl hx), ?_⟩
    have hle : k.length ≤ x.length :=
      (List.pairwise_append.1 hsorted).2.2 x hx k (List.mem_cons_self _ _)
    rcases Nat.eq_or_lt_of_le hle with e | hlt
    · exact hfirst x (mem_takeWhile_of_before d k x before after hsplit hx e.symm)
    · exact not_occurs_of_longer x L (by omega)
  · intro x hx
    refine ⟨hin x (Or.inr hx), ?_⟩
    have hle : x.length ≤ k.length :=
      (List.pairwise_cons.1 (List.pairwise_append.1 hsorted).2.1).1 x hx
    obtain ⟨kv, hkv, rfl⟩ := List.mem_map.1 (hin x (Or.inr hx))
    exact not_occurs_of_shorter kv.1 R (hempty kv hkv) hR (by omega)

theorem applyMatches_originals (k v : Str) (n : Nat) (ms : List Str) (t : Str) (cs : List Change)
    (st : Str × List Change) (h : applyMatches k v n ms (t, cs) = some st) :
    ∃ new, st.2 = cs ++ new ∧ ∀ c ∈ new, c.original ∈ ms := by
  induction ms generalizing t cs with
  | nil =>
    simp only [applyMatches, Option.some.injEq] at h
    subst h
    exact ⟨[], by simp, by simp⟩
  | cons w ws ih =>
    unfold applyMatches at h
    cases hr : replacementFor k v w with
    | none => rw [hr] at h; simp at h
    | some r =>
      rw [hr] at h
      simp only at h
      split_ifs at h with hne
      · obtain ⟨new, h1, h2⟩ := ih _ _ h
        refine ⟨⟨n, w, r⟩ :: new, by rw [h1]; simp, ?_⟩
        intro c hc
        rcases List.mem_cons.1 hc with e | hc
        · rw [e]; exact List.mem_cons_self _ _
        · exact List.mem_cons_of_mem _ (h2 c hc)
      · obtain ⟨new, h1, h2⟩ := ih _ _ h
        exact ⟨new, h1, fun c hc => List.mem_cons_of_mem _ (h2 c hc)⟩

/-- The records pushed by the loop over the keys: each has the length of its key, and when the
keys come longest first the records come in non-increasing order of that length. -/
theorem convertKeys_changes_lengths (d : Dict) (n : Nat) (keys : List Str) (t : Str)
    (cs : List Change) (st : Str × List Change)
    (hs : keys.Pairwise (fun a b => b.length ≤ a.length))
    (h : convertKeys d n keys (t, cs) = some st) :
    ∃ new, st.2 = cs ++ new ∧
      (new.map (fun c => c.original.length)).Pairwise (fun a b => b ≤ a) ∧
      ∀ c ∈ new, ∃ k ∈ keys, c.original.length = k.length := by
  induction keys generalizing t cs with
  | nil =>
    simp only [convertKeys, Option.some.injEq] at h
    subst h
    exact ⟨[], by simp, by simp, by simp⟩
  | cons k ks ih =>
    obtain ⟨hk, hks⟩ := List.pairwise_cons.1 hs
    unfold convertKeys at h
    cases hv : getProp d k with
    | none => rw [hv] at h; simp at h
    | some v =>
      rw [hv] at h
      simp only at h
      cases ha : applyMatches k v n (matchAll k t) (t, cs) with
      | none => rw [ha] at h; simp at h
      | some st1 =>
        rw [ha] at h
        simp only at h
        obtain ⟨new1, e1, m1⟩ := applyMatches_originals k v n _ t cs st1 ha
        obtain ⟨t1, cs1⟩ := st1
        obtain ⟨new2, e2, p2, m2⟩ := ih t1 cs1 hks h
        have l1 : ∀ c ∈ new1, c.original.length = k.length := fun c hc => by
          simpa using congrArg List.length (mem_matchAll k t _ (m1 c hc))
        simp only at e1
        refine ⟨new1 ++ new2, by rw [e2, e1, List.append_assoc], ?_, ?_⟩
        · rw [List.map_append, List.pairwise_append]
          refine ⟨?_, p2, ?_⟩
          · apply List.pairwise_of_forall_mem_list
            intro a ha' b hb'
            obtain ⟨c, hc, rfl⟩ := List.mem_map.1 ha'
            obtain ⟨c', hc', rfl⟩ := List.mem_map.1 hb'
            rw [l1 c hc, l1 c' hc']
          · intro a ha' b hb'
            obtain ⟨c, hc, rfl⟩ := List.mem_map.1 ha'
            obtain ⟨c', hc', rfl⟩ := List.mem_map.1 hb'
            obtain ⟨k', hk', e⟩ := m2 c' hc'
            rw [l1 c hc, e]
            exact hk k' hk'
        · intro c hc
          rcases List.mem_append.1 hc with hc | hc
          · exact ⟨k, List.mem_cons_self _ _, l1 c hc⟩
          · obtain ⟨k', hk', e⟩ := m2 c hc
            exact ⟨k', List.mem_cons_of_mem _ hk', e⟩

/-- C6 (counterexample): a dictionary that holds `color` to `colour` and `colorize` to
`colourise` need not turn the line `colorize` into `colourise`.  With the entry `Colorize` to
`tint` standing first, that key has the same length, is processed first and matches, so the
line becomes `tint`; with an entry for the empty key, which is processed last, the result is
`xxcolourise` with three records. -/
theorem longest_key_first_counterexample :
    getProp [("Colorize".toList, "tint".toList), ("color".toList, "colour".toList),
        ("colorize".toList, "colourise".toList)] "color".toList = some "colour".toList ∧
    getProp [("Colorize".toList, "tint".toList), ("color".toList, "colour".toList),
        ("colorize".toList, "colourise".toList)] "colorize".toList = some "colourise".toList ∧
    convertToBritish [("Colorize".toList, "tint".toList), ("color".toList, "colour".toList),
        ("colorize".toList, "colourise".toList)] "colorize".toList 1 =
      some ("tint".toList, [⟨1, "colorize".toList, "tint".toList⟩]) ∧
    convertToBritish [("color".toList, "colour".toList),
        ("colorize".toList, "colourise".toList), ([], "x".toList)] "colorize".toList 1 =
      some ("xxcolourise".toList, [⟨1, "colorize".toList, "colourise".toList⟩,
        ⟨1, [], "x".toList⟩, ⟨1, [], "x".toList⟩]) := by
  decide

/-- C6 (amended): the keys are processed in non-increasing order of length, so the change
records of a line come in non-increasing order of the length of the matched word.  For an ASCII
dictionary without an empty key that maps `colorize` to `colourise`, and in which no key
standing before `colorize` in `Object.keys` matches the line `colorize` as a whole word, the
line `colorize` becomes `colourise` with the single change record of the `colorize` rule.
With `gas` to `petrol` and `gas station` to `filling station`, the line `gas station` becomes
`filling station`: the longer key is applied, not the shorter one. -/
theorem convertToBritish_longest_key_first (d : Dict) (lineNumber : Nat)
    (_hascii : AsciiDict d)
    (hlong : getProp d "colorize".toList = some "colourise".toList)
    (hfirst : ∀ k ∈ (objectKeys d).takeWhile (fun k => decide (k ≠ "colorize".toList)),
      ¬ WholeWordOccurs k "colorize".toList)
    (hempty : ∀ kv ∈ d, kv.1 ≠ []) :
    convertToBritish d "colorize".toList lineNumber =
      some ("colourise".toList, [⟨lineNumber, "colorize".toList, "colourise".toList⟩]) ∧
    (sortedKeys d).Pairwise (fun a b => b.length ≤ a.length) ∧
    (∀ (text : Str) (n : Nat), ∃ st, convertToBritish d text n = some st ∧
      (st.2.map (fun c => c.original.length)).Pairwise (fun a b => b ≤ a)) ∧
    convertToBritish [("gas".toList, "petrol".toList),
        ("gas station".toList, "filling station".toList)] "gas station".toList lineNumber =
      some ("filling station".toList,
        [⟨lineNumber, "gas station".toList, "filling station".toList⟩]) := by
  refine ⟨?_, sortByLength_pairwise _, ?_, rfl⟩
  · exact convertToBritish_single_word_first d lineNumber "colorize".toList "colourise".toList
      "colorize".toList "colourise".toList hlong hfirst hempty (by decide) (by decide)
      (by decide) (by decide) (by decide) (by decide) (by decide)
  · intro text n
    obtain ⟨st, h⟩ := convertToBritish_isSome d text n
    refine ⟨st, h, ?_⟩
    obtain ⟨new, e, p, _⟩ :=
      convertKeys_changes_lengths d n (sortedKeys d) text [] st (sortByLength_pairwise _) h
    rw [e]
    exact p

theorem convertToBritish_longest_key_first_witness :
    AsciiDict [("color".toList, "colour".toList), ("colorize".toList, "colourise".toList),
        ("Colorize".toList, "tint".toList), ("COLOURISE".toList, "y".toList)] ∧
    getProp [("color".toList, "colour".toList), ("colorize".toList, "colourise".toList),
        ("Colorize".toList, "tint".toList), ("COLOURISE".toList, "y".toList)] "colorize".toList = some "colourise".toList ∧
    (∀ k ∈ (objectKeys [("color".toList, "colour".toList), ("colorize".toList, "colourise".toList),
        ("Colorize".toList, "tint".toList), ("COLOURISE".toList, "y".toList)]).takeWhile (fun k => decide (k ≠ "colorize".toList)),
      ¬ WholeWordOccurs k "colorize".toList) ∧
    (∀ kv ∈ [("color".toList, "colour".toList), ("colorize".toList, "colourise".toList),
        ("Colorize".toList, "tint".toList), ("COLOURISE".toList, "y".toList)], kv.1 ≠ []) ∧
    convertToBritish [("color".toList, "colour".toList), ("colorize".toList, "colourise".toList),
        ("Colorize".toList, "tint".toList), ("COLOURISE".toList, "y".toList)] "colorize".toList 4 =
      some ("colourise".toList, [⟨4, "colorize".toList, "colourise".toList⟩]) :=
  ⟨by decide, by decide, by decide, by decide,
    (convertToBritish_longest_key_first _ 4 (by decide) (by decide) (by decide) (by decide)).1⟩

end ConvertToBritish
